import Mathlib

/-
  Verification of the compylr finite-automata / lexer / parser-generator core
  (fsa.py, lexer.py, lexergen.py, parsergen.py, regexpr.py).

  Shallow embedding conventions:
  * Python lists become Lean lists; Python dicts become association lists
    in insertion order (when the code iterates over their items or when they
    are part of first-order data) or Lean functions (when only looked up).
  * Python worklist loops become fuel-indexed recursive functions returning
    `Option`; `none` means the fuel ran out or a Python exception (IndexError,
    KeyError) was raised.  Theorems about a loop's result are stated
    conditionally on the loop returning `some` result; witnesses show the
    hypothesis is satisfied on concrete inputs.
  * A Python set is embedded as a `Finset` where only membership matters, and
    as a duplicate-free list when the code iterates over it (the list order is
    one fixed resolution of Python's unspecified set iteration order).
  * Machine integers are `Int` / `Nat`; the -1 "no transition" sentinel keeps
    its integer identity, and `pyGet` reproduces Python's negative-index
    semantics for list subscripts.
-/

set_option maxRecDepth 4400

namespace Compylr

/-- fsa.py: automata process input byte-by-byte; the alphabet has 256 symbols. -/
def NUM_CHARS : Nat := 256

/-- fsa.py: symbol representing an epsilon transition (EPSILON = NUM_CHARS). -/
def EPSILON : Nat := 256

/-- Python list subscript `l[i]`: a negative index `i` addresses `l[len(l)+i]`;
an out-of-range index raises IndexError, embedded as `none`. -/
def pyGet (l : List α) (i : Int) : Option α :=
  if 0 ≤ i then l.get? i.toNat
  else if (-i) ≤ (l.length : Int) then l.get? ((l.length : Int) + i).toNat
  else none

/-- Python `dict.get(key, set())` on a state-to-tag-set dictionary (an
association list with state keys), queried at a possibly negative integer. -/
def aGet (m : List (Nat × Finset Nat)) (i : Int) : Finset Nat :=
  match m.find? (fun e => (e.1 : Int) == i) with
  | some e => e.2
  | none => ∅

/-- Python `dict[key] = value` on the same kind of dictionary: overwrite the
entry if the key is present, otherwise append it (insertion order). -/
def aPut (m : List (Nat × Finset Nat)) (k : Nat) (v : Finset Nat) :
    List (Nat × Finset Nat) :=
  if m.any (fun e => e.1 == k) then
    m.map (fun e => if e.1 == k then (e.1, v) else e)
  else m ++ [(k, v)]

/-- fsa.py class DFA.  `transitions` is the list of per-state rows (a row is
the Python list of 256 entries, each the next state or the sentinel -1);
`outputs` is the state-to-tag-set dictionary (per the data model, present
keys carry non-empty tag sets); `initial_state` is -1 until set. -/
structure DFA where
  transitions : List (List Int)
  outputs : List (Nat × Finset Nat)
  initial_state : Int
  deriving DecidableEq

/-- fsa.py DFA.add_state appends a fresh row `[-1 for _ in range(NUM_CHARS)]`. -/
def newRow : List Int := List.replicate NUM_CHARS (-1)

/-- The write `dfa.transitions[state][symbol] = v` (no-op on a missing row;
the algorithms only ever write to allocated rows). -/
def setTrans (t : List (List Int)) (state symbol : Nat) (v : Int) :
    List (List Int) :=
  match t.get? state with
  | none => t
  | some row => t.set state (row.set symbol v)

/-- Semantic step of a DFA on byte `c`: the sentinel -1 (or any index without
a table entry) is a dead state.  This is the data model's reading of the
transition table, used to define the language of a DFA. -/
def DFA.step (d : DFA) (s : Int) (c : Nat) : Int :=
  if 0 ≤ s then
    match d.transitions.get? s.toNat with
    | some row => (row.get? c).getD (-1)
    | none => -1
  else -1

/-- State reached from `s` after consuming the byte string `w`. -/
def DFA.runFrom (d : DFA) (s : Int) (w : List Nat) : Int := w.foldl d.step s

/-- Semantic acceptance of a byte string: the run from the initial state ends
in a state with a non-empty outputs entry. -/
def DFA.acceptsb (d : DFA) (w : List Nat) : Bool :=
  decide (aGet d.outputs (d.runFrom d.initial_state w) ≠ ∅)

/- ==================== fsa.py DFA.is_sink_state ==================== -/

/-- Worklist of fsa.py DFA.is_sink_state, one iteration per unit of fuel.
The Python sets `explored` and `frontier` are embedded as duplicate-free
lists; the frontier's head is popped (a fixed resolution of the arbitrary
order of `set.pop()`), and a popped state is never already in `explored`,
so consing onto `explored` keeps it duplicate-free. -/
def isSinkLoop (d : DFA) : Nat → List Int → List Int → Option Bool
  | 0, _, _ => none
  | fuel+1, explored, frontier =>
    match frontier with
    | [] => some true
    | s :: rest =>
      let explored' := s :: explored
      if aGet d.outputs s ≠ ∅ then some false
      else
        match pyGet d.transitions s with
        | none => none
        | some row =>
          let fr := (List.range NUM_CHARS).foldl
            (fun fr c =>
              let next := (row.get? c).getD (-1)
              if next ∈ explored' then fr
              else if next ∈ fr then fr else fr ++ [next])
            rest
          isSinkLoop d fuel explored' fr

/-- fsa.py DFA.is_sink_state, with fuel. -/
def DFA.is_sink_state (d : DFA) (state : Int) (fuel : Nat) : Option Bool :=
  isSinkLoop d fuel [] [state]

/-- Claim-side definition (spec wording): `t` is a defined-transition successor
of `s` when some byte's table entry at row `s` is the valid state index `t`. -/
def definedStep (d : DFA) (s t : Nat) : Prop :=
  ∃ c < NUM_CHARS, ∃ row, d.transitions.get? s = some row ∧ row.get? c = some (t : Int)

/-- Claim-side definition: forward reachability over defined transitions. -/
def ReachableSpec (d : DFA) : Nat → Nat → Prop :=
  Relation.ReflTransGen (definedStep d)

/-- Claim-side definition: `s` is a sink when no accepting state (non-empty
outputs entry) is reachable from `s`, including `s` itself. -/
def IsSinkSpec (d : DFA) (s : Nat) : Prop :=
  ∀ t, ReachableSpec d s t → aGet d.outputs (t : Int) = ∅

/- Counterexample data for C6: states 0 and 1 have no outgoing transitions,
state 2 (the last row) maps byte 97 to the accepting state 1. -/

def rowSinkLast : List Int := newRow.set 97 1

def dfaC6 : DFA := ⟨[newRow, newRow, rowSinkLast], [(1, {5})], 0⟩

theorem dfaC6_no_defined_step : ∀ t : Nat, ¬ definedStep dfaC6 0 t := by
  rintro t ⟨c, hc, row, hrow, hval⟩
  have hr : newRow = row := by
    simpa [dfaC6, List.get?] using hrow
  subst hr
  have hv : (-1 : Int) = (t : Int) := by
    have hcl : c < newRow.length := by
      simpa [newRow, NUM_CHARS] using hc
    have : newRow.get? c = some (-1) := by
      rw [List.get?_eq_get hcl]
      simp [newRow]
    rw [this] at hval
    exact Option.some.inj hval
  omega

/-- C6: on `dfaC6`, the code's is_sink_state answers `false` for state 0 even
though no accepting state is reachable from state 0 over defined transitions
(the claim demands `true`): the worklist enqueues the -1 sentinel and then
reads `transitions[-1]`, which Python resolves to the last row. -/
theorem c6_is_sink_state_follows_undefined_transitions :
    DFA.is_sink_state dfaC6 0 10 = some false ∧ IsSinkSpec dfaC6 0 := by
  constructor
  · decide
  · intro t ht
    rcases (Relation.ReflTransGen.cases_head ht) with h | ⟨u, hu, _⟩
    · subst h; decide
    · exact absurd hu (dfaC6_no_defined_step u)

/- ==================== fsa.py DFA.union ==================== -/

/-- Lookup in the Python dict `state_map` of DFA.union (pair of component
states, possibly -1, to product-state index), as an association list in
insertion order. -/
def lookupPair (m : List ((Int × Int) × Nat)) (p : Int × Int) : Option Nat :=
  match m.find? (fun e => e.1 == p) with
  | some e => some e.2
  | none => none

/-- Body of the `for symbol in range(0, NUM_CHARS)` loop of fsa.py DFA.union:
compute the componentwise next pair (`transitions[pair[i]][symbol]`, with
Python's negative-index semantics via `pyGet`), allocate a product state for
an unseen pair, and write the product transition.  The accumulator carries
(state_map, frontier, product transition table). -/
def unionSym (lhs rhs : DFA) (p : Int × Int) (state : Nat)
    (acc : List ((Int × Int) × Nat) × List (Int × Int) × List (List Int))
    (symbol : Nat) :
    Option (List ((Int × Int) × Nat) × List (Int × Int) × List (List Int)) :=
  match acc with
  | (mp, fr, tr) =>
    match pyGet lhs.transitions p.1, pyGet rhs.transitions p.2 with
    | some lrow, some rrow =>
      match lrow.get? symbol, rrow.get? symbol with
      | some lv, some rv =>
        let nextPair : Int × Int := (lv, rv)
        match lookupPair mp nextPair with
        | some nid => some (mp, fr, setTrans tr state symbol nid)
        | none =>
          let nid := tr.length
          some (mp ++ [(nextPair, nid)], nextPair :: fr,
            setTrans (tr ++ [newRow]) state symbol nid)
      | _, _ => none
    | _, _ => none

/-- Worklist of fsa.py DFA.union, one popped pair per unit of fuel.  The
Python frontier list is popped from its end; it is embedded with that end at
the head, so the pushes of one iteration are consed in symbol order. -/
def unionLoop (lhs rhs : DFA) :
    Nat → List ((Int × Int) × Nat) → List (Int × Int) → List (List Int) →
    List (Nat × Finset Nat) → Option DFA
  | 0, _, _, _, _ => none
  | fuel+1, mp, frontier, tr, outs =>
    match frontier with
    | [] => some ⟨tr, outs, 0⟩
    | p :: rest =>
      match lookupPair mp p with
      | none => none
      | some state =>
        match (List.range NUM_CHARS).foldlM (unionSym lhs rhs p state)
            (mp, rest, tr) with
        | none => none
        | some (mp', fr', tr') =>
          let lout := aGet lhs.outputs p.1
          let rout := aGet rhs.outputs p.2
          let outs' :=
            if lout ≠ ∅ ∨ rout ≠ ∅ then
              aPut outs state (aGet outs (state : Int) ∪ lout ∪ rout)
            else outs
          unionLoop lhs rhs fuel mp' fr' tr' outs'

/-- fsa.py DFA.union: the product DFA's initial state is `add_state() = 0`,
mapped from the pair of the two initial states. -/
def DFA.union (lhs rhs : DFA) (fuel : Nat) : Option DFA :=
  unionLoop lhs rhs fuel [((lhs.initial_state, rhs.initial_state), 0)]
    [(lhs.initial_state, rhs.initial_state)] [newRow] []

/- Counterexample data for C4: `dfaC4A` accepts exactly the strings
97·98·98…98 (byte 97 then any number of 98s); `dfaC4B` accepts nothing. -/

def rowC4A0 : List Int := newRow.set 97 1

def rowC4A1 : List Int := newRow.set 98 1

def dfaC4A : DFA := ⟨[rowC4A0, rowC4A1], [(1, {1})], 0⟩

def dfaC4B : DFA := ⟨[newRow], [], 0⟩

/- Intermediate worklist states of `DFA.union dfaC4A dfaC4B`, one lemma per
popped pair, each proved by reduction of a single iteration. -/

def c4m1 : List ((Int × Int) × Nat) := [((0, 0), 0), ((-1, -1), 1), ((1, -1), 2)]

def c4t1 : List (List Int) := [(List.replicate 256 1).set 97 2, newRow, newRow]

def c4t2 : List (List Int) :=
  [(List.replicate 256 1).set 97 2, newRow, (List.replicate 256 1).set 98 2]

def c4t3 : List (List Int) :=
  [(List.replicate 256 1).set 97 2, (List.replicate 256 1).set 98 2,
    (List.replicate 256 1).set 98 2]

/-- The product DFA the code actually builds for `dfaC4A`, `dfaC4B`. -/
def dfaC4U : DFA := ⟨c4t3, [(2, {1})], 0⟩

theorem c4_union_iter1 (n : Nat) :
    unionLoop dfaC4A dfaC4B (n+1) [((0, 0), 0)] [(0, 0)] [newRow] [] =
      unionLoop dfaC4A dfaC4B n c4m1 [(1, -1), (-1, -1)] c4t1 [] := rfl

theorem c4_union_iter2 (n : Nat) :
    unionLoop dfaC4A dfaC4B (n+1) c4m1 [(1, -1), (-1, -1)] c4t1 [] =
      unionLoop dfaC4A dfaC4B n c4m1 [(-1, -1)] c4t2 [(2, {1})] := rfl

theorem c4_union_iter3 (n : Nat) :
    unionLoop dfaC4A dfaC4B (n+1) c4m1 [(-1, -1)] c4t2 [(2, {1})] =
      unionLoop dfaC4A dfaC4B n c4m1 [] c4t3 [(2, {1})] := rfl

theorem c4_union_eval : DFA.union dfaC4A dfaC4B 4 = some dfaC4U := by
  calc DFA.union dfaC4A dfaC4B 4
      = unionLoop dfaC4A dfaC4B 4 [((0, 0), 0)] [(0, 0)] [newRow] [] := rfl
    _ = unionLoop dfaC4A dfaC4B 3 c4m1 [(1, -1), (-1, -1)] c4t1 [] :=
        c4_union_iter1 3
    _ = unionLoop dfaC4A dfaC4B 2 c4m1 [(-1, -1)] c4t2 [(2, {1})] :=
        c4_union_iter2 2
    _ = unionLoop dfaC4A dfaC4B 1 c4m1 [] c4t3 [(2, {1})] := c4_union_iter3 1
    _ = some dfaC4U := rfl

/-- C4: the union built by the code for `dfaC4A` (language 97·98*) and
`dfaC4B` (empty language) accepts the string [98, 98], which neither input
accepts: a -1 pair component does not behave as a dead state, because
`transitions[-1]` resolves to the last row under Python's negative indexing. -/
theorem c4_union_accepts_string_outside_language_union :
    (DFA.union dfaC4A dfaC4B 4).map (fun u => u.acceptsb [98, 98]) = some true ∧
      dfaC4A.acceptsb [98, 98] = false ∧ dfaC4B.acceptsb [98, 98] = false := by
  refine ⟨?_, by decide, by decide⟩
  rw [c4_union_eval]
  decide

/- ==================== fsa.py NFA ==================== -/

/-- fsa.py class NFA.  `transitions` is the dict mapping `(state, symbol)` to
the set of target states, embedded as an association list in insertion order
(Python dict keys are unique; theorems assume key uniqueness where needed);
`outputs` is the state-to-tag-set dictionary.  The claims only concern NFAs
whose initial state has been set to a valid (natural) state. -/
structure NFA where
  transitions : List ((Nat × Nat) × List Nat)
  outputs : List (Nat × Finset Nat)
  initial_state : Nat
  deriving DecidableEq

/-- Target set of `(s, c)`: `transitions.get((s, c), empty)`.  A Python target
set is embedded as a duplicate-free list in a fixed iteration order. -/
def NFA.delta (n : NFA) (s c : Nat) : List Nat :=
  match n.transitions.find? (fun e => e.1 == (s, c)) with
  | some e => e.2
  | none => []

/-- Acceptance of a byte string from a state of an NFA: some path consuming
exactly the string (ε-edges, keyed by symbol EPSILON, consume nothing) ends
in an accepting state (a state with a non-empty outputs entry). -/
inductive NFA.Accepts (n : NFA) : Nat → List Nat → Prop
  | done {s : Nat} : aGet n.outputs (s : Int) ≠ ∅ → n.Accepts s []
  | step {s c t : Nat} {w : List Nat} : c ≠ EPSILON → t ∈ n.delta s c →
      n.Accepts t w → n.Accepts s (c :: w)
  | eps {s t : Nat} {w : List Nat} : t ∈ n.delta s EPSILON →
      n.Accepts t w → n.Accepts s w

/-- A byte string: all symbols below NUM_CHARS. -/
def ByteString (w : List Nat) : Prop := ∀ c ∈ w, c < NUM_CHARS

/- ==================== fsa.py NFA.epsilon_closure ==================== -/

/-- Worklist of fsa.py NFA.epsilon_closure, one pop per unit of fuel.  The
Python set `closure` is embedded as a duplicate-free list in insertion order
(`closure.add` appends when absent).  The frontier list is popped from its
end, embedded head-first; pushes of one iteration are therefore reversed
onto the front.  Iteration over the Python target set is embedded in
ascending order. -/
def epsClosureLoop (n : NFA) : Nat → List Nat → List Nat → Option (List Nat)
  | 0, _, _ => none
  | fuel+1, closure, frontier =>
    match frontier with
    | [] => some closure
    | s :: rest =>
      let closure' := if s ∈ closure then closure else closure ++ [s]
      match n.transitions.find? (fun e => e.1 == (s, EPSILON)) with
      | none => epsClosureLoop n fuel closure' rest
      | some e =>
        let pushes := e.2.filter (fun t => t ∉ closure')
        epsClosureLoop n fuel closure' (pushes.reverse ++ rest)

/-- fsa.py NFA.epsilon_closure, with fuel; returns the closure as the list of
states in insertion order. -/
def NFA.epsilon_closure (n : NFA) (s : Nat) (fuel : Nat) : Option (List Nat) :=
  epsClosureLoop n fuel [] [s]

/- ==================== fsa.py NFA.remove_epsilons ==================== -/

/-- fsa.py NFA.remove_epsilons' helper get_new_state: look the source state up
in the `state_ids` dict, allocating the next fresh id of the NFA being built
when absent.  Returns (id, updated dict, updated allocation counter); the
Python counter `next_state` starts at -1 and pre-increments, embedded as the
count of allocated states. -/
def getNewState (ids : List (Nat × Nat)) (cnt : Nat) (s : Nat) :
    Nat × List (Nat × Nat) × Nat :=
  match ids.find? (fun e => e.1 == s) with
  | some e => (e.2, ids, cnt)
  | none => (cnt, ids ++ [(s, cnt)], cnt + 1)

/-- fsa.py NFA.add_transition: insert the target into the set stored under
`(old_state, symbol)`, creating the entry when absent. -/
def addTransition (tr : List ((Nat × Nat) × List Nat)) (old new symbol : Nat) :
    List ((Nat × Nat) × List Nat) :=
  if tr.any (fun e => e.1 == (old, symbol)) then
    tr.map (fun e =>
      if e.1 == (old, symbol) then
        (e.1, if new ∈ e.2 then e.2 else e.2 ++ [new])
      else e)
  else tr ++ [((old, symbol), [new])]

/-- Accumulator of one `for intermediate_state in epsilon_closure(state)`
iteration of remove_epsilons: allocation state of the new NFA, its
transitions and outputs built so far, and the frontier pushes in append
order. -/
structure REAcc where
  cnt : Nat
  ids : List (Nat × Nat)
  ntr : List ((Nat × Nat) × List Nat)
  nouts : List (Nat × Finset Nat)
  pushes : List Nat
  deriving DecidableEq

/-- Innermost loop body of remove_epsilons (`for next_state in states`):
allocate an id for the target, add the transition in the new NFA, and
record the frontier push. -/
def reTarget (newState symbol : Nat) (acc : REAcc) (u : Nat) : REAcc :=
  match getNewState acc.ids acc.cnt u with
  | (nid, ids', cnt') =>
    { cnt := cnt', ids := ids',
      ntr := addTransition acc.ntr newState nid symbol,
      nouts := acc.nouts, pushes := acc.pushes ++ [u] }

/-- Middle loop body of remove_epsilons (`for (s, symbol), states in
self.transitions.items()`): skip entries whose source is not the current
closure member or whose symbol is EPSILON, else process every target
(iterating the Python target set in ascending order). -/
def reItem (newState t : Nat) (acc : REAcc) (e : (Nat × Nat) × List Nat) :
    REAcc :=
  if e.1.1 = t ∧ e.1.2 ≠ EPSILON then
    e.2.foldl (reTarget newState e.1.2) acc
  else acc

/-- Body of `for intermediate_state in self.epsilon_closure(state)`: if the
closure member `t` is a key of the source outputs dict, ASSIGN (overwrite)
the new state's outputs entry with a copy of `t`'s tag set, then scan all
transition items. -/
def reClosureStep (n : NFA) (newState : Nat) (acc : REAcc) (t : Nat) : REAcc :=
  let acc1 :=
    if n.outputs.any (fun e => e.1 == t) then
      { acc with nouts := aPut acc.nouts newState (aGet n.outputs (t : Int)) }
    else acc
  n.transitions.foldl (reItem newState t) acc1

/-- Worklist state of remove_epsilons. -/
structure REState where
  cnt : Nat
  ids : List (Nat × Nat)
  explored : List Nat
  frontier : List Nat
  ntr : List ((Nat × Nat) × List Nat)
  nouts : List (Nat × Finset Nat)
  deriving DecidableEq

/-- Worklist of fsa.py NFA.remove_epsilons, one pop per unit of fuel; `cfuel`
is passed to each epsilon_closure call.  The Python set `explored` only ever
receives states it does not contain (popped states are skipped when already
explored), so consing keeps it duplicate-free. -/
def removeEpsLoop (n : NFA) (cfuel : Nat) : Nat → REState → Option REState
  | 0, _ => none
  | fuel+1, st =>
    match st.frontier with
    | [] => some st
    | s :: rest =>
      if s ∈ st.explored then
        removeEpsLoop n cfuel fuel
          ⟨st.cnt, st.ids, st.explored, rest, st.ntr, st.nouts⟩
      else
        match getNewState st.ids st.cnt s with
        | (newState, ids1, cnt1) =>
          match n.epsilon_closure s cfuel with
          | none => none
          | some closureList =>
            match closureList.foldl (reClosureStep n newState)
                ⟨cnt1, ids1, st.ntr, st.nouts, []⟩ with
            | acc =>
              removeEpsLoop n cfuel fuel
                ⟨acc.cnt, acc.ids, s :: st.explored,
                  acc.pushes.reverse ++ rest, acc.ntr, acc.nouts⟩

/-- fsa.py NFA.remove_epsilons, with fuel: allocate the new initial state
(id 0) for the source initial state, run the worklist, and package the new
NFA. -/
def NFA.remove_epsilons (n : NFA) (cfuel fuel : Nat) : Option NFA :=
  match getNewState [] 0 n.initial_state with
  | (i0, ids0, cnt0) =>
    (removeEpsLoop n cfuel fuel ⟨cnt0, ids0, [], [n.initial_state], [], []⟩).map
      (fun st => { transitions := st.ntr, outputs := st.nouts,
                   initial_state := i0 })

/- Counterexample data for C3: state 0 has an ε-edge to state 1; both are
accepting, with tag sets that differ. -/

def nfaC3 : NFA := ⟨[((0, EPSILON), [1])], [(0, {1}), (1, {2})], 0⟩

/-- C3: in `nfaC3`, epsilon_closure(0) = [0, 1] and both closure members are
accepting with tag sets 1 and 2, but the new state built by
remove_epsilons carries tag set 2 only, not the union: the code ASSIGNS
`nfa.outputs[new_state] = set(...)` per accepting closure member, so the
last member iterated overwrites the earlier ones. -/
theorem c3_remove_epsilons_overwrites_tag_sets :
    nfaC3.epsilon_closure 0 10 = some [0, 1] ∧
      aGet nfaC3.outputs 0 = {1} ∧ aGet nfaC3.outputs 1 = {2} ∧
      (nfaC3.remove_epsilons 10 10).map (fun m => aGet m.outputs 0) =
        some {2} ∧
      ({2} : Finset Nat) ≠ {1} ∪ {2} := by
  refine ⟨by decide, by decide, by decide, by decide, by decide⟩

/- ==================== reserved symbols (parser.py) ==================== -/

/-- Modelled from the spec: parser.py is not under src/.  END is the reserved
end-of-input terminal; the reserved IDs are negative (spec section 6), and the
generated table in regexpr.py pins END = -1 (its ACCEPT cell is keyed -1). -/
def END : Int := -1

/-- Modelled from the spec: parser.py is not under src/.  NIL is the reserved
empty-string marker used in FIRST sets; -2 is the reserved slot between END
and the first user terminal of the generated table in regexpr.py. -/
def NIL : Int := -2

/-- Modelled from the spec: parser.py is not under src/.  GOAL is the reserved
augmented start non-terminal; non-terminals are non-negative, GOAL takes 0 and
user non-terminals are allocated 1, 2, ... (the generated table in regexpr.py
uses non-terminal IDs 1..7 for its seven user non-terminals). -/
def GOAL : Int := 0

/- ==================== lexer.py Lexer.get_next_token ==================== -/

/-- Inner loop of lexer.py Lexer.get_next_token (`for c in
self.source[old_position:]`): follow transitions while they exist, remembering
the output and end position of the most recent accepting state.  `trans` is
the generated transition dict (state, byte) to state, `outs` the generated
outputs dict state to terminal; both are only looked up, so they are embedded
as functions into `Option`. -/
def lexerLoop (trans : Nat → Nat → Option Nat) (outs : Nat → Option Int) :
    List Nat → Nat → Nat → Option Int → Nat → Option Int × Nat
  | [], _, _, lexeme, np => (lexeme, np)
  | c :: cs, state, p, lexeme, np =>
    match trans state c with
    | none => (lexeme, np)
    | some ns =>
      match outs ns with
      | some t => lexerLoop trans outs cs ns (p+1) (some t) (p+1)
      | none => lexerLoop trans outs cs ns (p+1) lexeme np

/-- lexer.py Lexer.get_next_token: returns (END, none) when the source is
exhausted, otherwise scans for the longest match and returns the committed
token with its lexeme and the updated position; `.error` is the raised
LexerError.  The initial-state acceptance check sets new_position to
position + 1 (exactly as in the source). -/
def getNextToken (trans : Nat → Nat → Option Nat) (initial : Nat)
    (outs : Nat → Option Int) (source : List Nat) (position : Nat) :
    Except Unit ((Int × Option (List Nat)) × Nat) :=
  if source.length ≤ position then .ok ((END, none), position)
  else
    let start : Option Int × Nat :=
      match outs initial with
      | some t => (some t, position + 1)
      | none => (none, position)
    match lexerLoop trans outs (source.drop position) initial position
        start.1 start.2 with
    | (none, _) => .error ()
    | (some t, np) =>
      .ok ((t, some ((source.drop position).take (np - position))), np)

/-- Claim-side longest-match loop (claim C8 wording): consume bytes while a
transition exists, remembering `(output, consumed count)` of the most recent
accepting state. -/
def lexSpecLoop (trans : Nat → Nat → Option Nat) (outs : Nat → Option Int) :
    List Nat → Nat → Nat → Option (Int × Nat) → Option (Int × Nat)
  | [], _, _, best => best
  | c :: cs, s, k, best =>
    match trans s c with
    | none => best
    | some ns =>
      lexSpecLoop trans outs cs ns (k+1)
        (match outs ns with | some t => some (t, k+1) | none => best)

/-- Claim-side definition of C8 as stated: the initial state, when accepting,
is remembered at the current position (zero bytes consumed), and the lexeme
runs exactly up to the last accepting position. -/
def getNextTokenClaim (trans : Nat → Nat → Option Nat) (initial : Nat)
    (outs : Nat → Option Int) (source : List Nat) (position : Nat) :
    Except Unit ((Int × Option (List Nat)) × Nat) :=
  if source.length ≤ position then .ok ((END, none), position)
  else
    let best0 : Option (Int × Nat) :=
      match outs initial with
      | some t => some (t, 0)
      | none => none
    match lexSpecLoop trans outs (source.drop position) initial 0 best0 with
    | none => .error ()
    | some b =>
      .ok ((b.1, some ((source.drop position).take b.2)), position + b.2)

/-- Claim-side definition of C8 as amended: identical to the claim except that
an accepting initial state is recorded one byte ahead (consumed count 1), so
when no later accepting state overrides it the committed lexeme is the first
byte and the position advances by one. -/
def getNextTokenAmended (trans : Nat → Nat → Option Nat) (initial : Nat)
    (outs : Nat → Option Int) (source : List Nat) (position : Nat) :
    Except Unit ((Int × Option (List Nat)) × Nat) :=
  if source.length ≤ position then .ok ((END, none), position)
  else
    let best0 : Option (Int × Nat) :=
      match outs initial with
      | some t => some (t, 1)
      | none => none
    match lexSpecLoop trans outs (source.drop position) initial 0 best0 with
    | none => .error ()
    | some b =>
      .ok ((b.1, some ((source.drop position).take b.2)), position + b.2)

theorem lexerLoop_eq_specLoop (trans : Nat → Nat → Option Nat)
    (outs : Nat → Option Int) (position : Nat) :
    ∀ (cs : List Nat) (s k : Nat) (best : Option (Int × Nat)),
      lexerLoop trans outs cs s (position + k) (Option.map Prod.fst best)
          (match best with | some b => position + b.2 | none => position) =
        match lexSpecLoop trans outs cs s k best with
        | some b => (some b.1, position + b.2)
        | none => (none, position) := by
  intro cs
  induction cs with
  | nil =>
    intro s k best
    cases best <;> simp [lexerLoop, lexSpecLoop]
  | cons c cs ih =>
    intro s k best
    simp only [lexerLoop, lexSpecLoop]
    cases htr : trans s c with
    | none => cases best <;> simp
    | some ns =>
      simp only []
      cases ho : outs ns with
      | some t =>
        simp only [ho]
        have h := ih ns (k+1) (some (t, k+1))
        simpa [Nat.add_assoc] using h
      | none =>
        simp only [ho]
        have h := ih ns (k+1) best
        simpa [Nat.add_assoc] using h

/-- C8 (amended): lexer.py Lexer.get_next_token equals the claim's
longest-match description amended so that an accepting initial state is
recorded one byte ahead, for every transition table, outputs map, source and
position. -/
theorem c8_get_next_token_longest_match_amended
    (trans : Nat → Nat → Option Nat) (initial : Nat) (outs : Nat → Option Int)
    (source : List Nat) (position : Nat) :
    getNextToken trans initial outs source position =
      getNextTokenAmended trans initial outs source position := by
  unfold getNextToken getNextTokenAmended
  by_cases hend : source.length ≤ position
  · simp [hend]
  · simp only [if_neg hend]
    cases ho : outs initial with
    | some t =>
      simp only [ho]
      have h := lexerLoop_eq_specLoop trans outs position
        (source.drop position) initial 0 (some (t, 1))
      simp only [Option.map, Nat.add_zero] at h
      cases hl : lexSpecLoop trans outs (source.drop position) initial 0
          (some (t, 1)) with
      | none => rw [hl] at h; rw [h]
      | some b => rw [hl] at h; rw [h]; simp [Nat.add_sub_cancel_left]
    | none =>
      simp only [ho]
      have h := lexerLoop_eq_specLoop trans outs position
        (source.drop position) initial 0 none
      simp only [Option.map, Nat.add_zero] at h
      cases hl : lexSpecLoop trans outs (source.drop position) initial 0
          none with
      | none => rw [hl] at h; rw [h]
      | some b => rw [hl] at h; rw [h]; simp [Nat.add_sub_cancel_left]

/- Concrete input separating the code from the claim as stated: the initial
state is accepting with output 5 and has no outgoing transitions. -/

def lexTrC8 : Nat → Nat → Option Nat := fun _ _ => none

def lexOutC8 : Nat → Option Int := fun s => if s = 0 then some 5 else none

/-- C8 counterexample: on source [97] from position 0 with an accepting
initial state and no transitions, the code returns (5, [97]) and advances to
position 1, while the claim as stated returns (5, []) and stays at position 0
(the last accepting position is before any byte is consumed). -/
theorem c8_counterexample_initial_state_accepting :
    getNextToken lexTrC8 0 lexOutC8 [97] 0 = .ok ((5, some [97]), 1) ∧
      getNextTokenClaim lexTrC8 0 lexOutC8 [97] 0 = .ok ((5, some []), 0) ∧
      getNextToken lexTrC8 0 lexOutC8 [97] 0 ≠
        getNextTokenClaim lexTrC8 0 lexOutC8 [97] 0 := by
  have h1 : getNextToken lexTrC8 0 lexOutC8 [97] 0 = .ok ((5, some [97]), 1) :=
    rfl
  have h2 : getNextTokenClaim lexTrC8 0 lexOutC8 [97] 0 =
      .ok ((5, some []), 0) := rfl
  refine ⟨h1, h2, ?_⟩
  rw [h1, h2]
  simp

/- ==================== regexpr.py Lexer ==================== -/

/-- Modelled from the spec: the regex terminals are allocated by
TERMINALS.add() from the missing parser.py; the spec makes user terminal IDs
a dense reserved (negative) range, and the generated table in regexpr.py pins
them to -3, -4, ..., -13 in declaration order BAR, ASTERISK, PLUS, QUESTION,
CHAR, LPAREN, RPAREN, LSQUARE, RSQUARE, CARET, HYPHEN. -/
def BAR : Int := -3

def ASTERISK : Int := -4

def PLUS : Int := -5

def QUESTION : Int := -6

def CHAR : Int := -7

def LPAREN : Int := -8

def RPAREN : Int := -9

def LSQUARE : Int := -10

def RSQUARE : Int := -11

def CARET : Int := -12

def HYPHEN : Int := -13

/-- regexpr.py HEXADECIMAL_CHARS. -/
def HEXADECIMAL_CHARS : List Char :=
  "0123456789abcdefABCDEF".toList

/-- regexpr.py SPECIAL_CHARS.get(value, CHAR): the structural terminal of a
one-metacharacter lexeme, CHAR for every other lexeme. -/
def specialTerminal (v : List Char) : Int :=
  if v = ['|'] then BAR
  else if v = ['*'] then ASTERISK
  else if v = ['+'] then PLUS
  else if v = ['?'] then QUESTION
  else if v = ['('] then LPAREN
  else if v = [')'] then RPAREN
  else if v = ['['] then LSQUARE
  else if v = [']'] then RSQUARE
  else if v = ['^'] then CARET
  else if v = ['-'] then HYPHEN
  else CHAR

/-- Value of one hexadecimal digit (as accepted by HEXADECIMAL_CHARS). -/
def hexDigitVal (c : Char) : Nat :=
  if '0' ≤ c ∧ c ≤ '9' then c.toNat - 48
  else if 'a' ≤ c ∧ c ≤ 'f' then c.toNat - 87
  else if 'A' ≤ c ∧ c ≤ 'F' then c.toNat - 55
  else 0

/-- regexpr.py get_codepoint: handles `\n`, `\t`, `\xHH` (Python
`int('0x' + c[2:], 16)` embedded as a base-16 fold), a general escape
(codepoint of the escaped character), and a plain character. -/
def getCodepoint (v : List Char) : Nat :=
  if v = ['\\', 'n'] then 10
  else if v = ['\\', 't'] then 9
  else if v.take 2 = ['\\', 'x'] then
    (v.drop 2).foldl (fun a c => a * 16 + hexDigitVal c) 0
  else if v.take 1 = ['\\'] then ((v.get? 1).getD ' ').toNat
  else ((v.get? 0).getD ' ').toNat

/-- Errors of the regexpr.py lexer: LexerError raised by state2/state3,
Python IndexError raised by consume() past the end of input, and a marker for
exhausted fuel in the embedded driver (never returned: the automaton stops
within 4 steps, as the characterization theorem confirms). -/
inductive RegexLexErr
  | lexerError
  | indexError
  | fuelOut
  deriving DecidableEq

/-- The four states of the hand-written regexpr.py lexer automaton. -/
inductive RState
  | s0
  | s1
  | s2
  | s3
  deriving DecidableEq

/-- regexpr.py Lexer.state0 .. state3 as one dispatch: the next state (none
means the token ends before this character) or a raised LexerError. -/
def rstep : RState → Char → Except RegexLexErr (Option RState)
  | .s0, c => .ok (if c = '\\' then some .s1 else none)
  | .s1, c => .ok (if c = 'x' then some .s2 else none)
  | .s2, c =>
    if c ∈ HEXADECIMAL_CHARS then .ok (some .s3) else .error .lexerError
  | .s3, c =>
    if c ∈ HEXADECIMAL_CHARS then .ok none else .error .lexerError

/-- regexpr.py Lexer.consume: return the character at the position and
advance; past the end Python raises IndexError. -/
def consume (source : List Char) (pos : Nat) :
    Except RegexLexErr (Char × Nat) :=
  match source.get? pos with
  | some c => .ok (c, pos + 1)
  | none => .error .indexError

/-- The `while state is not None: state = state(self.consume())` loop of
regexpr.py Lexer.lex, with fuel (4 suffices: the automaton's states are
visited in the order state0, state1, state2, state3). -/
def lexDrive (source : List Char) :
    Nat → Option RState → Nat → Except RegexLexErr Nat
  | _, none, pos => .ok pos
  | 0, some _, _ => .error .fuelOut
  | fuel+1, some st, pos =>
    match consume source pos with
    | .error e => .error e
    | .ok (c, pos') =>
      match rstep st c with
      | .error e => .error e
      | .ok st' => lexDrive source fuel st' pos'

/-- regexpr.py Lexer.lex: (END, none) at end of input, else run the automaton
from state0, slice the lexeme, and return (terminal, codepoint) with the new
position. -/
def regexLex (source : List Char) (pos : Nat) :
    Except RegexLexErr ((Int × Option Nat) × Nat) :=
  if source.length ≤ pos then .ok ((END, none), pos)
  else
    match lexDrive source 4 (some .s0) pos with
    | .error e => .error e
    | .ok pos' =>
      let value := (source.drop pos).take (pos' - pos)
      .ok ((specialTerminal value, some (getCodepoint value)), pos')

/-- Codepoint of a single-character escape per the claim: `\n` is 10, `\t` is
9, any other escaped character is itself. -/
def escCodepoint (c : Char) : Nat :=
  if c = 'n' then 10 else if c = 't' then 9 else c.toNat

/-- Byte value of a two-hex-digit escape. -/
def hexPairVal (h1 h2 : Char) : Nat := 16 * hexDigitVal h1 + hexDigitVal h2

/-- Claim-side definition of C9 as stated: LexerError exactly on an ill-formed
next token, where ill-formed means a truncated escape (trailing backslash,
trailing backslash-x, trailing backslash-x-hexdigit) or a non-hex digit in
either position after backslash-x; well-formed tokens are returned without
raising. -/
def regexLexExpectedClaim (source : List Char) (pos : Nat) :
    Except RegexLexErr ((Int × Option Nat) × Nat) :=
  match source.drop pos with
  | [] => .ok ((END, none), pos)
  | '\\' :: [] => .error .lexerError
  | '\\' :: 'x' :: rest2 =>
    match rest2 with
    | [] => .error .lexerError
    | c :: rest3 =>
      if c ∈ HEXADECIMAL_CHARS then
        match rest3 with
        | [] => .error .lexerError
        | c2 :: _ =>
          if c2 ∈ HEXADECIMAL_CHARS then
            .ok ((CHAR, some (hexPairVal c c2)), pos + 4)
          else .error .lexerError
      else .error .lexerError
  | '\\' :: c :: _ => .ok ((CHAR, some (escCodepoint c)), pos + 2)
  | c :: _ => .ok ((specialTerminal [c], some c.toNat), pos + 1)

/-- Claim-side definition of C9 as amended: identical to the claim except
that the three truncated-escape cases raise Python's IndexError (from
consume) rather than LexerError; LexerError is raised exactly for a non-hex
character in either position after backslash-x. -/
def regexLexExpectedAmended (source : List Char) (pos : Nat) :
    Except RegexLexErr ((Int × Option Nat) × Nat) :=
  match source.drop pos with
  | [] => .ok ((END, none), pos)
  | '\\' :: [] => .error .indexError
  | '\\' :: 'x' :: rest2 =>
    match rest2 with
    | [] => .error .indexError
    | c :: rest3 =>
      if c ∈ HEXADECIMAL_CHARS then
        match rest3 with
        | [] => .error .indexError
        | c2 :: _ =>
          if c2 ∈ HEXADECIMAL_CHARS then
            .ok ((CHAR, some (hexPairVal c c2)), pos + 4)
          else .error .lexerError
      else .error .lexerError
  | '\\' :: c :: _ => .ok ((CHAR, some (escCodepoint c)), pos + 2)
  | c :: _ => .ok ((specialTerminal [c], some c.toNat), pos + 1)

theorem take_one_cons (a : Char) (l : List Char) :
    List.take 1 (a :: l) = [a] := rfl

theorem take_two_cons (a b : Char) (l : List Char) :
    List.take 2 (a :: b :: l) = [a, b] := rfl

theorem take_four_cons (a b c d : Char) (l : List Char) :
    List.take 4 (a :: b :: c :: d :: l) = [a, b, c, d] := rfl

theorem specialTerminal_pair (a b : Char) : specialTerminal [a, b] = CHAR := by
  simp [specialTerminal]

theorem specialTerminal_quad (a b c d : Char) :
    specialTerminal [a, b, c, d] = CHAR := by
  simp [specialTerminal]

theorem getCodepoint_single (c : Char) (hc : c ≠ '\\') :
    getCodepoint [c] = c.toNat := by
  simp [getCodepoint, hc]

theorem getCodepoint_esc (c : Char) (hx : c ≠ 'x') :
    getCodepoint ['\\', c] = escCodepoint c := by
  by_cases hn : c = 'n'
  · simp [getCodepoint, escCodepoint, hn]
  · by_cases ht : c = 't'
    · simp [getCodepoint, escCodepoint, hn, ht]
    · simp [getCodepoint, escCodepoint, hn, ht, hx]

theorem getCodepoint_hex (c2 c3 : Char) :
    getCodepoint ['\\', 'x', c2, c3] = hexPairVal c2 c3 := by
  simp [getCodepoint, hexPairVal]
  ring

theorem drop_cons_facts {source : List Char} {pos : Nat} {c : Char}
    {rest : List Char} (h : source.drop pos = c :: rest) :
    source[pos]? = some c ∧ source.drop (pos + 1) = rest := by
  constructor
  · have h0 : (source.drop pos)[(0 : Nat)]? = source[pos + 0]? :=
      List.getElem?_drop source pos 0
    rw [h] at h0
    simpa using h0.symm
  · have h1 : source.drop (pos + 1) = (source.drop pos).drop 1 := by
      rw [List.drop_drop, Nat.add_comm]
    rw [h1, h]
    rfl

theorem getElem?_none_of_drop_nil {source : List Char} {pos : Nat}
    (h : source.drop pos = []) : source[pos]? = none := by
  have h0 : (source.drop pos)[(0 : Nat)]? = source[pos + 0]? :=
    List.getElem?_drop source pos 0
  rw [h] at h0
  simpa using h0.symm

/-- C9 (amended): regexpr.py Lexer.lex behaves exactly as the claim states on
every input, except that truncated escapes raise IndexError (an uncaught
Python exception from consume) instead of LexerError; LexerError is raised
exactly for a non-hex character after backslash-x. -/
theorem c9_regex_lex_errors_amended (source : List Char) (pos : Nat) :
    regexLex source pos = regexLexExpectedAmended source pos := by
  by_cases hend : source.length ≤ pos
  · have hd : source.drop pos = [] := List.drop_eq_nil_of_le hend
    simp [regexLex, regexLexExpectedAmended, hend, hd]
  · have hne : source.drop pos ≠ [] := by
      intro hnil
      exact hend (List.drop_eq_nil_iff_le.mp hnil)
    rcases hd : source.drop pos with _ | ⟨c, rest⟩
    · exact absurd hd hne
    obtain ⟨hg0, hd1⟩ := drop_cons_facts hd
    by_cases hc : c = '\\'
    · subst hc
      rcases hd1r : rest with _ | ⟨c1, rest1⟩
      · rw [hd1r] at hd1
        have hg1 : source[pos + 1]? = none := getElem?_none_of_drop_nil hd1
        simp [regexLex, regexLexExpectedAmended, hend, hd, hd1r, lexDrive,
          consume, rstep, hg0, hg1]
      · rw [hd1r] at hd1
        obtain ⟨hg1, hd2⟩ := drop_cons_facts hd1
        by_cases hx : c1 = 'x'
        · subst hx
          rcases hd2r : rest1 with _ | ⟨c2, rest2⟩
          · rw [hd2r] at hd2
            have hg2 : source[pos + 1 + 1]? = none :=
              getElem?_none_of_drop_nil hd2
            simp [regexLex, regexLexExpectedAmended, hend, hd, hd1r, hd2r,
              lexDrive, consume, rstep, hg0, hg1, hg2]
          · rw [hd2r] at hd2
            obtain ⟨hg2, hd3⟩ := drop_cons_facts hd2
            by_cases hh2 : c2 ∈ HEXADECIMAL_CHARS
            · rcases hd3r : rest2 with _ | ⟨c3, rest3⟩
              · rw [hd3r] at hd3
                have hg3 : source[pos + 1 + 1 + 1]? = none :=
                  getElem?_none_of_drop_nil hd3
                simp [regexLex, regexLexExpectedAmended, hend, hd, hd1r,
                  hd2r, hd3r, lexDrive, consume, rstep, hg0, hg1, hg2, hg3,
                  hh2]
              · rw [hd3r] at hd3
                obtain ⟨hg3, _⟩ := drop_cons_facts hd3
                by_cases hh3 : c3 ∈ HEXADECIMAL_CHARS
                · simp [regexLex, regexLexExpectedAmended, hend, hd, hd1r,
                    hd2r, hd3r, lexDrive, consume, rstep, hg0, hg1, hg2, hg3,
                    hh2, hh3,
                    show pos + 1 + 1 + 1 + 1 - pos = 4 from by omega,
                    take_four_cons, specialTerminal_quad, getCodepoint_hex]
                · simp [regexLex, regexLexExpectedAmended, hend, hd, hd1r,
                    hd2r, hd3r, lexDrive, consume, rstep, hg0, hg1, hg2, hg3,
                    hh2, hh3]
            · simp [regexLex, regexLexExpectedAmended, hend, hd, hd1r, hd2r,
                lexDrive, consume, rstep, hg0, hg1, hg2, hh2]
        · simp [regexLex, regexLexExpectedAmended, hend, hd, hd1r, lexDrive,
            consume, rstep, hg0, hg1, hx,
            show pos + 1 + 1 - pos = 2 from by omega, take_two_cons,
            specialTerminal_pair, getCodepoint_esc]
    · simp [regexLex, regexLexExpectedAmended, hend, hd, lexDrive, consume,
        rstep, hg0, hc, show pos + 1 - pos = 1 from by omega, take_one_cons,
        getCodepoint_single]

/-- C9 counterexample: on the single-character source consisting of a
backslash (a truncated escape, hence ill-formed per the claim), the code's
consume() runs past the end of the input and raises IndexError, not the
LexerError the claim requires. -/
theorem c9_counterexample_truncated_escape :
    regexLex ['\\'] 0 = .error .indexError ∧
      regexLexExpectedClaim ['\\'] 0 = .error .lexerError ∧
      regexLex ['\\'] 0 ≠ regexLexExpectedClaim ['\\'] 0 := by
  have h1 : regexLex ['\\'] 0 = .error .indexError := rfl
  have h2 : regexLexExpectedClaim ['\\'] 0 = .error .lexerError := rfl
  refine ⟨h1, h2, ?_⟩
  rw [h1, h2]
  simp

/- ==================== fsa.py NFA.get_dfa ==================== -/

/-- Subset successor: the union of the target sets of the members of `S` on
symbol `c` (the `next_states.update(self.transitions.get((state, symbol), []))`
loop of get_dfa; a set union is independent of the iteration order). -/
def nextStatesSet (n : NFA) (S : Finset Nat) (c : Nat) : Finset Nat :=
  S.biUnion (fun s => (n.delta s c).toFinset)

/-- Tag union of a subset: the `outputs.update(self.outputs.get(state, []))`
loop of get_dfa. -/
def outUnion (n : NFA) (S : Finset Nat) : Finset Nat :=
  S.biUnion (fun s => aGet n.outputs (s : Int))

/-- Index of a frozenset key in the insertion-ordered state_map of get_dfa
(the dict value of the k-th inserted key is k, because ids are allocated by
add_state in insertion order). -/
def idxOf? : List (Finset Nat) → Finset Nat → Option Nat
  | [], _ => none
  | T :: rest, S => if T = S then some 0 else (idxOf? rest S).map (· + 1)

/-- Body of the `for symbol in range(0, NUM_CHARS)` loop of get_dfa: compute
the subset successor, allocate a fresh DFA state when it is new (appending to
state_map, pushing it, and calling add_state), and write the transition.
The accumulator carries (state_map keys, frontier, transition table). -/
def getDfaSym (n : NFA) (S : Finset Nat) (state : Nat)
    (acc : List (Finset Nat) × List (Finset Nat) × List (List Int))
    (symbol : Nat) :
    List (Finset Nat) × List (Finset Nat) × List (List Int) :=
  match acc with
  | (mp, fr, tr) =>
    let ns := nextStatesSet n S symbol
    match idxOf? mp ns with
    | some nid => (mp, fr, setTrans tr state symbol nid)
    | none =>
      (mp ++ [ns], ns :: fr, setTrans (tr ++ [newRow]) state symbol tr.length)

/-- Worklist of fsa.py NFA.get_dfa, one popped subset per unit of fuel; the
Python frontier list is embedded with its `pop()` end at the head. -/
def getDfaLoop (n : NFA) :
    Nat → List (Finset Nat) → List (Finset Nat) → List (List Int) →
    List (Nat × Finset Nat) → Option DFA
  | 0, _, _, _, _ => none
  | fuel+1, mp, frontier, tr, outs =>
    match frontier with
    | [] => some ⟨tr, outs, 0⟩
    | S :: rest =>
      match idxOf? mp S with
      | none => none
      | some state =>
        match (List.range NUM_CHARS).foldl (getDfaSym n S state)
            (mp, rest, tr) with
        | (mp', fr', tr') =>
          let outSet := outUnion n S
          let outs' := if outSet ≠ ∅ then aPut outs state outSet else outs
          getDfaLoop n fuel mp' fr' tr' outs'

/-- fsa.py NFA.get_dfa: the DFA's initial state is add_state() = 0, mapped
from the frozenset of the NFA's initial state. -/
def NFA.get_dfa (n : NFA) (fuel : Nat) : Option DFA :=
  getDfaLoop n fuel [{n.initial_state}] [{n.initial_state}] [newRow] []

/- Witness data: the one-state NFA with no transitions and no outputs, and
the two-state DFA (live initial subset, dead empty subset) get_dfa builds
for it. -/

def nfaGW : NFA := ⟨[], [], 0⟩

def dfaGW : DFA :=
  ⟨[List.replicate 256 1, List.replicate 256 1], [], 0⟩

theorem getdfa_gw_iter1 (k : Nat) :
    getDfaLoop nfaGW (k+1) [{0}] [{0}] [newRow] [] =
      getDfaLoop nfaGW k [{0}, ∅] [∅] [List.replicate 256 1, newRow] [] := rfl

theorem getdfa_gw_iter2 (k : Nat) :
    getDfaLoop nfaGW (k+1) [{0}, ∅] [∅] [List.replicate 256 1, newRow] [] =
      getDfaLoop nfaGW k [{0}, ∅] []
        [List.replicate 256 1, List.replicate 256 1] [] := rfl

theorem getdfa_gw_eval : nfaGW.get_dfa 3 = some dfaGW := by
  calc nfaGW.get_dfa 3
      = getDfaLoop nfaGW 3 [{0}] [{0}] [newRow] [] := rfl
    _ = getDfaLoop nfaGW 2 [{0}, ∅] [∅] [List.replicate 256 1, newRow] [] :=
        getdfa_gw_iter1 2
    _ = getDfaLoop nfaGW 1 [{0}, ∅] []
        [List.replicate 256 1, List.replicate 256 1] [] := getdfa_gw_iter2 1
    _ = some dfaGW := rfl

/- ============ invariant machinery for get_dfa and union ============ -/

/-- Entry of a transition table at row `i`, column `c`. -/
def EntryAt (tr : List (List Int)) (i c : Nat) : Option Int :=
  match tr.get? i with
  | some row => row.get? c
  | none => none

theorem setTrans_length (tr : List (List Int)) (s c : Nat) (v : Int) :
    (setTrans tr s c v).length = tr.length := by
  unfold setTrans
  cases h : tr.get? s <;> simp

theorem setTrans_rows_len {tr : List (List Int)} {L s c : Nat} {v : Int}
    (h : ∀ row ∈ tr, row.length = L) :
    ∀ row ∈ setTrans tr s c v, row.length = L := by
  unfold setTrans
  cases hg : tr.get? s with
  | none => exact h
  | some row0 =>
    intro row hrow
    rcases List.mem_or_eq_of_mem_set hrow with hm | he
    · exact h row hm
    · subst he
      rw [List.length_set]
      exact h row0 (List.get?_mem hg)

theorem lt_length_of_get?_some {l : List α} {n : Nat} {a : α}
    (h : l.get? n = some a) : n < l.length := by
  by_contra hn
  rw [List.get?_eq_none.mpr (Nat.le_of_not_lt hn)] at h
  cases h

theorem EntryAt_setTrans_same {tr : List (List Int)} {s c : Nat} {v : Int}
    {row : List Int} (hrow : tr.get? s = some row) (hc : c < row.length) :
    EntryAt (setTrans tr s c v) s c = some v := by
  have hs : s < tr.length := lt_length_of_get?_some hrow
  unfold EntryAt setTrans
  rw [hrow, List.get?_set_eq_of_lt _ hs]
  show (row.set c v).get? c = some v
  rw [List.get?_set_eq_of_lt]
  exact hc

theorem EntryAt_setTrans_ne {tr : List (List Int)} {s c i c' : Nat} {v : Int}
    (h : i ≠ s ∨ c' ≠ c) :
    EntryAt (setTrans tr s c v) i c' = EntryAt tr i c' := by
  unfold setTrans
  cases hg : tr.get? s with
  | none => rfl
  | some row =>
    unfold EntryAt
    by_cases hi : i = s
    · subst hi
      rcases h with hi' | hc'
      · exact absurd rfl hi'
      · have hs : i < tr.length := lt_length_of_get?_some hg
        have h1 : (tr.set i (row.set c v)).get? i = some (row.set c v) :=
          List.get?_set_eq_of_lt _ hs
        rw [h1, hg]
        show (row.set c v).get? c' = row.get? c'
        exact List.get?_set_ne _ _ (Ne.symm hc')
    · have h1 : (tr.set s (row.set c v)).get? i = tr.get? i :=
        List.get?_set_ne _ _ (fun he => hi he.symm)
      rw [h1]

theorem EntryAt_append {tr l : List (List Int)} {i c : Nat}
    (h : i < tr.length) : EntryAt (tr ++ l) i c = EntryAt tr i c := by
  unfold EntryAt
  rw [List.get?_append h]

theorem setTrans_append {tr l : List (List Int)} {s c : Nat} {v : Int}
    {row : List Int} (hrow : tr.get? s = some row) :
    setTrans tr s c v ++ l = setTrans (tr ++ l) s c v := by
  have hs : s < tr.length := lt_length_of_get?_some hrow
  unfold setTrans
  rw [hrow, List.get?_append hs, hrow]
  show tr.set s (row.set c v) ++ l = (tr ++ l).set s (row.set c v)
  exact (List.set_append_left _ _ hs).symm

theorem idxOf?_get {mp : List (Finset Nat)} {S : Finset Nat} {i : Nat}
    (h : idxOf? mp S = some i) : mp.get? i = some S := by
  induction mp generalizing i with
  | nil => cases h
  | cons T rest ih =>
    unfold idxOf? at h
    by_cases hT : T = S
    · rw [if_pos hT] at h
      cases h
      simpa using hT
    · rw [if_neg hT] at h
      rcases Option.map_eq_some'.mp h with ⟨j, hj, hji⟩
      subst hji
      simpa using ih hj

theorem idxOf?_none {mp : List (Finset Nat)} {S : Finset Nat}
    (h : idxOf? mp S = none) : S ∉ mp := by
  induction mp with
  | nil => simp
  | cons T rest ih =>
    unfold idxOf? at h
    by_cases hT : T = S
    · rw [if_pos hT] at h
      cases h
    · rw [if_neg hT] at h
      have h2 : idxOf? rest S = none := by
        cases hr : idxOf? rest S with
        | none => rfl
        | some j => rw [hr] at h; cases h
      intro hm
      rcases List.mem_cons.mp hm with he | hm2
      · exact hT he.symm
      · exact ih h2 hm2

/-- One full pass of get_dfa's symbol loop: the state_map grows by the block
`ext` of newly discovered subsets (pushed onto the frontier in reverse), the
table gains one fresh row per new subset, row `state` is written with the
index of the subset successor at every processed symbol and nothing else
changes. -/
theorem getDfaSymFold (n : NFA) (S : Finset Nat) (state : Nat) :
    ∀ (syms : List Nat) (mp fr : List (Finset Nat)) (tr : List (List Int))
      (mp' fr' : List (Finset Nat)) (tr' : List (List Int)),
      syms.Nodup → (∀ c ∈ syms, c < NUM_CHARS) →
      mp.length = tr.length → mp.Nodup →
      (∀ row ∈ tr, row.length = NUM_CHARS) →
      state < tr.length →
      syms.foldl (getDfaSym n S state) (mp, fr, tr) = (mp', fr', tr') →
      ∃ ext : List (Finset Nat),
        mp' = mp ++ ext ∧
        fr' = ext.reverse ++ fr ∧
        tr'.length = mp'.length ∧
        mp'.Nodup ∧
        (∀ T ∈ ext, T ∉ mp) ∧
        (∀ row ∈ tr', row.length = NUM_CHARS) ∧
        (∀ i c, i ≠ state →
          EntryAt tr' i c = EntryAt (tr ++ List.replicate ext.length newRow) i c) ∧
        (∀ c ∈ syms, ∃ j : Nat, EntryAt tr' state c = some (j : Int) ∧
          mp'.get? j = some (nextStatesSet n S c)) ∧
        (∀ c, c ∉ syms →
          EntryAt tr' state c =
            EntryAt (tr ++ List.replicate ext.length newRow) state c) := by
  intro syms
  induction syms with
  | nil =>
    intro mp fr tr mp' fr' tr' _ _ hlen _ hrows _ hfold
    simp only [List.foldl_nil] at hfold
    obtain ⟨h1, h2, h3⟩ : mp = mp' ∧ fr = fr' ∧ tr = tr' :=
      ⟨congrArg Prod.fst hfold,
        congrArg (fun p => p.2.1) hfold, congrArg (fun p => p.2.2) hfold⟩
    subst h1; subst h2; subst h3
    refine ⟨[], by simp, by simp, by simpa using hlen.symm, by simpa, by simp,
      hrows, ?_, by simp, ?_⟩
    · intro i c _
      simp
    · intro c _
      simp
  | cons c cs ih =>
    intro mp fr tr mp' fr' tr' hnd hbnd hlen hmnd hrows hstate hfold
    have hndcs : cs.Nodup := (List.nodup_cons.mp hnd).2
    have hcnotin : c ∉ cs := (List.nodup_cons.mp hnd).1
    have hbndcs : ∀ c' ∈ cs, c' < NUM_CHARS :=
      fun c' hc' => hbnd c' (List.mem_cons_of_mem _ hc')
    have hcbnd : c < NUM_CHARS := hbnd c (List.mem_cons_self _ _)
    simp only [List.foldl_cons] at hfold
    obtain ⟨row, hrowg⟩ : ∃ row, tr.get? state = some row := by
      cases hg : tr.get? state with
      | none => exact absurd (List.get?_eq_none.mp hg) (Nat.not_le_of_lt hstate)
      | some row => exact ⟨row, rfl⟩
    have hrowlen : row.length = NUM_CHARS := hrows row (List.get?_mem hrowg)
    cases hidx : idxOf? mp (nextStatesSet n S c) with
    | some nid =>
      simp only [getDfaSym, hidx] at hfold
      have hnidget : mp.get? nid = some (nextStatesSet n S c) := idxOf?_get hidx
      have hnidlt : nid < mp.length := lt_length_of_get?_some hnidget
      have hlen2 : mp.length = (setTrans tr state c (nid : Int)).length := by
        rw [setTrans_length]; exact hlen
      have hrows2 : ∀ row' ∈ setTrans tr state c (nid : Int),
          row'.length = NUM_CHARS := setTrans_rows_len hrows
      have hstate2 : state < (setTrans tr state c (nid : Int)).length := by
        rw [setTrans_length]; exact hstate
      obtain ⟨ext, hmp, hfr, htlen, hnd2, hfresh, hrows3, hother, hin, hout⟩ :=
        ih mp fr (setTrans tr state c (nid : Int)) mp' fr' tr'
          hndcs hbndcs hlen2 hmnd hrows2 hstate2 hfold
      refine ⟨ext, hmp, hfr, htlen, hnd2, hfresh, hrows3, ?_, ?_, ?_⟩
      · intro i c' hi
        rw [hother i c' hi, setTrans_append hrowg,
          EntryAt_setTrans_ne (Or.inl hi)]
      · intro c' hc'
        rcases List.mem_cons.mp hc' with he | hm
        · subst he
          rw [hout c' hcnotin, setTrans_append hrowg]
          refine ⟨nid, ?_, ?_⟩
          · apply @EntryAt_setTrans_same _ _ _ _ row
            · rw [List.get?_append hstate]; exact hrowg
            · rw [hrowlen]; exact hcbnd
          · rw [hmp, List.get?_append hnidlt]; exact hnidget
        · exact hin c' hm
      · intro c' hc'
        have hc'c : c' ≠ c := fun he => hc' (he ▸ List.mem_cons_self c cs)
        have hc'cs : c' ∉ cs := fun hm => hc' (List.mem_cons_of_mem _ hm)
        rw [hout c' hc'cs, setTrans_append hrowg,
          EntryAt_setTrans_ne (Or.inr hc'c)]
    | none =>
      simp only [getDfaSym, hidx] at hfold
      have hnsnot : nextStatesSet n S c ∉ mp := idxOf?_none hidx
      have hrowg2 : (tr ++ [newRow]).get? state = some row := by
        rw [List.get?_append hstate]; exact hrowg
      have hlen2 : (mp ++ [nextStatesSet n S c]).length =
          (setTrans (tr ++ [newRow]) state c (tr.length : Int)).length := by
        rw [setTrans_length]
        simp [hlen]
      have hmnd2 : (mp ++ [nextStatesSet n S c]).Nodup := by
        rw [List.nodup_append]
        refine ⟨hmnd, List.nodup_singleton _, ?_⟩
        intro a ha hb
        rw [List.mem_singleton] at hb
        subst hb
        exact hnsnot ha
      have hrows2 : ∀ row' ∈ setTrans (tr ++ [newRow]) state c (tr.length : Int),
          row'.length = NUM_CHARS := by
        apply setTrans_rows_len
        intro row' hr'
        rcases List.mem_append.mp hr' with h | h
        · exact hrows _ h
        · rw [List.mem_singleton] at h
          subst h
          simp [newRow]
      have hstate2 : state <
          (setTrans (tr ++ [newRow]) state c (tr.length : Int)).length := by
        rw [setTrans_length, List.length_append]
        exact Nat.lt_of_lt_of_le hstate (by simp)
      obtain ⟨ext, hmp, hfr, htlen, hnd2, hfresh, hrows3, hother, hin, hout⟩ :=
        ih (mp ++ [nextStatesSet n S c]) (nextStatesSet n S c :: fr)
          (setTrans (tr ++ [newRow]) state c (tr.length : Int)) mp' fr' tr'
          hndcs hbndcs hlen2 hmnd2 hrows2 hstate2 hfold
      have happ : (tr ++ [newRow]) ++ List.replicate ext.length newRow =
          tr ++ List.replicate (nextStatesSet n S c :: ext).length newRow := by
        rw [List.append_assoc]
        congr 1
      refine ⟨nextStatesSet n S c :: ext, ?_, ?_, ?_, hnd2, ?_, hrows3,
        ?_, ?_, ?_⟩
      · rw [hmp, List.append_assoc]
        rfl
      · rw [hfr, List.reverse_cons, List.append_assoc]
        rfl
      · exact htlen
      · intro T hT
        rcases List.mem_cons.mp hT with he | hm
        · subst he
          exact hnsnot
        · intro hmem
          exact hfresh T hm (List.mem_append_left _ hmem)
      · intro i c' hi
        rw [hother i c' hi, setTrans_append hrowg2,
          EntryAt_setTrans_ne (Or.inl hi), happ]
      · intro c' hc'
        rcases List.mem_cons.mp hc' with he | hm
        · rw [he]
          rw [hout c hcnotin, setTrans_append hrowg2]
          refine ⟨tr.length, ?_, ?_⟩
          · apply @EntryAt_setTrans_same _ _ _ _ row
            · rw [List.get?_append
                (Nat.lt_of_lt_of_le hstate (by simp) :
                  state < (tr ++ [newRow]).length)]
              exact hrowg2
            · rw [hrowlen]
              exact hcbnd
          · rw [hmp, ← hlen, List.get?_append
              (by simp : mp.length < (mp ++ [nextStatesSet n S c]).length)]
            rw [List.get?_concat_length]
        · exact hin c' hm
      · intro c' hc'
        have hc'c : c' ≠ c := fun he => hc' (he ▸ List.mem_cons_self c cs)
        have hc'cs : c' ∉ cs := fun hm => hc' (List.mem_cons_of_mem _ hm)
        rw [hout c' hc'cs, setTrans_append hrowg2,
          EntryAt_setTrans_ne (Or.inr hc'c), happ]

theorem aGet_of_keys_ge {m : List (Nat × Finset Nat)} {L : Nat}
    (h : ∀ e ∈ m, e.1 < L) {i : Nat} (hi : L ≤ i) : aGet m (i : Int) = ∅ := by
  induction m with
  | nil => rfl
  | cons e rest ih =>
    unfold aGet
    rw [List.find?_cons_of_neg]
    · exact ih (fun e' he' => h e' (List.mem_cons_of_mem _ he'))
    · have hlt : e.1 < L := h e (List.mem_cons_self _ _)
      simp only [beq_iff_eq]
      intro hcast
      have : e.1 = i := by exact_mod_cast hcast
      omega

theorem aGet_aPut_self (m : List (Nat × Finset Nat)) (k : Nat)
    (v : Finset Nat) : aGet (aPut m k v) (k : Int) = v := by
  unfold aPut
  by_cases hany : m.any (fun e => e.1 == k)
  · rw [if_pos hany]
    induction m with
    | nil => simp at hany
    | cons e rest ih =>
      by_cases hek : e.1 = k
      · simp only [List.map_cons,
          if_pos (show (e.1 == k) = true by simpa using hek)]
        unfold aGet
        rw [List.find?_cons_of_pos]
        simp only [beq_iff_eq]
        exact_mod_cast hek
      · have hany2 : rest.any (fun e => e.1 == k) := by
          rw [List.any_cons] at hany
          have hekb : (e.1 == k) = false := by simpa using hek
          rw [hekb, Bool.false_or] at hany
          exact hany
        simp only [List.map_cons,
          if_neg (show ¬(e.1 == k) = true by simpa using hek)]
        unfold aGet
        rw [List.find?_cons_of_neg]
        · exact ih hany2
        · simp only [beq_iff_eq]
          intro hc
          exact hek (by exact_mod_cast hc)
  · rw [if_neg hany]
    induction m with
    | nil =>
      unfold aGet
      rw [List.nil_append, List.find?_cons_of_pos]
      simp
    | cons e rest ih =>
      rw [List.any_cons] at hany
      simp only [Bool.or_eq_true, not_or] at hany
      unfold aGet
      rw [List.cons_append, List.find?_cons_of_neg]
      · exact ih (by simpa using hany.2)
      · simp only [beq_iff_eq]
        intro hc
        have he : e.1 = k := by exact_mod_cast hc
        exact hany.1 (by simpa using he)

theorem aGet_aPut_ne (m : List (Nat × Finset Nat)) (k : Nat) (v : Finset Nat)
    {i : Int} (h : i ≠ (k : Int)) : aGet (aPut m k v) i = aGet m i := by
  unfold aPut
  by_cases hany : m.any (fun e => e.1 == k)
  · rw [if_pos hany]
    clear hany
    induction m with
    | nil => rfl
    | cons e rest ih =>
      by_cases hek : e.1 = k
      · simp only [List.map_cons,
          if_pos (show (e.1 == k) = true by simpa using hek)]
        unfold aGet
        rw [List.find?_cons_of_neg, List.find?_cons_of_neg]
        · exact ih
        · simp only [beq_iff_eq]
          intro hc
          exact h (by rw [← hc, hek])
        · simp only [beq_iff_eq]
          intro hc
          exact h (by rw [← hc, hek])
      · simp only [List.map_cons,
          if_neg (show ¬(e.1 == k) = true by simpa using hek)]
        by_cases hei : (e.1 : Int) = i
        · unfold aGet
          rw [List.find?_cons_of_pos, List.find?_cons_of_pos]
          · simp only [beq_iff_eq]
            exact hei
          · simp only [beq_iff_eq]
            exact hei
        · unfold aGet
          rw [List.find?_cons_of_neg, List.find?_cons_of_neg]
          · exact ih
          · simpa using hei
          · simpa using hei
  · rw [if_neg hany]
    unfold aGet
    rw [List.find?_append]
    have hlast : List.find? (fun e => (e.1 : Int) == i) [(k, v)] = none := by
      rw [List.find?_cons_of_neg]
      · rfl
      · simp only [beq_iff_eq]
        intro hc
        exact h hc.symm
    rw [hlast]
    cases List.find? (fun e => (e.1 : Int) == i) m <;> rfl

theorem aPut_mem {m : List (Nat × Finset Nat)} {k : Nat} {v : Finset Nat} :
    ∀ e ∈ aPut m k v, e ∈ m ∨ e = (k, v) := by
  unfold aPut
  by_cases hany : m.any (fun e => e.1 == k)
  · rw [if_pos hany]
    intro e he
    rcases List.mem_map.mp he with ⟨e0, he0, heq⟩
    by_cases hek : e0.1 = k
    · rw [if_pos (by simpa using hek)] at heq
      right
      rw [← heq, hek]
    · rw [if_neg (by simpa using hek)] at heq
      left
      rw [← heq]
      exact he0
  · rw [if_neg hany]
    intro e he
    rcases List.mem_append.mp he with h | h
    · exact Or.inl h
    · exact Or.inr (List.mem_singleton.mp h)

/-- Invariant of the get_dfa worklist: the state_map is a duplicate-free list
of subsets (index = DFA state id), the frontier holds exactly the map members
not yet processed, every processed id's row is total and points at the id of
the subset successor, and its outputs entry is the subset's tag union. -/
structure GInv (n : NFA) (mp fr : List (Finset Nat)) (tr : List (List Int))
    (outs : List (Nat × Finset Nat)) : Prop where
  len_eq : mp.length = tr.length
  nodup : mp.Nodup
  fr_nodup : fr.Nodup
  fr_sub : ∀ S ∈ fr, S ∈ mp
  rows_len : ∀ row ∈ tr, row.length = NUM_CHARS
  processed : ∀ i S, mp.get? i = some S → S ∉ fr →
    (∀ c, c < NUM_CHARS → ∃ j : Nat, EntryAt tr i c = some (j : Int) ∧
      mp.get? j = some (nextStatesSet n S c)) ∧
    aGet outs (i : Int) = outUnion n S
  unprocessed_outs : ∀ i S, mp.get? i = some S → S ∈ fr →
    aGet outs (i : Int) = ∅
  outs_wf : ∀ e ∈ outs, e.1 < tr.length ∧ e.2 ≠ ∅

theorem getDfaLoop_some (n : NFA) :
    ∀ (fuel : Nat) (mp fr : List (Finset Nat)) (tr : List (List Int))
      (outs : List (Nat × Finset Nat)) (d : DFA),
      GInv n mp fr tr outs →
      getDfaLoop n fuel mp fr tr outs = some d →
      ∃ mp' : List (Finset Nat),
        (∃ ext, mp' = mp ++ ext) ∧ d.initial_state = 0 ∧
        GInv n mp' [] d.transitions d.outputs := by
  intro fuel
  induction fuel with
  | zero =>
    intro mp fr tr outs d _ hloop
    cases hloop
  | succ fuel ih =>
    intro mp fr tr outs d hinv hloop
    cases hfr : fr with
    | nil =>
      subst hfr
      unfold getDfaLoop at hloop
      cases hloop
      exact ⟨mp, ⟨[], by simp⟩, rfl, hinv⟩
    | cons S rest =>
      subst hfr
      cases hidx : idxOf? mp S with
      | none =>
        simp [getDfaLoop, hidx] at hloop
      | some state =>
        have hSget : mp.get? state = some S := idxOf?_get hidx
        have hstatemp : state < mp.length := lt_length_of_get?_some hSget
        have hstate : state < tr.length := hinv.len_eq ▸ hstatemp
        obtain ⟨⟨mp2, fr2, tr2⟩, hres⟩ :
            ∃ p, (List.range NUM_CHARS).foldl (getDfaSym n S state)
              (mp, rest, tr) = p := ⟨_, rfl⟩
        simp only [getDfaLoop, hidx, hres] at hloop
        obtain ⟨ext, hmp2, hfr2, htlen, hnd2, hfresh, hrows2, hother, hin, _⟩ :=
          getDfaSymFold n S state (List.range NUM_CHARS) mp rest tr mp2 fr2 tr2
            (List.nodup_range _) (fun c hc => List.mem_range.mp hc)
            hinv.len_eq hinv.nodup hinv.rows_len hstate hres
        have hSnotrest : S ∉ rest := (List.nodup_cons.mp hinv.fr_nodup).1
        have hrestnd : rest.Nodup := (List.nodup_cons.mp hinv.fr_nodup).2
        have hmplen2 : mp.length ≤ mp2.length := by
          rw [hmp2, List.length_append]; omega
        have hextfr2 : ∀ T ∈ ext, T ∈ fr2 := by
          intro T hT
          rw [hfr2]
          exact List.mem_append_left _ (List.mem_reverse.mpr hT)
        have houts' : ∀ e ∈ (if outUnion n S ≠ ∅ then
            aPut outs state (outUnion n S) else outs),
            e.1 < tr2.length ∧ e.2 ≠ ∅ := by
          intro e he
          have htr2len : tr.length ≤ tr2.length := by
            rw [htlen, hmp2, List.length_append, hinv.len_eq]; omega
          by_cases hne : outUnion n S ≠ ∅
          · rw [if_pos hne] at he
            rcases aPut_mem e he with h | h
            · have := hinv.outs_wf e h
              exact ⟨by omega, this.2⟩
            · rw [h]
              exact ⟨by simpa using Nat.lt_of_lt_of_le hstate htr2len, hne⟩
          · rw [if_neg hne] at he
            have := hinv.outs_wf e he
            exact ⟨by omega, this.2⟩
        have hinv2 : GInv n mp2 fr2 tr2
            (if outUnion n S ≠ ∅ then aPut outs state (outUnion n S)
             else outs) := by
          refine ⟨htlen.symm, hnd2, ?_, ?_, hrows2, ?_, ?_, houts'⟩
          · -- fr2 nodup
            rw [hfr2, List.nodup_append]
            refine ⟨List.nodup_reverse.mpr ?_, hrestnd, ?_⟩
            · rw [hmp2, List.nodup_append] at hnd2
              exact hnd2.2.1
            · intro T hT hT2
              exact hfresh T (List.mem_reverse.mp hT)
                (hinv.fr_sub T (List.mem_cons_of_mem _ hT2))
          · -- fr2 sub mp2
            intro T hT
            rw [hfr2] at hT
            rcases List.mem_append.mp hT with h | h
            · rw [hmp2]
              exact List.mem_append_right _ (List.mem_reverse.mp h)
            · rw [hmp2]
              exact List.mem_append_left _
                (hinv.fr_sub T (List.mem_cons_of_mem _ h))
          · -- processed
            intro i T hget hTfr2
            by_cases hilt : i < mp.length
            · have hgetmp : mp.get? i = some T := by
                rw [hmp2, List.get?_append hilt] at hget
                exact hget
              by_cases hTS : T = S
              · subst hTS
                have hieq : i = state := by
                  apply List.get?_inj hilt hinv.nodup
                  rw [hgetmp, hSget]
                subst hieq
                constructor
                · intro c hc
                  exact hin c (List.mem_range.mpr hc)
                · by_cases hne : outUnion n T ≠ ∅
                  · rw [if_pos hne, aGet_aPut_self]
                  · rw [if_neg hne]
                    push_neg at hne
                    rw [hne]
                    exact hinv.unprocessed_outs i T hgetmp
                      (List.mem_cons_self _ _)
              · have hine : i ≠ state := by
                  intro he
                  subst he
                  rw [hgetmp] at hSget
                  exact hTS (Option.some.inj hSget)
                have hTnotfr : T ∉ S :: rest := by
                  intro hTfr
                  rcases List.mem_cons.mp hTfr with h | h
                  · exact hTS h
                  · apply hTfr2
                    rw [hfr2]
                    exact List.mem_append_right _ h
                obtain ⟨hrow, houtold⟩ :=
                  hinv.processed i T hgetmp hTnotfr
                constructor
                · intro c hc
                  obtain ⟨j, hj1, hj2⟩ := hrow c hc
                  refine ⟨j, ?_, ?_⟩
                  · rw [hother i c hine, EntryAt_append (hinv.len_eq ▸ hilt)]
                    exact hj1
                  · rw [hmp2,
                      List.get?_append (lt_length_of_get?_some hj2)]
                    exact hj2
                · have : (i : Int) ≠ (state : Int) := by
                    simpa using hine
                  by_cases hne : outUnion n S ≠ ∅
                  · rw [if_pos hne, aGet_aPut_ne _ _ _ this]
                    exact houtold
                  · rw [if_neg hne]
                    exact houtold
            · exfalso
              have : T ∈ ext := by
                rw [hmp2, List.get?_append_right (Nat.le_of_not_lt hilt)]
                  at hget
                exact List.get?_mem hget
              exact hTfr2 (hextfr2 T this)
          · -- unprocessed outs
            intro i T hget hTfr2
            have hkeys : ∀ e ∈ (if outUnion n S ≠ ∅ then
                aPut outs state (outUnion n S) else outs),
                e.1 < tr.length := by
              intro e he
              by_cases hne : outUnion n S ≠ ∅
              · rw [if_pos hne] at he
                rcases aPut_mem e he with h | h
                · exact (hinv.outs_wf e h).1
                · rw [h]; exact hstate
              · rw [if_neg hne] at he
                exact (hinv.outs_wf e he).1
            by_cases hilt : i < mp.length
            · have hgetmp : mp.get? i = some T := by
                rw [hmp2, List.get?_append hilt] at hget
                exact hget
              have hTmp : T ∈ mp := List.get?_mem hgetmp
              have hTrest : T ∈ rest := by
                rw [hfr2] at hTfr2
                rcases List.mem_append.mp hTfr2 with h | h
                · exact absurd hTmp (hfresh T (List.mem_reverse.mp h))
                · exact h
              have hine : i ≠ state := by
                intro he
                subst he
                rw [hgetmp] at hSget
                have : T = S := Option.some.inj hSget
                exact hSnotrest (this ▸ hTrest)
              have : (i : Int) ≠ (state : Int) := by simpa using hine
              by_cases hne : outUnion n S ≠ ∅
              · rw [if_pos hne, aGet_aPut_ne _ _ _ this]
                exact hinv.unprocessed_outs i T hgetmp
                  (List.mem_cons_of_mem _ hTrest)
              · rw [if_neg hne]
                exact hinv.unprocessed_outs i T hgetmp
                  (List.mem_cons_of_mem _ hTrest)
            · apply aGet_of_keys_ge hkeys
              rw [← hinv.len_eq]
              exact Nat.le_of_not_lt hilt
        obtain ⟨mp', hext', hinit', hinv'⟩ := ih mp2 fr2 tr2 _ d hinv2 hloop
        refine ⟨mp', ?_, hinit', hinv'⟩
        obtain ⟨ext2, he2⟩ := hext'
        exact ⟨ext ++ ext2, by rw [he2, hmp2, List.append_assoc]⟩

/- ==================== C1: subset construction ==================== -/

/-- An NFA with no ε-transitions: no transition key uses symbol EPSILON. -/
def NoEps (n : NFA) : Prop := ∀ e ∈ n.transitions, e.1.2 ≠ EPSILON

theorem delta_eps_empty {n : NFA} (heps : NoEps n) (s : Nat) :
    n.delta s EPSILON = [] := by
  unfold NFA.delta
  cases hf : n.transitions.find? (fun e => e.1 == (s, EPSILON)) with
  | none => rfl
  | some e =>
    exfalso
    have hm : e ∈ n.transitions := List.mem_of_find?_eq_some hf
    have hp := List.find?_some hf
    simp only [beq_iff_eq] at hp
    exact heps e hm (by rw [hp])

theorem accepts_inv {n : NFA} (heps : NoEps n) {s : Nat} {w : List Nat}
    (h : n.Accepts s w) :
    (w = [] ∧ aGet n.outputs (s : Int) ≠ ∅) ∨
      (∃ c w' t, w = c :: w' ∧ t ∈ n.delta s c ∧ n.Accepts t w') := by
  cases h with
  | done hout => exact Or.inl ⟨rfl, hout⟩
  | step hc ht hacc => exact Or.inr ⟨_, _, _, rfl, ht, hacc⟩
  | eps ht _ =>
    rw [delta_eps_empty heps] at ht
    cases ht

theorem mem_nextStatesSet {n : NFA} {S : Finset Nat} {c t : Nat} :
    t ∈ nextStatesSet n S c ↔ ∃ s ∈ S, t ∈ n.delta s c := by
  unfold nextStatesSet
  simp [Finset.mem_biUnion, List.mem_toFinset]

/-- For an ε-free NFA, some member of `S` accepts `w` exactly when the subset
reached from `S` along `w` contains an accepting state. -/
theorem nfa_accepts_iff_hat {n : NFA} (heps : NoEps n) :
    ∀ (w : List Nat), ByteString w → ∀ S : Finset Nat,
      ((∃ s ∈ S, n.Accepts s w) ↔
        ∃ t ∈ w.foldl (nextStatesSet n) S, aGet n.outputs (t : Int) ≠ ∅) := by
  intro w
  induction w with
  | nil =>
    intro _ S
    simp only [List.foldl_nil]
    constructor
    · rintro ⟨s, hs, hacc⟩
      rcases accepts_inv heps hacc with ⟨_, hout⟩ | ⟨c, w', t, hw, _, _⟩
      · exact ⟨s, hs, hout⟩
      · cases hw
    · rintro ⟨t, ht, hout⟩
      exact ⟨t, ht, NFA.Accepts.done hout⟩
  | cons c w' ih =>
    intro hbytes S
    have hc : c < NUM_CHARS := hbytes c (List.mem_cons_self _ _)
    have hbytes' : ByteString w' :=
      fun b hb => hbytes b (List.mem_cons_of_mem _ hb)
    simp only [List.foldl_cons]
    rw [← ih hbytes' (nextStatesSet n S c)]
    constructor
    · rintro ⟨s, hs, hacc⟩
      rcases accepts_inv heps hacc with ⟨hw, _⟩ | ⟨c0, w0, t, hw, ht, hacc'⟩
      · cases hw
      · rw [List.cons.injEq] at hw
        obtain ⟨h1, h2⟩ := hw
        rw [← h1] at ht
        rw [← h2] at hacc'
        exact ⟨t, mem_nextStatesSet.mpr ⟨s, hs, ht⟩, hacc'⟩
    · rintro ⟨t, ht, hacc⟩
      obtain ⟨s, hs, hdel⟩ := mem_nextStatesSet.mp ht
      have hcne : c ≠ EPSILON := by
        unfold EPSILON
        unfold NUM_CHARS at hc
        omega
      exact ⟨s, hs, NFA.Accepts.step hcne hdel hacc⟩

theorem outUnion_ne_empty_iff {n : NFA} {S : Finset Nat} :
    outUnion n S ≠ ∅ ↔ ∃ s ∈ S, aGet n.outputs (s : Int) ≠ ∅ := by
  unfold outUnion
  rw [← Finset.nonempty_iff_ne_empty, Finset.biUnion_nonempty]
  simp [Finset.nonempty_iff_ne_empty]

/-- Runs of a DFA whose table satisfies the final get_dfa invariant follow
the subset successors. -/
theorem final_run {n : NFA} {mp : List (Finset Nat)} {d : DFA}
    (hinv : GInv n mp [] d.transitions d.outputs) :
    ∀ (w : List Nat), ByteString w → ∀ (i : Nat) (S : Finset Nat),
      mp.get? i = some S →
      ∃ j : Nat, d.runFrom (i : Int) w = (j : Int) ∧
        mp.get? j = some (w.foldl (nextStatesSet n) S) := by
  intro w
  induction w with
  | nil =>
    intro _ i S hget
    exact ⟨i, rfl, hget⟩
  | cons c w' ih =>
    intro hbytes i S hget
    have hc : c < NUM_CHARS := hbytes c (List.mem_cons_self _ _)
    have hbytes' : ByteString w' :=
      fun b hb => hbytes b (List.mem_cons_of_mem _ hb)
    obtain ⟨hrow, _⟩ := hinv.processed i S hget (by simp)
    obtain ⟨j, hj1, hj2⟩ := hrow c hc
    have hstep : d.step (i : Int) c = (j : Int) := by
      unfold DFA.step
      rw [if_pos (by positivity), Int.toNat_natCast]
      unfold EntryAt at hj1
      cases hg : d.transitions.get? i with
      | none =>
        rw [hg] at hj1
        simp at hj1
      | some row =>
        rw [hg] at hj1
        show (row.get? c).getD (-1) = (j : Int)
        have hj1' : row.get? c = some (j : Int) := hj1
        rw [hj1']
        rfl
    obtain ⟨k, hk1, hk2⟩ := ih hbytes' j (nextStatesSet n S c) hj2
    refine ⟨k, ?_, ?_⟩
    · show d.runFrom (d.step (i : Int) c) w' = (k : Int)
      rw [hstep]
      exact hk1
    · simpa using hk2

/-- The invariant holds at the start of get_dfa's worklist. -/
theorem ginv_init (n : NFA) :
    GInv n [{n.initial_state}] [{n.initial_state}] [newRow] [] := by
  refine ⟨by simp, by simp, by simp, by simp, ?_, ?_, ?_, by simp⟩
  · intro row hrow
    rw [List.mem_singleton] at hrow
    subst hrow
    simp [newRow]
  · intro i S hget hnotfr
    exfalso
    apply hnotfr
    cases i with
    | zero =>
      simp only [List.get?] at hget
      cases hget
      simp
    | succ k => cases hget
  · intro i S hget _
    rfl

/-- C1: for every ε-free NFA, whenever get_dfa completes, the resulting DFA
accepts exactly the byte strings the NFA accepts from its initial state, and
there is a state map assigning each DFA state its subset of NFA states such
that the DFA state's tag set is the union of the subset's tag sets and the
DFA state is accepting iff some subset member is accepting. -/
theorem c1_get_dfa_subset_construction (n : NFA) (fuel : Nat) (d : DFA)
    (heps : NoEps n) (hrun : n.get_dfa fuel = some d) :
    (∀ w, ByteString w →
      (d.acceptsb w = true ↔ n.Accepts n.initial_state w)) ∧
    ∃ mp : List (Finset Nat),
      mp.length = d.transitions.length ∧
      mp.get? 0 = some {n.initial_state} ∧
      ∀ i S, mp.get? i = some S →
        aGet d.outputs (i : Int) = outUnion n S ∧
        (aGet d.outputs (i : Int) ≠ ∅ ↔
          ∃ s ∈ S, aGet n.outputs (s : Int) ≠ ∅) := by
  unfold NFA.get_dfa at hrun
  obtain ⟨mp, ⟨ext, hext⟩, hinit, hinv⟩ :=
    getDfaLoop_some n fuel [{n.initial_state}] [{n.initial_state}] [newRow] []
      d (ginv_init n) hrun
  have hget0 : mp.get? 0 = some {n.initial_state} := by
    rw [hext]
    rfl
  constructor
  · intro w hbytes
    obtain ⟨j, hj1, hj2⟩ := final_run hinv w hbytes 0 {n.initial_state} hget0
    obtain ⟨_, houts⟩ := hinv.processed j _ hj2 (by simp)
    unfold DFA.acceptsb
    rw [hinit]
    have h0 : ((0 : Nat) : Int) = (0 : Int) := rfl
    rw [← h0, hj1, decide_eq_true_iff]
    rw [houts, outUnion_ne_empty_iff]
    rw [← nfa_accepts_iff_hat heps w hbytes {n.initial_state}]
    simp
  · refine ⟨mp, hinv.len_eq, hget0, ?_⟩
    intro i S hget
    obtain ⟨_, houts⟩ := hinv.processed i S hget (by simp)
    rw [houts]
    exact ⟨rfl, outUnion_ne_empty_iff⟩

/-- C1 witness: the hypotheses of the subset-construction theorem are
satisfiable; instantiated on the one-state ε-free NFA `nfaGW`. -/
theorem c1_witness :
    (∀ w, ByteString w →
      (dfaGW.acceptsb w = true ↔ nfaGW.Accepts nfaGW.initial_state w)) ∧
    ∃ mp : List (Finset Nat),
      mp.length = dfaGW.transitions.length ∧
      mp.get? 0 = some {nfaGW.initial_state} ∧
      ∀ i S, mp.get? i = some S →
        aGet dfaGW.outputs (i : Int) = outUnion nfaGW S ∧
        (aGet dfaGW.outputs (i : Int) ≠ ∅ ↔
          ∃ s ∈ S, aGet nfaGW.outputs (s : Int) ≠ ∅) :=
  c1_get_dfa_subset_construction nfaGW 3 dfaGW
    (by intro e he; cases he) getdfa_gw_eval

/- ============ C10: totality and well-formedness of the results ============ -/

theorem lookupPair_mem {mp : List ((Int × Int) × Nat)} {p : Int × Int} {i : Nat}
    (h : lookupPair mp p = some i) : ∃ e ∈ mp, e.1 = p ∧ e.2 = i := by
  unfold lookupPair at h
  cases hf : mp.find? (fun e => e.1 == p) with
  | none => rw [hf] at h; cases h
  | some e =>
    rw [hf] at h
    have he2 : e.2 = i := Option.some_injective _ h
    have hek : e.1 = p := by simpa using List.find?_some hf
    exact ⟨e, List.mem_of_find?_eq_some hf, hek, he2⟩

theorem lookupPair_none_keys {mp : List ((Int × Int) × Nat)} {p : Int × Int}
    (h : lookupPair mp p = none) : ∀ e ∈ mp, e.1 ≠ p := by
  unfold lookupPair at h
  cases hf : mp.find? (fun e => e.1 == p) with
  | some e => rw [hf] at h; cases h
  | none =>
    intro e he
    have := List.find?_eq_none.mp hf e he
    simpa using this

theorem lookupPair_of_mem :
    ∀ (mp : List ((Int × Int) × Nat)),
      (List.map (fun e => e.1) mp).Nodup →
      ∀ e ∈ mp, lookupPair mp e.1 = some e.2 := by
  intro mp
  induction mp with
  | nil => intro _ e he; cases he
  | cons a rest ih =>
    intro hnd e he
    simp only [List.map_cons] at hnd
    have hnot : a.1 ∉ List.map (fun x => x.1) rest := (List.nodup_cons.mp hnd).1
    have hndr := (List.nodup_cons.mp hnd).2
    rcases List.mem_cons.mp he with he1 | he2
    · subst he1
      have hf : (e :: rest).find? (fun x => x.1 == e.1) = some e :=
        List.find?_cons_of_pos _ (by simp)
      unfold lookupPair
      rw [hf]
    · have hane : a.1 ≠ e.1 := by
        intro heq
        apply hnot
        rw [heq]
        exact List.mem_map.mpr ⟨e, he2, rfl⟩
      have hf : (a :: rest).find? (fun x => x.1 == e.1) =
          rest.find? (fun x => x.1 == e.1) :=
        List.find?_cons_of_neg _ (by simp [hane])
      have hr := ih hndr e he2
      unfold lookupPair at hr ⊢
      rw [hf]
      exact hr

/-- One full pass of union's symbol loop (conditional on no Python
IndexError): the pair map grows by a block `ext` of newly discovered pairs
(whose keys are pushed onto the frontier in reverse), the table gains one
fresh row per new pair, row `state` is written with a valid product-state
index at every processed symbol and nothing else changes. -/
theorem unionSymFold (lhs rhs : DFA) (p : Int × Int) (state : Nat) :
    ∀ (syms : List Nat) (mp : List ((Int × Int) × Nat)) (fr : List (Int × Int))
      (tr : List (List Int)) (mp' : List ((Int × Int) × Nat))
      (fr' : List (Int × Int)) (tr' : List (List Int)),
      syms.Nodup → (∀ c ∈ syms, c < NUM_CHARS) →
      (List.map (fun e => e.1) mp).Nodup →
      (∀ e ∈ mp, e.2 < tr.length) →
      (∀ row ∈ tr, row.length = NUM_CHARS) →
      state < tr.length →
      syms.foldlM (unionSym lhs rhs p state) (mp, fr, tr) =
        some (mp', fr', tr') →
      ∃ ext : List ((Int × Int) × Nat),
        mp' = mp ++ ext ∧
        fr' = (List.map (fun e => e.1) ext).reverse ++ fr ∧
        tr'.length = tr.length + ext.length ∧
        (List.map (fun e => e.1) mp').Nodup ∧
        (∀ e ∈ mp', e.2 < tr'.length) ∧
        (∀ i, tr.length ≤ i → i < tr'.length → ∃ e ∈ ext, e.2 = i) ∧
        (∀ row ∈ tr', row.length = NUM_CHARS) ∧
        (∀ i c, i ≠ state →
          EntryAt tr' i c =
            EntryAt (tr ++ List.replicate ext.length newRow) i c) ∧
        (∀ c ∈ syms, ∃ v : Int, EntryAt tr' state c = some v ∧ 0 ≤ v ∧
          v.toNat < tr'.length) ∧
        (∀ c, c ∉ syms →
          EntryAt tr' state c =
            EntryAt (tr ++ List.replicate ext.length newRow) state c) := by
  intro syms
  induction syms with
  | nil =>
    intro mp fr tr mp' fr' tr' _ _ hknd hvals hrows _ hfold
    simp only [List.foldlM_nil] at hfold
    have h3 : (mp, fr, tr) = (mp', fr', tr') := Option.some_injective _ hfold
    obtain ⟨h1, h2, h4⟩ : mp = mp' ∧ fr = fr' ∧ tr = tr' :=
      ⟨congrArg Prod.fst h3,
        congrArg (fun q => q.2.1) h3, congrArg (fun q => q.2.2) h3⟩
    subst h1; subst h2; subst h4
    refine ⟨[], by simp, by simp, by simp, hknd, hvals, ?_, hrows, ?_,
      by simp, ?_⟩
    · intro i hge hlt
      exact absurd (Nat.lt_of_le_of_lt hge hlt) (lt_irrefl _)
    · intro i c _
      simp
    · intro c _
      simp
  | cons c cs ih =>
    intro mp fr tr mp' fr' tr' hnd hbnd hknd hvals hrows hstate hfold
    have hndcs : cs.Nodup := (List.nodup_cons.mp hnd).2
    have hcnotin : c ∉ cs := (List.nodup_cons.mp hnd).1
    have hbndcs : ∀ c' ∈ cs, c' < NUM_CHARS :=
      fun c' hc' => hbnd c' (List.mem_cons_of_mem _ hc')
    have hcbnd : c < NUM_CHARS := hbnd c (List.mem_cons_self _ _)
    simp only [List.foldlM_cons] at hfold
    obtain ⟨row, hrowg⟩ : ∃ row, tr.get? state = some row := by
      cases hg : tr.get? state with
      | none => exact absurd (List.get?_eq_none.mp hg) (Nat.not_le_of_lt hstate)
      | some row => exact ⟨row, rfl⟩
    have hrowlen : row.length = NUM_CHARS := hrows row (List.get?_mem hrowg)
    cases hl : pyGet lhs.transitions p.1 with
    | none =>
      have hstep : unionSym lhs rhs p state (mp, fr, tr) c = none := by
        simp only [unionSym, hl]
      rw [hstep] at hfold
      simp at hfold
    | some lrow =>
    cases hr : pyGet rhs.transitions p.2 with
    | none =>
      have hstep : unionSym lhs rhs p state (mp, fr, tr) c = none := by
        simp only [unionSym, hl, hr]
      rw [hstep] at hfold
      simp at hfold
    | some rrow =>
    cases hlv : lrow.get? c with
    | none =>
      have hstep : unionSym lhs rhs p state (mp, fr, tr) c = none := by
        simp only [unionSym, hl, hr, hlv]
      rw [hstep] at hfold
      simp at hfold
    | some lv =>
    cases hrv : rrow.get? c with
    | none =>
      have hstep : unionSym lhs rhs p state (mp, fr, tr) c = none := by
        simp only [unionSym, hl, hr, hlv, hrv]
      rw [hstep] at hfold
      simp at hfold
    | some rv =>
    cases hlk : lookupPair mp (lv, rv) with
    | some nid =>
      have hstep : unionSym lhs rhs p state (mp, fr, tr) c =
          some (mp, fr, setTrans tr state c (nid : Int)) := by
        simp only [unionSym, hl, hr, hlv, hrv, hlk]
      rw [hstep] at hfold
      have hfold2 : cs.foldlM (unionSym lhs rhs p state)
          (mp, fr, setTrans tr state c (nid : Int)) = some (mp', fr', tr') := by
        simpa using hfold
      have hnid_lt : nid < tr.length := by
        obtain ⟨e, he, _, hev⟩ := lookupPair_mem hlk
        have := hvals e he
        omega
      have hvals2 : ∀ e ∈ mp, e.2 < (setTrans tr state c (nid : Int)).length := by
        rw [setTrans_length]
        exact hvals
      have hrows2 : ∀ row' ∈ setTrans tr state c (nid : Int),
          row'.length = NUM_CHARS := setTrans_rows_len hrows
      have hstate2 : state < (setTrans tr state c (nid : Int)).length := by
        rw [setTrans_length]
        exact hstate
      obtain ⟨ext, hmp, hfr, htlen0, hknd2, hvals3, hsurj0, hrows3, hother,
        hin, hout⟩ :=
        ih mp fr (setTrans tr state c (nid : Int)) mp' fr' tr'
          hndcs hbndcs hknd hvals2 hrows2 hstate2 hfold2
      rw [setTrans_length] at htlen0 hsurj0
      refine ⟨ext, hmp, hfr, htlen0, hknd2, hvals3, hsurj0, hrows3,
        ?_, ?_, ?_⟩
      · intro i c' hi
        rw [hother i c' hi, setTrans_append hrowg,
          EntryAt_setTrans_ne (Or.inl hi)]
      · intro c' hc'
        rcases List.mem_cons.mp hc' with he | hm
        · rw [he]
          rw [hout c hcnotin, setTrans_append hrowg]
          refine ⟨(nid : Int), ?_, ?_, ?_⟩
          · apply @EntryAt_setTrans_same _ _ _ _ row
            · rw [List.get?_append hstate]
              exact hrowg
            · rw [hrowlen]
              exact hcbnd
          · exact Int.natCast_nonneg nid
          · have hb : nid < tr'.length := by omega
            simpa using hb
        · exact hin c' hm
      · intro c' hc'
        have hc'c : c' ≠ c := fun he => hc' (he ▸ List.mem_cons_self c cs)
        have hc'cs : c' ∉ cs := fun hm => hc' (List.mem_cons_of_mem _ hm)
        rw [hout c' hc'cs, setTrans_append hrowg,
          EntryAt_setTrans_ne (Or.inr hc'c)]
    | none =>
      have hstep : unionSym lhs rhs p state (mp, fr, tr) c =
          some (mp ++ [((lv, rv), tr.length)], (lv, rv) :: fr,
            setTrans (tr ++ [newRow]) state c (tr.length : Int)) := by
        simp only [unionSym, hl, hr, hlv, hrv, hlk]
      rw [hstep] at hfold
      have hfold2 : cs.foldlM (unionSym lhs rhs p state)
          (mp ++ [((lv, rv), tr.length)], (lv, rv) :: fr,
            setTrans (tr ++ [newRow]) state c (tr.length : Int)) =
          some (mp', fr', tr') := by
        simpa using hfold
      have hknd2 :
          (List.map (fun e => e.1) (mp ++ [((lv, rv), tr.length)])).Nodup := by
        rw [List.map_append, List.nodup_append]
        refine ⟨hknd, by simp, ?_⟩
        intro a ha hb
        simp only [List.map_cons, List.map_nil, List.mem_singleton] at hb
        subst hb
        obtain ⟨e, he, hek⟩ := List.mem_map.mp ha
        exact lookupPair_none_keys hlk e he hek
      have hvals2 : ∀ e ∈ mp ++ [((lv, rv), tr.length)],
          e.2 < (setTrans (tr ++ [newRow]) state c (tr.length : Int)).length := by
        rw [setTrans_length, List.length_append, List.length_singleton]
        intro e he
        rcases List.mem_append.mp he with h | h
        · have := hvals e h
          omega
        · rw [List.mem_singleton] at h
          subst h
          simp
      have hrows2 : ∀ row' ∈ setTrans (tr ++ [newRow]) state c
          (tr.length : Int), row'.length = NUM_CHARS := by
        apply setTrans_rows_len
        intro row' hr'
        rcases List.mem_append.mp hr' with h | h
        · exact hrows _ h
        · rw [List.mem_singleton] at h
          subst h
          simp [newRow]
      have hstate2 : state <
          (setTrans (tr ++ [newRow]) state c (tr.length : Int)).length := by
        rw [setTrans_length, List.length_append]
        exact Nat.lt_of_lt_of_le hstate (by simp)
      obtain ⟨ext, hmp, hfr, htlen0, hknd3, hvals3, hsurj0, hrows3, hother,
        hin, hout⟩ :=
        ih (mp ++ [((lv, rv), tr.length)]) ((lv, rv) :: fr)
          (setTrans (tr ++ [newRow]) state c (tr.length : Int)) mp' fr' tr'
          hndcs hbndcs hknd2 hvals2 hrows2 hstate2 hfold2
      have htr2len : (setTrans (tr ++ [newRow]) state c
          (tr.length : Int)).length = tr.length + 1 := by
        rw [setTrans_length, List.length_append, List.length_singleton]
      rw [htr2len] at htlen0 hsurj0
      have hrowg2 : (tr ++ [newRow]).get? state = some row := by
        rw [List.get?_append hstate]
        exact hrowg
      have happ : (tr ++ [newRow]) ++ List.replicate ext.length newRow =
          tr ++ List.replicate (((lv, rv), tr.length) :: ext).length newRow := by
        rw [List.append_assoc]
        congr 1
      refine ⟨((lv, rv), tr.length) :: ext, ?_, ?_, ?_, hknd3, hvals3, ?_,
        hrows3, ?_, ?_, ?_⟩
      · rw [hmp, List.append_assoc]
        rfl
      · rw [hfr]
        simp only [List.map_cons]
        rw [List.reverse_cons, List.append_assoc]
        rfl
      · simp only [List.length_cons]
        omega
      · intro i hge hlt
        by_cases hi : i = tr.length
        · exact ⟨((lv, rv), tr.length), List.mem_cons_self _ _, hi.symm⟩
        · obtain ⟨e, he, hev⟩ := hsurj0 i (by omega) hlt
          exact ⟨e, List.mem_cons_of_mem _ he, hev⟩
      · intro i c' hi
        rw [hother i c' hi, setTrans_append hrowg2,
          EntryAt_setTrans_ne (Or.inl hi), happ]
      · intro c' hc'
        rcases List.mem_cons.mp hc' with he | hm
        · rw [he]
          rw [hout c hcnotin, setTrans_append hrowg2]
          refine ⟨(tr.length : Int), ?_, ?_, ?_⟩
          · apply @EntryAt_setTrans_same _ _ _ _ row
            · rw [List.get?_append
                (Nat.lt_of_lt_of_le hstate (by simp) :
                  state < (tr ++ [newRow]).length)]
              exact hrowg2
            · rw [hrowlen]
              exact hcbnd
          · exact Int.natCast_nonneg tr.length
          · have hb : tr.length < tr'.length := by omega
            simpa using hb
        · exact hin c' hm
      · intro c' hc'
        have hc'c : c' ≠ c := fun he => hc' (he ▸ List.mem_cons_self c cs)
        have hc'cs : c' ∉ cs := fun hm => hc' (List.mem_cons_of_mem _ hm)
        rw [hout c' hc'cs, setTrans_append hrowg2,
          EntryAt_setTrans_ne (Or.inr hc'c), happ]

/-- Row `i` of `tr` is total with only valid state indices. -/
def RowTotal (tr : List (List Int)) (i : Nat) : Prop :=
  ∀ c, c < NUM_CHARS → ∃ v : Int, EntryAt tr i c = some v ∧ 0 ≤ v ∧
    v.toNat < tr.length

/-- Worklist invariant of DFA.union: pair-map keys are distinct with values
that are valid rows, rows have NUM_CHARS columns, every row is either
already total or still pending on the frontier, and outputs entries are
valid and non-empty. -/
structure UInv (mp : List ((Int × Int) × Nat)) (fr : List (Int × Int))
    (tr : List (List Int)) (outs : List (Nat × Finset Nat)) : Prop where
  keys_nodup : (List.map (fun e => e.1) mp).Nodup
  vals_lt : ∀ e ∈ mp, e.2 < tr.length
  rows_len : ∀ row ∈ tr, row.length = NUM_CHARS
  covered : ∀ i, i < tr.length → RowTotal tr i ∨ ∃ e ∈ mp, e.2 = i ∧ e.1 ∈ fr
  outs_wf : ∀ e ∈ outs, e.1 < tr.length ∧ e.2 ≠ ∅

theorem unionLoop_some (lhs rhs : DFA) :
    ∀ (fuel : Nat) (mp : List ((Int × Int) × Nat)) (fr : List (Int × Int))
      (tr : List (List Int)) (outs : List (Nat × Finset Nat)) (d : DFA),
      UInv mp fr tr outs →
      unionLoop lhs rhs fuel mp fr tr outs = some d →
      d.initial_state = 0 ∧ tr.length ≤ d.transitions.length ∧
      (∀ row ∈ d.transitions, row.length = NUM_CHARS) ∧
      (∀ i, i < d.transitions.length → RowTotal d.transitions i) ∧
      (∀ e ∈ d.outputs, e.1 < d.transitions.length ∧ e.2 ≠ ∅) := by
  intro fuel
  induction fuel with
  | zero =>
    intro mp fr tr outs d _ hloop
    cases hloop
  | succ fuel ih =>
    intro mp fr tr outs d hinv hloop
    cases hfr : fr with
    | nil =>
      subst hfr
      unfold unionLoop at hloop
      cases hloop
      refine ⟨rfl, Nat.le_refl _, hinv.rows_len, ?_, hinv.outs_wf⟩
      intro i hi
      rcases hinv.covered i hi with h | ⟨e, _, _, hefr⟩
      · exact h
      · cases hefr
    | cons p rest =>
      subst hfr
      cases hlk : lookupPair mp p with
      | none =>
        simp [unionLoop, hlk] at hloop
      | some state =>
        have hstate : state < tr.length := by
          obtain ⟨e, he, _, hev⟩ := lookupPair_mem hlk
          have := hinv.vals_lt e he
          omega
        cases hres : (List.range NUM_CHARS).foldlM (unionSym lhs rhs p state)
            (mp, rest, tr) with
        | none =>
          simp [unionLoop, hlk, hres] at hloop
        | some acc =>
          obtain ⟨mp2, fr2, tr2⟩ := acc
          simp only [unionLoop, hlk, hres] at hloop
          obtain ⟨ext, hmp2, hfr2, htlen, hknd2, hvals2, hsurj, hrows2,
            hother, hin, _⟩ :=
            unionSymFold lhs rhs p state (List.range NUM_CHARS) mp rest tr
              mp2 fr2 tr2 (List.nodup_range _) (fun c hc => List.mem_range.mp hc)
              hinv.keys_nodup hinv.vals_lt hinv.rows_len hstate hres
          have htrle : tr.length ≤ tr2.length := by omega
          have hinv2 : UInv mp2 fr2 tr2
              (if aGet lhs.outputs p.1 ≠ ∅ ∨ aGet rhs.outputs p.2 ≠ ∅ then
                aPut outs state (aGet outs (state : Int) ∪
                  aGet lhs.outputs p.1 ∪ aGet rhs.outputs p.2)
              else outs) := by
            refine ⟨hknd2, hvals2, hrows2, ?_, ?_⟩
            · intro i hi
              by_cases his : i = state
              · subst his
                left
                intro c hc
                exact hin c (List.mem_range.mpr hc)
              · by_cases hilt : i < tr.length
                · rcases hinv.covered i hilt with hrt | ⟨e, he, hev, hefr⟩
                  · left
                    intro c hc
                    obtain ⟨v, hv, hv0, hvlt⟩ := hrt c hc
                    refine ⟨v, ?_, hv0, by omega⟩
                    rw [hother i c his, EntryAt_append hilt]
                    exact hv
                  · rcases List.mem_cons.mp hefr with hep | her
                    · exfalso
                      have hle := lookupPair_of_mem mp hinv.keys_nodup e he
                      rw [hep] at hle
                      rw [hle] at hlk
                      have hes : e.2 = state := Option.some_injective _ hlk
                      omega
                    · right
                      refine ⟨e, ?_, hev, ?_⟩
                      · rw [hmp2]
                        exact List.mem_append_left _ he
                      · rw [hfr2]
                        exact List.mem_append_right _ her
                · right
                  obtain ⟨e, he, hev⟩ := hsurj i (by omega) hi
                  refine ⟨e, ?_, hev, ?_⟩
                  · rw [hmp2]
                    exact List.mem_append_right _ he
                  · rw [hfr2]
                    apply List.mem_append_left
                    rw [List.mem_reverse]
                    exact List.mem_map.mpr ⟨e, he, rfl⟩
            · intro e he
              by_cases hcond : aGet lhs.outputs p.1 ≠ ∅ ∨
                  aGet rhs.outputs p.2 ≠ ∅
              · rw [if_pos hcond] at he
                rcases aPut_mem e he with h | h
                · obtain ⟨h1, h2⟩ := hinv.outs_wf e h
                  exact ⟨by omega, h2⟩
                · rw [h]
                  refine ⟨by simpa using Nat.lt_of_lt_of_le hstate htrle, ?_⟩
                  show aGet outs (state : Int) ∪ aGet lhs.outputs p.1 ∪
                    aGet rhs.outputs p.2 ≠ ∅
                  intro hemp
                  rw [Finset.union_eq_empty] at hemp
                  obtain ⟨h12, h3⟩ := hemp
                  rw [Finset.union_eq_empty] at h12
                  rcases hcond with h1 | h1
                  · exact h1 h12.2
                  · exact h1 h3
              · rw [if_neg hcond] at he
                obtain ⟨h1, h2⟩ := hinv.outs_wf e he
                exact ⟨by omega, h2⟩
          obtain ⟨hd0, hdle, hdrows, hdtot, hdouts⟩ :=
            ih mp2 fr2 tr2 _ d hinv2 hloop
          exact ⟨hd0, Nat.le_trans htrle hdle, hdrows, hdtot, hdouts⟩

/-- A DFA is total and well-formed: valid initial state, full rows whose
entries are all valid state indices (never the -1 sentinel), and outputs
keyed by valid states with non-empty tag sets. -/
def WellFormedTotal (d : DFA) : Prop :=
  0 ≤ d.initial_state ∧ d.initial_state.toNat < d.transitions.length ∧
  (∀ row ∈ d.transitions, row.length = NUM_CHARS) ∧
  (∀ i, i < d.transitions.length → RowTotal d.transitions i) ∧
  (∀ e ∈ d.outputs, e.1 < d.transitions.length ∧ e.2 ≠ ∅)

/-- C10: every DFA that NFA.get_dfa or DFA.union returns (i.e. whenever the
Python computation terminates normally, embedded as the fueled worklist
producing `some`) is total and well-formed: each of its rows has an entry
for every byte 0..255 that is a valid state index of the result - never the
-1 sentinel - its initial state is a valid state index, and its outputs map
valid state indices to non-empty tag sets. -/
theorem c10_get_dfa_union_total_well_formed :
    (∀ (n : NFA) (fuel : Nat) (d : DFA), n.get_dfa fuel = some d →
      WellFormedTotal d) ∧
    (∀ (a b : DFA) (fuel : Nat) (d : DFA), DFA.union a b fuel = some d →
      WellFormedTotal d) := by
  constructor
  · intro n fuel d hrun
    unfold NFA.get_dfa at hrun
    obtain ⟨mp, ⟨ext, hext⟩, hinit, hinv⟩ :=
      getDfaLoop_some n fuel [{n.initial_state}] [{n.initial_state}] [newRow]
        [] d (ginv_init n) hrun
    have hlen1 : 1 ≤ mp.length := by
      rw [hext]
      simp
    have hlen : mp.length = d.transitions.length := hinv.len_eq
    have hpos : 0 < d.transitions.length := by omega
    refine ⟨by rw [hinit], ?_, hinv.rows_len, ?_, hinv.outs_wf⟩
    · rw [hinit]
      simpa using hpos
    · intro i hi c hc
      have himp : i < mp.length := by omega
      have hget : mp.get? i = some (mp.get ⟨i, himp⟩) := List.get?_eq_get himp
      obtain ⟨hrow, _⟩ := hinv.processed i _ hget (by simp)
      obtain ⟨j, hj1, hj2⟩ := hrow c hc
      have hjlt : j < mp.length := lt_length_of_get?_some hj2
      refine ⟨(j : Int), hj1, by simp, ?_⟩
      simpa using (by omega : j < d.transitions.length)
  · intro a b fuel d hrun
    unfold DFA.union at hrun
    have hinv0 : UInv [((a.initial_state, b.initial_state), 0)]
        [(a.initial_state, b.initial_state)] [newRow] [] := by
      refine ⟨by simp, ?_, ?_, ?_, by simp⟩
      · intro e he
        rw [List.mem_singleton] at he
        subst he
        simp
      · intro row hrow
        rw [List.mem_singleton] at hrow
        subst hrow
        simp [newRow]
      · intro i hi
        right
        have hi0 : i = 0 := by
          rw [List.length_singleton] at hi
          omega
        subst hi0
        exact ⟨((a.initial_state, b.initial_state), 0),
          List.mem_singleton_self _, rfl, List.mem_singleton_self _⟩
    obtain ⟨hd0, hdle, hdrows, hdtot, hdouts⟩ :=
      unionLoop_some a b fuel [((a.initial_state, b.initial_state), 0)]
        [(a.initial_state, b.initial_state)] [newRow] [] d hinv0 hrun
    have hpos : 0 < d.transitions.length := by
      have h1 : ([newRow] : List (List Int)).length = 1 := rfl
      omega
    refine ⟨by rw [hd0], ?_, hdrows, hdtot, hdouts⟩
    rw [hd0]
    simpa using hpos

/-- C10 witness: both construction theorems instantiated on concrete runs
that complete (get_dfa on `nfaGW`, union on `dfaC4A`, `dfaC4B`). -/
theorem c10_witness : WellFormedTotal dfaGW ∧ WellFormedTotal dfaC4U :=
  ⟨c10_get_dfa_union_total_well_formed.1 nfaGW 3 dfaGW getdfa_gw_eval,
    c10_get_dfa_union_total_well_formed.2 dfaC4A dfaC4B 4 dfaC4U c4_union_eval⟩

/- ============ C2: remove_epsilons language preservation ============ -/

/-- One ε-edge of the source NFA. -/
def EpsStep (n : NFA) (a b : Nat) : Prop := b ∈ n.delta a EPSILON

/-- ε-reachability: the reflexive-transitive closure of `EpsStep`. -/
def EpsReach (n : NFA) : Nat → Nat → Prop := Relation.ReflTransGen (EpsStep n)

theorem epsClosureLoop_spec (n : NFA) (s0 : Nat) :
    ∀ (fuel : Nat) (closure frontier L : List Nat),
      (∀ t ∈ closure, EpsReach n s0 t) →
      (∀ t ∈ frontier, EpsReach n s0 t) →
      (∀ t ∈ closure, ∀ u ∈ n.delta t EPSILON, u ∈ closure ∨ u ∈ frontier) →
      epsClosureLoop n fuel closure frontier = some L →
      (∀ t ∈ closure, t ∈ L) ∧ (∀ t ∈ frontier, t ∈ L) ∧
      (∀ t ∈ L, EpsReach n s0 t) ∧
      (∀ t ∈ L, ∀ u ∈ n.delta t EPSILON, u ∈ L) := by
  intro fuel
  induction fuel with
  | zero =>
    intro closure frontier L _ _ _ hloop
    cases hloop
  | succ fuel ih =>
    intro closure frontier L hsc hsf hcl hloop
    cases frontier with
    | nil =>
      unfold epsClosureLoop at hloop
      cases hloop
      refine ⟨fun t ht => ht, by simp, hsc, ?_⟩
      intro t ht u hu
      rcases hcl t ht u hu with h | h
      · exact h
      · cases h
    | cons s rest =>
      simp only [epsClosureLoop] at hloop
      have hsreach : EpsReach n s0 s := hsf s (List.mem_cons_self _ _)
      have hsc' : ∀ t ∈ (if s ∈ closure then closure else closure ++ [s]),
          EpsReach n s0 t := by
        by_cases hs : s ∈ closure
        · rw [if_pos hs]; exact hsc
        · rw [if_neg hs]
          intro t ht
          rcases List.mem_append.mp ht with h | h
          · exact hsc t h
          · rw [List.mem_singleton] at h
            subst h
            exact hsreach
      have hmem : ∀ t ∈ closure, t ∈ (if s ∈ closure then closure
          else closure ++ [s]) := by
        by_cases hs : s ∈ closure
        · rw [if_pos hs]; exact fun t ht => ht
        · rw [if_neg hs]; exact fun t ht => List.mem_append_left _ ht
      have hsmem : s ∈ (if s ∈ closure then closure else closure ++ [s]) := by
        by_cases hs : s ∈ closure
        · rw [if_pos hs]; exact hs
        · rw [if_neg hs]
          exact List.mem_append_right _ (List.mem_singleton_self _)
      cases hfind : n.transitions.find? (fun e => e.1 == (s, EPSILON)) with
      | none =>
        rw [hfind] at hloop
        have hdelta : n.delta s EPSILON = [] := by
          unfold NFA.delta
          rw [hfind]
        have hcl2 : ∀ t ∈ (if s ∈ closure then closure else closure ++ [s]),
            ∀ u ∈ n.delta t EPSILON,
              u ∈ (if s ∈ closure then closure else closure ++ [s]) ∨
                u ∈ rest := by
          intro t ht u hu
          by_cases hs : s ∈ closure
          · rw [if_pos hs] at ht ⊢
            rcases hcl t ht u hu with h | h
            · exact Or.inl h
            · rcases List.mem_cons.mp h with he | hm
              · subst he
                exact Or.inl hs
              · exact Or.inr hm
          · rw [if_neg hs] at ht ⊢
            rcases List.mem_append.mp ht with h | h
            · rcases hcl t h u hu with h2 | h2
              · exact Or.inl (List.mem_append_left _ h2)
              · rcases List.mem_cons.mp h2 with he | hm
                · subst he
                  exact Or.inl (List.mem_append_right _
                    (List.mem_singleton_self _))
                · exact Or.inr hm
            · rw [List.mem_singleton] at h
              subst h
              rw [hdelta] at hu
              cases hu
        obtain ⟨h1, h2, h3, h4⟩ := ih _ rest L hsc'
          (fun t ht => hsf t (List.mem_cons_of_mem _ ht)) hcl2 hloop
        refine ⟨fun t ht => h1 t (hmem t ht), ?_, h3, h4⟩
        intro t ht
        rcases List.mem_cons.mp ht with he | hm
        · subst he
          exact h1 t hsmem
        · exact h2 t hm
      | some e =>
        rw [hfind] at hloop
        have hdelta : n.delta s EPSILON = e.2 := by
          unfold NFA.delta
          rw [hfind]
        have hsf2 : ∀ t ∈ (e.2.filter (fun t =>
              t ∉ (if s ∈ closure then closure else closure ++ [s]))).reverse
              ++ rest,
            EpsReach n s0 t := by
          intro t ht
          rcases List.mem_append.mp ht with h | h
          · rw [List.mem_reverse, List.mem_filter] at h
            refine Relation.ReflTransGen.tail hsreach ?_
            show t ∈ n.delta s EPSILON
            rw [hdelta]
            exact h.1
          · exact hsf t (List.mem_cons_of_mem _ h)
        have hcl2 : ∀ t ∈ (if s ∈ closure then closure else closure ++ [s]),
            ∀ u ∈ n.delta t EPSILON,
              u ∈ (if s ∈ closure then closure else closure ++ [s]) ∨
                u ∈ (e.2.filter (fun t =>
                  t ∉ (if s ∈ closure then closure
                    else closure ++ [s]))).reverse ++ rest := by
          intro t ht u hu
          by_cases hut : u ∈ (if s ∈ closure then closure else closure ++ [s])
          · exact Or.inl hut
          · rcases (by
              by_cases hs : s ∈ closure
              · rw [if_pos hs] at ht
                exact Or.inl ht
              · rw [if_neg hs] at ht
                rcases List.mem_append.mp ht with h | h
                · exact Or.inl h
                · rw [List.mem_singleton] at h
                  exact Or.inr h : t ∈ closure ∨ t = s) with h | h
            · rcases hcl t h u hu with h2 | h2
              · exact absurd (hmem u h2) hut
              · rcases List.mem_cons.mp h2 with he | hm
                · subst he
                  exact absurd hsmem hut
                · exact Or.inr (List.mem_append_right _ hm)
            · subst h
              rw [hdelta] at hu
              refine Or.inr (List.mem_append_left _ ?_)
              rw [List.mem_reverse, List.mem_filter]
              exact ⟨hu, decide_eq_true hut⟩
        obtain ⟨h1, h2, h3, h4⟩ := ih _ _ L hsc' hsf2 hcl2 hloop
        refine ⟨fun t ht => h1 t (hmem t ht), ?_, h3, h4⟩
        intro t ht
        rcases List.mem_cons.mp ht with he | hm
        · subst he
          exact h1 t hsmem
        · exact h2 t (List.mem_append_right _ hm)

theorem epsClosure_spec {n : NFA} {s : Nat} {cfuel : Nat} {L : List Nat}
    (h : n.epsilon_closure s cfuel = some L) :
    ∀ t, t ∈ L ↔ EpsReach n s t := by
  unfold NFA.epsilon_closure at h
  obtain ⟨_, hf, hsound, hclosed⟩ := epsClosureLoop_spec n s cfuel [] [s] L
    (by simp)
    (by
      intro t ht
      rw [List.mem_singleton] at ht
      subst ht
      exact Relation.ReflTransGen.refl)
    (by simp) h
  intro t
  constructor
  · exact hsound t
  · intro hreach
    induction hreach with
    | refl => exact hf s (List.mem_singleton_self s)
    | tail _ hbc ihs => exact hclosed _ ihs _ hbc

/- ---- id-map (state_ids dict of remove_epsilons) machinery ---- -/

/-- Lookup in the `state_ids` dict. -/
def idLook (ids : List (Nat × Nat)) (s : Nat) : Option Nat :=
  (ids.find? (fun e => e.1 == s)).map (fun e => e.2)

theorem idLook_cons_pos {e : Nat × Nat} {ids : List (Nat × Nat)} {s : Nat}
    (h : e.1 = s) : idLook (e :: ids) s = some e.2 := by
  unfold idLook
  rw [List.find?_cons_of_pos _ (by simp [h])]
  rfl

theorem idLook_cons_neg {e : Nat × Nat} {ids : List (Nat × Nat)} {s : Nat}
    (h : e.1 ≠ s) : idLook (e :: ids) s = idLook ids s := by
  unfold idLook
  rw [List.find?_cons_of_neg _ (by simp [h])]

theorem idLook_none_keys {ids : List (Nat × Nat)} {s : Nat}
    (h : idLook ids s = none) : ∀ e ∈ ids, e.1 ≠ s := by
  unfold idLook at h
  cases hf : ids.find? (fun e => e.1 == s) with
  | some e => rw [hf] at h; cases h
  | none =>
    intro e he
    have := List.find?_eq_none.mp hf e he
    simpa using this

theorem idLook_mem {ids : List (Nat × Nat)} {s i : Nat}
    (h : idLook ids s = some i) : (s, i) ∈ ids := by
  unfold idLook at h
  cases hf : ids.find? (fun e => e.1 == s) with
  | none => rw [hf] at h; cases h
  | some e =>
    rw [hf] at h
    simp only [Option.map_some'] at h
    have h2 : e.2 = i := Option.some_injective _ h
    have h1 : e.1 = s := by simpa using List.find?_some hf
    have he : (s, i) = e := by rw [← h1, ← h2]
    rw [he]
    exact List.mem_of_find?_eq_some hf

theorem idLook_of_mem :
    ∀ (ids : List (Nat × Nat)), (List.map (fun e => e.1) ids).Nodup →
      ∀ e ∈ ids, idLook ids e.1 = some e.2 := by
  intro ids
  induction ids with
  | nil => intro _ e he; cases he
  | cons a rest ih =>
    intro hnd e he
    simp only [List.map_cons] at hnd
    have hnot := (List.nodup_cons.mp hnd).1
    have hndr := (List.nodup_cons.mp hnd).2
    rcases List.mem_cons.mp he with he1 | he2
    · subst he1
      exact idLook_cons_pos rfl
    · have hne : a.1 ≠ e.1 := by
        intro heq
        apply hnot
        rw [heq]
        exact List.mem_map.mpr ⟨e, he2, rfl⟩
      rw [idLook_cons_neg hne]
      exact ih hndr e he2

theorem idLook_append_left {ids : List (Nat × Nat)} {s i : Nat}
    (h : idLook ids s = some i) (ext : List (Nat × Nat)) :
    idLook (ids ++ ext) s = some i := by
  induction ids with
  | nil => simp [idLook] at h
  | cons a rest ih =>
    by_cases hk : a.1 = s
    · rw [idLook_cons_pos hk] at h
      rw [List.cons_append, idLook_cons_pos hk]
      exact h
    · rw [idLook_cons_neg hk] at h
      rw [List.cons_append, idLook_cons_neg hk]
      exact ih h

theorem idLook_append_self {ids : List (Nat × Nat)} {s v : Nat}
    (h : idLook ids s = none) : idLook (ids ++ [(s, v)]) s = some v := by
  induction ids with
  | nil => exact idLook_cons_pos rfl
  | cons a rest ih =>
    by_cases hk : a.1 = s
    · rw [idLook_cons_pos hk] at h
      cases h
    · rw [idLook_cons_neg hk] at h
      rw [List.cons_append, idLook_cons_neg hk]
      exact ih h

/-- Well-formedness of the allocation state of remove_epsilons: the i-th
inserted source state receives id i, and `next_state` counts insertions. -/
structure IdsWF (ids : List (Nat × Nat)) (cnt : Nat) : Prop where
  vals : List.map (fun e => e.2) ids = List.range ids.length
  cnt_eq : cnt = ids.length
  keys_nodup : (List.map (fun e => e.1) ids).Nodup

theorem idsWF_val_lt {ids : List (Nat × Nat)} {cnt : Nat} (h : IdsWF ids cnt) :
    ∀ e ∈ ids, e.2 < cnt := by
  intro e he
  have hmem : e.2 ∈ List.map (fun x => x.2) ids := List.mem_map.mpr ⟨e, he, rfl⟩
  rw [h.vals] at hmem
  rw [h.cnt_eq]
  exact List.mem_range.mp hmem

theorem getNewState_found {ids : List (Nat × Nat)} {cnt s i : Nat}
    (h : idLook ids s = some i) : getNewState ids cnt s = (i, ids, cnt) := by
  unfold idLook at h
  cases hf : ids.find? (fun e => e.1 == s) with
  | none => rw [hf] at h; cases h
  | some e =>
    rw [hf] at h
    simp only [Option.map_some'] at h
    have h2 : e.2 = i := Option.some_injective _ h
    unfold getNewState
    rw [hf]
    show (e.2, ids, cnt) = (i, ids, cnt)
    rw [h2]

theorem getNewState_new {ids : List (Nat × Nat)} {cnt s : Nat}
    (h : idLook ids s = none) :
    getNewState ids cnt s = (cnt, ids ++ [(s, cnt)], cnt + 1) := by
  unfold idLook at h
  cases hf : ids.find? (fun e => e.1 == s) with
  | some e => rw [hf] at h; cases h
  | none =>
    unfold getNewState
    rw [hf]

theorem idsWF_append {ids : List (Nat × Nat)} {cnt s : Nat}
    (h : IdsWF ids cnt) (hnone : idLook ids s = none) :
    IdsWF (ids ++ [(s, cnt)]) (cnt + 1) := by
  refine ⟨?_, ?_, ?_⟩
  · rw [List.map_append, h.vals, List.length_append, List.length_singleton,
      h.cnt_eq]
    simp [List.range_succ]
  · rw [List.length_append, List.length_singleton, h.cnt_eq]
  · rw [List.map_append, List.nodup_append]
    refine ⟨h.keys_nodup, by simp, ?_⟩
    intro a ha hb
    simp only [List.map_cons, List.map_nil, List.mem_singleton] at hb
    subst hb
    obtain ⟨e, he, hek⟩ := List.mem_map.mp ha
    exact idLook_none_keys hnone e he hek

theorem idLook_val_inj {ids : List (Nat × Nat)} {cnt : Nat}
    (h : IdsWF ids cnt) {s1 s2 i : Nat} (h1 : idLook ids s1 = some i)
    (h2 : idLook ids s2 = some i) : s1 = s2 := by
  have m1 := idLook_mem h1
  have m2 := idLook_mem h2
  have hnd : (List.map (fun x => x.2) ids).Nodup := by
    rw [h.vals]
    exact List.nodup_range _
  have heq := List.inj_on_of_nodup_map hnd m1 m2 rfl
  exact congrArg Prod.fst heq

theorem idsWF_ext_ge {ids ext : List (Nat × Nat)} {cnt cnt' : Nat}
    (h : IdsWF ids cnt) (h' : IdsWF (ids ++ ext) cnt') :
    ∀ e ∈ ext, cnt ≤ e.2 := by
  intro e he
  by_contra hlt
  push_neg at hlt
  have hv : e.2 ∈ List.map (fun x => x.2) ids := by
    rw [h.vals]
    apply List.mem_range.mpr
    rw [← h.cnt_eq]
    exact hlt
  have hnd : (List.map (fun x => x.2) (ids ++ ext)).Nodup := by
    rw [h'.vals]
    exact List.nodup_range _
  rw [List.map_append, List.nodup_append] at hnd
  exact hnd.2.2 hv (List.mem_map.mpr ⟨e, he, rfl⟩)

/- ---- new-NFA transition-table lemmas ---- -/

/-- Lookup in a transitions association list (the body of NFA.delta). -/
def deltaL (tr : List ((Nat × Nat) × List Nat)) (s c : Nat) : List Nat :=
  match tr.find? (fun e => e.1 == (s, c)) with
  | some e => e.2
  | none => []

theorem delta_eq_deltaL (n : NFA) (s c : Nat) :
    n.delta s c = deltaL n.transitions s c := rfl

theorem deltaL_cons_pos {a : (Nat × Nat) × List Nat}
    {tr : List ((Nat × Nat) × List Nat)} {s c : Nat} (h : a.1 = (s, c)) :
    deltaL (a :: tr) s c = a.2 := by
  unfold deltaL
  rw [List.find?_cons_of_pos _ (by simp [h])]

theorem deltaL_cons_neg {a : (Nat × Nat) × List Nat}
    {tr : List ((Nat × Nat) × List Nat)} {s c : Nat} (h : a.1 ≠ (s, c)) :
    deltaL (a :: tr) s c = deltaL tr s c := by
  unfold deltaL
  rw [List.find?_cons_of_neg _ (by simp [h])]

theorem deltaL_mem_entry {tr : List ((Nat × Nat) × List Nat)} {i c u : Nat}
    (h : u ∈ deltaL tr i c) : ∃ e ∈ tr, e.1 = (i, c) ∧ u ∈ e.2 := by
  unfold deltaL at h
  cases hf : tr.find? (fun e => e.1 == (i, c)) with
  | none =>
    rw [hf] at h
    cases h
  | some e =>
    rw [hf] at h
    exact ⟨e, List.mem_of_find?_eq_some hf, by simpa using List.find?_some hf, h⟩

theorem deltaL_of_mem :
    ∀ (tr : List ((Nat × Nat) × List Nat)),
      (List.map (fun e => e.1) tr).Nodup →
      ∀ e ∈ tr, deltaL tr e.1.1 e.1.2 = e.2 := by
  intro tr
  induction tr with
  | nil => intro _ e he; cases he
  | cons a rest ih =>
    intro hnd e he
    simp only [List.map_cons] at hnd
    have hnot := (List.nodup_cons.mp hnd).1
    have hndr := (List.nodup_cons.mp hnd).2
    rcases List.mem_cons.mp he with he1 | he2
    · subst he1
      exact deltaL_cons_pos rfl
    · have hne : a.1 ≠ (e.1.1, e.1.2) := by
        intro heq
        apply hnot
        rw [heq]
        exact List.mem_map.mpr ⟨e, he2, rfl⟩
      rw [deltaL_cons_neg hne]
      exact ih hndr e he2

theorem delta_of_mem {n : NFA}
    (htrnd : (List.map (fun e => e.1) n.transitions).Nodup) :
    ∀ e ∈ n.transitions, n.delta e.1.1 e.1.2 = e.2 := by
  intro e he
  rw [delta_eq_deltaL]
  exact deltaL_of_mem n.transitions htrnd e he

theorem delta_entry_mem {n : NFA} {t c u : Nat} (h : u ∈ n.delta t c) :
    ∃ e ∈ n.transitions, e.1 = (t, c) := by
  rw [delta_eq_deltaL] at h
  obtain ⟨e, he, hk, _⟩ := deltaL_mem_entry h
  exact ⟨e, he, hk⟩

theorem mem_deltaL_update (old new symbol : Nat) :
    ∀ (tr : List ((Nat × Nat) × List Nat)) (s c u : Nat),
      (u ∈ deltaL (tr.map (fun e =>
          if e.1 == (old, symbol) then
            (e.1, if new ∈ e.2 then e.2 else e.2 ++ [new])
          else e)) s c ↔
        u ∈ deltaL tr s c ∨ (u = new ∧ s = old ∧ c = symbol ∧
          tr.any (fun e => e.1 == (s, c)) = true)) := by
  intro tr
  induction tr with
  | nil =>
    intro s c u
    simp [deltaL]
  | cons a rest ih =>
    intro s c u
    by_cases hk : a.1 = (s, c)
    · have hga : ((if a.1 == (old, symbol) then
          (a.1, if new ∈ a.2 then a.2 else a.2 ++ [new]) else a) :
          (Nat × Nat) × List Nat).1 = a.1 := by
        by_cases hos : (a.1 == (old, symbol)) = true
        · rw [if_pos hos]
        · rw [if_neg hos]
      rw [List.map_cons, deltaL_cons_pos (by rw [hga]; exact hk),
        deltaL_cons_pos hk]
      have hany : (a :: rest).any (fun e => e.1 == (s, c)) = true := by
        simp [List.any_cons, hk]
      rw [hany]
      by_cases hos : (a.1 == (old, symbol)) = true
      · have hsk : s = old ∧ c = symbol := by
          simp only [beq_iff_eq] at hos
          rw [hk] at hos
          exact ⟨congrArg Prod.fst hos, congrArg Prod.snd hos⟩
        rw [if_pos hos]
        show u ∈ (if new ∈ a.2 then a.2 else a.2 ++ [new]) ↔ _
        by_cases hnew : new ∈ a.2
        · rw [if_pos hnew]
          constructor
          · exact fun h => Or.inl h
          · rintro (h | ⟨h1, _⟩)
            · exact h
            · rw [h1]
              exact hnew
        · rw [if_neg hnew]
          constructor
          · intro h
            rcases List.mem_append.mp h with h | h
            · exact Or.inl h
            · rw [List.mem_singleton] at h
              exact Or.inr ⟨h, hsk.1, hsk.2, rfl⟩
          · rintro (h | ⟨h1, _⟩)
            · exact List.mem_append_left _ h
            · rw [h1]
              exact List.mem_append_right _ (List.mem_singleton_self _)
      · rw [if_neg hos]
        show u ∈ a.2 ↔ _
        constructor
        · exact fun h => Or.inl h
        · rintro (h | ⟨_, h2, h3, _⟩)
          · exact h
          · exfalso
            apply hos
            simp only [beq_iff_eq]
            rw [hk, h2, h3]
    · have hga : ((if a.1 == (old, symbol) then
          (a.1, if new ∈ a.2 then a.2 else a.2 ++ [new]) else a) :
          (Nat × Nat) × List Nat).1 = a.1 := by
        by_cases hos : (a.1 == (old, symbol)) = true
        · rw [if_pos hos]
        · rw [if_neg hos]
      rw [List.map_cons, deltaL_cons_neg (by rw [hga]; exact hk),
        deltaL_cons_neg hk]
      have hany : (a :: rest).any (fun e => e.1 == (s, c)) =
          rest.any (fun e => e.1 == (s, c)) := by
        simp [List.any_cons, hk]
      rw [hany]
      exact ih s c u

theorem mem_deltaL_append_single (old new symbol : Nat) :
    ∀ (tr : List ((Nat × Nat) × List Nat)) (s c u : Nat),
      u ∈ deltaL (tr ++ [((old, symbol), [new])]) s c ↔
        u ∈ deltaL tr s c ∨ (u = new ∧ s = old ∧ c = symbol ∧
          tr.any (fun e => e.1 == (s, c)) = false) := by
  intro tr
  induction tr with
  | nil =>
    intro s c u
    simp only [List.nil_append, List.any_nil]
    by_cases hk : s = old ∧ c = symbol
    · obtain ⟨h1, h2⟩ := hk
      subst h1
      subst h2
      rw [deltaL_cons_pos rfl]
      constructor
      · intro h
        rw [List.mem_singleton] at h
        exact Or.inr ⟨h, rfl, rfl, by trivial⟩
      · rintro (h | ⟨h1, _⟩)
        · simp [deltaL] at h
        · rw [h1]
          exact List.mem_singleton_self _
    · have hne : (((old, symbol), [new]) : (Nat × Nat) × List Nat).1 ≠
          (s, c) := by
        intro he
        apply hk
        exact ⟨(congrArg Prod.fst he).symm, (congrArg Prod.snd he).symm⟩
      rw [deltaL_cons_neg hne]
      constructor
      · intro h
        simp [deltaL] at h
      · rintro (h | ⟨_, h2, h3, _⟩)
        · simp [deltaL] at h
        · exact absurd ⟨h2, h3⟩ hk
  | cons a rest ih =>
    intro s c u
    by_cases hk : a.1 = (s, c)
    · rw [List.cons_append, deltaL_cons_pos hk, deltaL_cons_pos hk]
      have hany : (a :: rest).any (fun e => e.1 == (s, c)) = true := by
        simp [List.any_cons, hk]
      rw [hany]
      constructor
      · exact fun h => Or.inl h
      · rintro (h | ⟨_, _, _, hf⟩)
        · exact h
        · cases hf
    · rw [List.cons_append, deltaL_cons_neg hk, deltaL_cons_neg hk]
      have hany : (a :: rest).any (fun e => e.1 == (s, c)) =
          rest.any (fun e => e.1 == (s, c)) := by
        simp [List.any_cons, hk]
      rw [hany]
      exact ih s c u

theorem mem_deltaL_addTransition {tr : List ((Nat × Nat) × List Nat)}
    (old new symbol s c u : Nat) :
    u ∈ deltaL (addTransition tr old new symbol) s c ↔
      u ∈ deltaL tr s c ∨ (u = new ∧ s = old ∧ c = symbol) := by
  unfold addTransition
  by_cases hany : tr.any (fun e => e.1 == (old, symbol)) = true
  · rw [if_pos hany]
    rw [mem_deltaL_update]
    constructor
    · rintro (h | ⟨h1, h2, h3, _⟩)
      · exact Or.inl h
      · exact Or.inr ⟨h1, h2, h3⟩
    · rintro (h | ⟨h1, h2, h3⟩)
      · exact Or.inl h
      · subst h2
        subst h3
        exact Or.inr ⟨h1, rfl, rfl, hany⟩
  · rw [if_neg hany]
    rw [mem_deltaL_append_single]
    constructor
    · rintro (h | ⟨h1, h2, h3, _⟩)
      · exact Or.inl h
      · exact Or.inr ⟨h1, h2, h3⟩
    · rintro (h | ⟨h1, h2, h3⟩)
      · exact Or.inl h
      · subst h2
        subst h3
        refine Or.inr ⟨h1, rfl, rfl, ?_⟩
        cases hb : tr.any (fun e => e.1 == (s, c)) with
        | false => rfl
        | true => exact absurd hb hany

theorem addTransition_key_mem {tr : List ((Nat × Nat) × List Nat)}
    {old new symbol : Nat} :
    ∀ e ∈ addTransition tr old new symbol,
      e.1 ∈ List.map (fun x => x.1) tr ∨ e.1 = (old, symbol) := by
  unfold addTransition
  by_cases hany : tr.any (fun e => e.1 == (old, symbol)) = true
  · rw [if_pos hany]
    intro e he
    obtain ⟨e0, he0, heq⟩ := List.mem_map.mp he
    left
    by_cases hos : (e0.1 == (old, symbol)) = true
    · rw [if_pos hos] at heq
      rw [← heq]
      exact List.mem_map.mpr ⟨e0, he0, rfl⟩
    · rw [if_neg hos] at heq
      rw [← heq]
      exact List.mem_map.mpr ⟨e0, he0, rfl⟩
  · rw [if_neg hany]
    intro e he
    rcases List.mem_append.mp he with h | h
    · exact Or.inl (List.mem_map.mpr ⟨e, h, rfl⟩)
    · rw [List.mem_singleton] at h
      rw [h]
      exact Or.inr rfl

/- ---- outputs-dict lemmas for remove_epsilons ---- -/

theorem aPut_key_iff (m : List (Nat × Finset Nat)) (k : Nat) (v : Finset Nat)
    (i : Nat) :
    (∃ e ∈ aPut m k v, e.1 = i) ↔ (∃ e ∈ m, e.1 = i) ∨ i = k := by
  constructor
  · rintro ⟨e, he, hei⟩
    rcases aPut_mem e he with h | h
    · exact Or.inl ⟨e, h, hei⟩
    · right
      rw [h] at hei
      exact hei.symm
  · intro h
    unfold aPut
    by_cases hany : m.any (fun e => e.1 == k) = true
    · rw [if_pos hany]
      rcases h with ⟨e, he, hei⟩ | heq
      · refine ⟨if e.1 == k then (e.1, v) else e,
          List.mem_map.mpr ⟨e, he, rfl⟩, ?_⟩
        by_cases hek : (e.1 == k) = true
        · rw [if_pos hek]
          exact hei
        · rw [if_neg hek]
          exact hei
      · rw [List.any_eq_true] at hany
        obtain ⟨e, he, hek⟩ := hany
        refine ⟨(e.1, v), List.mem_map.mpr ⟨e, he, by rw [if_pos hek]⟩, ?_⟩
        simp only [beq_iff_eq] at hek
        show e.1 = i
        rw [hek, heq]
    · rw [if_neg hany]
      rcases h with ⟨e, he, hei⟩ | heq
      · exact ⟨e, List.mem_append_left _ he, hei⟩
      · exact ⟨(k, v), List.mem_append_right _ (List.mem_singleton_self _),
          heq.symm⟩

theorem aGet_ne_empty_iff {m : List (Nat × Finset Nat)}
    (hvals : ∀ e ∈ m, e.2 ≠ ∅) (k : Nat) :
    aGet m (k : Int) ≠ ∅ ↔ ∃ e ∈ m, e.1 = k := by
  unfold aGet
  cases hf : m.find? (fun e => (e.1 : Int) == (k : Int)) with
  | none =>
    constructor
    · intro h
      exact absurd rfl h
    · rintro ⟨e, he, hek⟩
      have h2 := List.find?_eq_none.mp hf e he
      simp only [beq_iff_eq] at h2
      exact absurd (by exact_mod_cast hek) h2
  | some e =>
    have he : e ∈ m := List.mem_of_find?_eq_some hf
    constructor
    · intro _
      have hek : (e.1 : Int) = (k : Int) := by
        simpa using List.find?_some hf
      exact ⟨e, he, by exact_mod_cast hek⟩
    · intro _
      exact hvals e he

/- ---- acceptance decomposition for the source NFA ---- -/

theorem accepts_of_epsReach {n : NFA} {s t : Nat} {w : List Nat}
    (hr : EpsReach n s t) (h : n.Accepts t w) : n.Accepts s w := by
  induction hr using Relation.ReflTransGen.head_induction_on with
  | refl => exact h
  | head hstep _ ihs => exact NFA.Accepts.eps hstep ihs

theorem accepts_decomp {n : NFA} {s : Nat} {w : List Nat} (h : n.Accepts s w) :
    (w = [] ∧ ∃ t, EpsReach n s t ∧ aGet n.outputs (t : Int) ≠ ∅) ∨
    (∃ c w' t u, w = c :: w' ∧ c ≠ EPSILON ∧ EpsReach n s t ∧
      u ∈ n.delta t c ∧ n.Accepts u w') := by
  induction h with
  | done hacc => exact Or.inl ⟨rfl, _, Relation.ReflTransGen.refl, hacc⟩
  | step hc ht hacc _ =>
    exact Or.inr ⟨_, _, _, _, rfl, hc, Relation.ReflTransGen.refl, ht, hacc⟩
  | eps ht _ ihs =>
    rcases ihs with ⟨hw, t2, hr, hacc⟩ | ⟨c, w', t2, u, hw, hc, hr, hu, hacc⟩
    · exact Or.inl ⟨hw, t2, Relation.ReflTransGen.head ht hr, hacc⟩
    · exact Or.inr ⟨c, w', t2, u, hw, hc,
        Relation.ReflTransGen.head ht hr, hu, hacc⟩

theorem byte_ne_epsilon {c : Nat} (h : c < NUM_CHARS) : c ≠ EPSILON := by
  unfold EPSILON
  unfold NUM_CHARS at h
  omega

theorem aPut_entry_key {m : List (Nat × Finset Nat)} {k : Nat}
    {v : Finset Nat} :
    ∀ e ∈ aPut m k v, e.1 ∈ List.map (fun x => x.1) m ∨ e.1 = k := by
  intro e he
  rcases aPut_mem e he with h | h
  · exact Or.inl (List.mem_map.mpr ⟨e, h, rfl⟩)
  · rw [h]
    exact Or.inr rfl

/-- One pass of the innermost `for next_state in states` loop of
remove_epsilons over the target list `us`: ids grow by entries for the
processed targets, all targets end up with ids and are appended to the
pushes, and row `newState` of the new transition table gains exactly the ids
of the targets at column `symbol`. -/
theorem reTargetFold (newState symbol : Nat) :
    ∀ (us : List Nat) (acc acc' : REAcc),
      IdsWF acc.ids acc.cnt →
      us.foldl (reTarget newState symbol) acc = acc' →
      (∃ ext, acc'.ids = acc.ids ++ ext ∧ ∀ e ∈ ext, e.1 ∈ us) ∧
      IdsWF acc'.ids acc'.cnt ∧
      (∀ s i, idLook acc.ids s = some i → idLook acc'.ids s = some i) ∧
      acc'.nouts = acc.nouts ∧
      acc'.pushes = acc.pushes ++ us ∧
      (∀ u ∈ us, ∃ i, idLook acc'.ids u = some i) ∧
      (∀ e ∈ acc'.ntr, e.1 ∈ List.map (fun x => x.1) acc.ntr ∨
        e.1 = (newState, symbol)) ∧
      (∀ i c u', u' ∈ deltaL acc'.ntr i c ↔ u' ∈ deltaL acc.ntr i c ∨
        (i = newState ∧ c = symbol ∧ ∃ u ∈ us,
          idLook acc'.ids u = some u')) := by
  intro us
  induction us with
  | nil =>
    intro acc acc' hwf hfold
    simp only [List.foldl_nil] at hfold
    subst hfold
    refine ⟨⟨[], by simp, by simp⟩, hwf, fun s i h => h, rfl, by simp,
      by simp, ?_, ?_⟩
    · intro e he
      exact Or.inl (List.mem_map.mpr ⟨e, he, rfl⟩)
    · intro i c u'
      constructor
      · exact fun h => Or.inl h
      · rintro (h | ⟨_, _, u, hu, _⟩)
        · exact h
        · exact absurd hu (List.not_mem_nil u)
  | cons u us' ih =>
    intro acc acc' hwf hfold
    simp only [List.foldl_cons] at hfold
    cases hid : idLook acc.ids u with
    | some j =>
      have hstep : reTarget newState symbol acc u =
          ⟨acc.cnt, acc.ids, addTransition acc.ntr newState j symbol,
            acc.nouts, acc.pushes ++ [u]⟩ := by
        unfold reTarget
        rw [getNewState_found hid]
      rw [hstep] at hfold
      obtain ⟨⟨ext, hids, hextk⟩, hwf', hstab, hnouts, hpush, husid, hkeys,
        hmem⟩ := ih ⟨acc.cnt, acc.ids,
          addTransition acc.ntr newState j symbol,
          acc.nouts, acc.pushes ++ [u]⟩ acc' hwf hfold
      have hju : idLook acc'.ids u = some j := hstab u j hid
      refine ⟨⟨ext, hids, fun e he => List.mem_cons_of_mem _ (hextk e he)⟩,
        hwf', hstab, hnouts, ?_, ?_, ?_, ?_⟩
      · rw [hpush]
        show (acc.pushes ++ [u]) ++ us' = acc.pushes ++ u :: us'
        simp
      · intro v hv
        rcases List.mem_cons.mp hv with he | hm
        · subst he
          exact ⟨j, hju⟩
        · exact husid v hm
      · intro e he
        rcases hkeys e he with h | h
        · obtain ⟨e1, he1, hk1⟩ := List.mem_map.mp h
          rcases addTransition_key_mem e1 he1 with h2 | h2
          · rw [← hk1]
            exact Or.inl h2
          · rw [← hk1, h2]
            exact Or.inr rfl
        · exact Or.inr h
      · intro i c u'
        constructor
        · intro h
          rcases (hmem i c u').mp h with h2 | ⟨hi, hc, u0, hu0, hl⟩
          · rcases (mem_deltaL_addTransition newState j symbol i c u').mp h2
              with h3 | ⟨hj, hi, hc⟩
            · exact Or.inl h3
            · refine Or.inr ⟨hi, hc, u, List.mem_cons_self _ _, ?_⟩
              rw [hj]
              exact hju
          · exact Or.inr ⟨hi, hc, u0, List.mem_cons_of_mem _ hu0, hl⟩
        · rintro (h | ⟨hi, hc, u0, hu0, hl⟩)
          · exact (hmem i c u').mpr (Or.inl
              ((mem_deltaL_addTransition newState j symbol i c u').mpr
                (Or.inl h)))
          · rcases List.mem_cons.mp hu0 with he | hm
            · subst he
              have hj : u' = j := Option.some_injective _ (hl.symm.trans hju)
              exact (hmem i c u').mpr (Or.inl
                ((mem_deltaL_addTransition newState j symbol i c u').mpr
                  (Or.inr ⟨hj, hi, hc⟩)))
            · exact (hmem i c u').mpr (Or.inr ⟨hi, hc, u0, hm, hl⟩)
    | none =>
      have hstep : reTarget newState symbol acc u =
          ⟨acc.cnt + 1, acc.ids ++ [(u, acc.cnt)],
            addTransition acc.ntr newState acc.cnt symbol,
            acc.nouts, acc.pushes ++ [u]⟩ := by
        unfold reTarget
        rw [getNewState_new hid]
      rw [hstep] at hfold
      have hwf1 : IdsWF (acc.ids ++ [(u, acc.cnt)]) (acc.cnt + 1) :=
        idsWF_append hwf hid
      obtain ⟨⟨ext, hids, hextk⟩, hwf', hstab, hnouts, hpush, husid, hkeys,
        hmem⟩ := ih ⟨acc.cnt + 1, acc.ids ++ [(u, acc.cnt)],
          addTransition acc.ntr newState acc.cnt symbol,
          acc.nouts, acc.pushes ++ [u]⟩ acc' hwf1 hfold
      have hstab0 : ∀ s i, idLook acc.ids s = some i →
          idLook (acc.ids ++ [(u, acc.cnt)]) s = some i :=
        fun s i h => idLook_append_left h _
      have hju : idLook acc'.ids u = some acc.cnt :=
        hstab u acc.cnt (idLook_append_self hid)
      refine ⟨⟨(u, acc.cnt) :: ext, ?_, ?_⟩, hwf',
        fun s i h => hstab s i (hstab0 s i h), hnouts, ?_, ?_, ?_, ?_⟩
      · rw [hids, List.append_assoc]
        rfl
      · intro e he
        rcases List.mem_cons.mp he with h | h
        · rw [h]
          exact List.mem_cons_self _ _
        · exact List.mem_cons_of_mem _ (hextk e h)
      · rw [hpush]
        show (acc.pushes ++ [u]) ++ us' = acc.pushes ++ u :: us'
        simp
      · intro v hv
        rcases List.mem_cons.mp hv with he | hm
        · subst he
          exact ⟨acc.cnt, hju⟩
        · exact husid v hm
      · intro e he
        rcases hkeys e he with h | h
        · obtain ⟨e1, he1, hk1⟩ := List.mem_map.mp h
          rcases addTransition_key_mem e1 he1 with h2 | h2
          · rw [← hk1]
            exact Or.inl h2
          · rw [← hk1, h2]
            exact Or.inr rfl
        · exact Or.inr h
      · intro i c u'
        constructor
        · intro h
          rcases (hmem i c u').mp h with h2 | ⟨hi, hc, u0, hu0, hl⟩
          · rcases (mem_deltaL_addTransition newState acc.cnt symbol i c
              u').mp h2 with h3 | ⟨hj, hi, hc⟩
            · exact Or.inl h3
            · refine Or.inr ⟨hi, hc, u, List.mem_cons_self _ _, ?_⟩
              rw [hj]
              exact hju
          · exact Or.inr ⟨hi, hc, u0, List.mem_cons_of_mem _ hu0, hl⟩
        · rintro (h | ⟨hi, hc, u0, hu0, hl⟩)
          · exact (hmem i c u').mpr (Or.inl
              ((mem_deltaL_addTransition newState acc.cnt symbol i c u').mpr
                (Or.inl h)))
          · rcases List.mem_cons.mp hu0 with he | hm
            · subst he
              have hj : u' = acc.cnt :=
                Option.some_injective _ (hl.symm.trans hju)
              exact (hmem i c u').mpr (Or.inl
                ((mem_deltaL_addTransition newState acc.cnt symbol i c
                  u').mpr (Or.inr ⟨hj, hi, hc⟩)))
            · exact (hmem i c u').mpr (Or.inr ⟨hi, hc, u0, hm, hl⟩)

/-- One pass of the `for (s, symbol), states in self.transitions.items()`
loop of remove_epsilons for closure member `t`: only entries with source `t`
and a non-ε symbol contribute, each contributing its target set to row
`newState` and to the pushes. -/
theorem reItemFold (n : NFA)
    (htrnd : (List.map (fun e => e.1) n.transitions).Nodup)
    (newState t : Nat) :
    ∀ (es : List ((Nat × Nat) × List Nat)) (acc acc' : REAcc),
      (∀ e ∈ es, e ∈ n.transitions) →
      IdsWF acc.ids acc.cnt →
      es.foldl (reItem newState t) acc = acc' →
      (∃ ext, acc'.ids = acc.ids ++ ext ∧ ∀ e ∈ ext, e.1 ∈ acc'.pushes) ∧
      IdsWF acc'.ids acc'.cnt ∧
      (∀ s i, idLook acc.ids s = some i → idLook acc'.ids s = some i) ∧
      acc'.nouts = acc.nouts ∧
      (∀ u ∈ acc.pushes, u ∈ acc'.pushes) ∧
      (∀ u ∈ acc'.pushes, u ∈ acc.pushes ∨
        ∃ c, c ≠ EPSILON ∧ u ∈ n.delta t c) ∧
      ((∀ v ∈ acc.pushes, ∃ i, idLook acc.ids v = some i) →
        ∀ u ∈ acc'.pushes, ∃ i, idLook acc'.ids u = some i) ∧
      (∀ e ∈ acc'.ntr, e.1 ∈ List.map (fun x => x.1) acc.ntr ∨
        ∃ c, c ≠ EPSILON ∧ e.1 = (newState, c)) ∧
      (∀ i c u', u' ∈ deltaL acc'.ntr i c →
        u' ∈ deltaL acc.ntr i c ∨ (i = newState ∧ c ≠ EPSILON ∧
          ∃ u, u ∈ n.delta t c ∧ idLook acc'.ids u = some u')) ∧
      (∀ i c u', u' ∈ deltaL acc.ntr i c → u' ∈ deltaL acc'.ntr i c) ∧
      (∀ c u, c ≠ EPSILON → u ∈ n.delta t c → (∃ e ∈ es, e.1 = (t, c)) →
        ∃ u', idLook acc'.ids u = some u' ∧
          u' ∈ deltaL acc'.ntr newState c) := by
  intro es
  induction es with
  | nil =>
    intro acc acc' _ hwf hfold
    simp only [List.foldl_nil] at hfold
    subst hfold
    refine ⟨⟨[], by simp, by simp⟩, hwf, fun s i h => h, rfl,
      fun u hu => hu, fun u hu => Or.inl hu, fun h u hu => h u hu, ?_,
      fun i c u' h => Or.inl h, fun i c u' h => h, ?_⟩
    · intro e he
      exact Or.inl (List.mem_map.mpr ⟨e, he, rfl⟩)
    · intro c u _ _ h
      obtain ⟨e, he, _⟩ := h
      exact absurd he (List.not_mem_nil e)
  | cons e0 es' ih =>
    intro acc acc' hsub hwf hfold
    simp only [List.foldl_cons] at hfold
    have hsub' : ∀ e ∈ es', e ∈ n.transitions :=
      fun e he => hsub e (List.mem_cons_of_mem _ he)
    by_cases hg : e0.1.1 = t ∧ e0.1.2 ≠ EPSILON
    · have hstep : reItem newState t acc e0 =
          e0.2.foldl (reTarget newState e0.1.2) acc := by
        unfold reItem
        rw [if_pos hg]
      obtain ⟨acc1, hacc1⟩ :
          ∃ a, e0.2.foldl (reTarget newState e0.1.2) acc = a := ⟨_, rfl⟩
      rw [hstep, hacc1] at hfold
      obtain ⟨⟨ext1, hids1, hextk1⟩, hwf1, hstab1, hnouts1, hpush1, husid1,
        hkeys1, hmem1⟩ := reTargetFold newState e0.1.2 e0.2 acc acc1 hwf hacc1
      obtain ⟨⟨ext2, hids2, hextk2⟩, hwf2, hstab2, hnouts2, hpmono2, hpsound2,
        hpids2, hkeys2, hsound2, hpres2, hcomp2⟩ :=
        ih acc1 acc' hsub' hwf1 hfold
      have he0tr : e0 ∈ n.transitions := hsub e0 (List.mem_cons_self _ _)
      have hdelta0 : n.delta t e0.1.2 = e0.2 := by
        have h := delta_of_mem htrnd e0 he0tr
        rw [hg.1] at h
        exact h
      have hpm1 : ∀ u ∈ acc.pushes, u ∈ acc1.pushes := by
        intro u hu
        rw [hpush1]
        exact List.mem_append_left _ hu
      refine ⟨⟨ext1 ++ ext2, ?_, ?_⟩, hwf2,
        fun s i h => hstab2 s i (hstab1 s i h), ?_, ?_, ?_, ?_, ?_, ?_, ?_, ?_⟩
      · rw [hids2, hids1, List.append_assoc]
      · intro e he
        rcases List.mem_append.mp he with h | h
        · apply hpmono2
          rw [hpush1]
          exact List.mem_append_right _ (hextk1 e h)
        · exact hextk2 e h
      · rw [hnouts2, hnouts1]
      · exact fun u hu => hpmono2 u (hpm1 u hu)
      · intro u hu
        rcases hpsound2 u hu with h | ⟨c, hc, hd⟩
        · rw [hpush1] at h
          rcases List.mem_append.mp h with h2 | h2
          · exact Or.inl h2
          · refine Or.inr ⟨e0.1.2, hg.2, ?_⟩
            rw [hdelta0]
            exact h2
        · exact Or.inr ⟨c, hc, hd⟩
      · intro hbase
        apply hpids2
        intro v hv
        rw [hpush1] at hv
        rcases List.mem_append.mp hv with h | h
        · obtain ⟨i, hi⟩ := hbase v h
          exact ⟨i, hstab1 v i hi⟩
        · exact husid1 v h
      · intro e he
        rcases hkeys2 e he with h | h
        · obtain ⟨e1, he1, hk1⟩ := List.mem_map.mp h
          rcases hkeys1 e1 he1 with h2 | h2
          · rw [← hk1]
            exact Or.inl h2
          · rw [← hk1, h2]
            exact Or.inr ⟨e0.1.2, hg.2, rfl⟩
        · exact Or.inr h
      · intro i c u' h
        rcases hsound2 i c u' h with h2 | ⟨hi, hc, u, hu, hl⟩
        · rcases (hmem1 i c u').mp h2 with h3 | ⟨hi, hc, u, hu, hl⟩
          · exact Or.inl h3
          · refine Or.inr ⟨hi, hc ▸ hg.2, u, ?_, hstab2 u u' hl⟩
            rw [hc, hdelta0]
            exact hu
        · exact Or.inr ⟨hi, hc, u, hu, hl⟩
      · intro i c u' h
        exact hpres2 i c u' ((hmem1 i c u').mpr (Or.inl h))
      · intro c u hc hu hentry
        obtain ⟨e1, he1, hk1⟩ := hentry
        rcases List.mem_cons.mp he1 with he | hm
        · subst he
          have hc2 : e1.1.2 = c := congrArg Prod.snd hk1
          have hu2 : u ∈ e1.2 := by
            rw [← hdelta0, hc2]
            exact hu
          obtain ⟨j, hj⟩ := husid1 u hu2
          have hrow : j ∈ deltaL acc1.ntr newState e1.1.2 :=
            (hmem1 newState e1.1.2 j).mpr (Or.inr ⟨rfl, rfl, u, hu2, hj⟩)
          refine ⟨j, hstab2 u j hj, ?_⟩
          rw [← hc2]
          exact hpres2 newState e1.1.2 j hrow
        · exact hcomp2 c u hc hu ⟨e1, hm, hk1⟩
    · have hstep : reItem newState t acc e0 = acc := by
        unfold reItem
        rw [if_neg hg]
      rw [hstep] at hfold
      obtain ⟨hext, hwf2, hstab2, hnouts2, hpmono2, hpsound2, hpids2, hkeys2,
        hsound2, hpres2, hcomp2⟩ := ih acc acc' hsub' hwf hfold
      refine ⟨hext, hwf2, hstab2, hnouts2, hpmono2, hpsound2, hpids2, hkeys2,
        hsound2, hpres2, ?_⟩
      intro c u hc hu hentry
      obtain ⟨e1, he1, hk1⟩ := hentry
      rcases List.mem_cons.mp he1 with he | hm
      · subst he
        exfalso
        apply hg
        exact ⟨congrArg Prod.fst hk1, by rw [congrArg Prod.snd hk1]; exact hc⟩
      · exact hcomp2 c u hc hu ⟨e1, hm, hk1⟩

/-- One pass of the `for intermediate_state in self.epsilon_closure(state)`
loop of remove_epsilons over the closure list `ts`: the outputs entry of
`newState` is (over)written whenever a closure member is an outputs key, and
row `newState` gains the successor ids of all non-ε transitions out of
closure members, whose targets are pushed. -/
theorem reClosureFold (n : NFA)
    (htrnd : (List.map (fun e => e.1) n.transitions).Nodup)
    (hwfouts : ∀ e ∈ n.outputs, e.2 ≠ ∅) (newState : Nat) :
    ∀ (ts : List Nat) (acc acc' : REAcc),
      IdsWF acc.ids acc.cnt →
      ts.foldl (reClosureStep n newState) acc = acc' →
      (∃ ext, acc'.ids = acc.ids ++ ext ∧ ∀ e ∈ ext, e.1 ∈ acc'.pushes) ∧
      IdsWF acc'.ids acc'.cnt ∧
      (∀ s i, idLook acc.ids s = some i → idLook acc'.ids s = some i) ∧
      ((∀ e ∈ acc.nouts, e.2 ≠ ∅) → ∀ e ∈ acc'.nouts, e.2 ≠ ∅) ∧
      (∀ e ∈ acc'.nouts, e.1 ∈ List.map (fun x => x.1) acc.nouts ∨
        e.1 = newState) ∧
      (∀ i, (∃ e ∈ acc'.nouts, e.1 = i) ↔ (∃ e ∈ acc.nouts, e.1 = i) ∨
        (i = newState ∧ ∃ t ∈ ts, ∃ e ∈ n.outputs, e.1 = t)) ∧
      (∀ u ∈ acc.pushes, u ∈ acc'.pushes) ∧
      (∀ u ∈ acc'.pushes, u ∈ acc.pushes ∨
        ∃ t ∈ ts, ∃ c, c ≠ EPSILON ∧ u ∈ n.delta t c) ∧
      ((∀ v ∈ acc.pushes, ∃ i, idLook acc.ids v = some i) →
        ∀ u ∈ acc'.pushes, ∃ i, idLook acc'.ids u = some i) ∧
      (∀ e ∈ acc'.ntr, e.1 ∈ List.map (fun x => x.1) acc.ntr ∨
        ∃ c, c ≠ EPSILON ∧ e.1 = (newState, c)) ∧
      (∀ i c u', u' ∈ deltaL acc'.ntr i c →
        u' ∈ deltaL acc.ntr i c ∨ (i = newState ∧ c ≠ EPSILON ∧
          ∃ t ∈ ts, ∃ u, u ∈ n.delta t c ∧ idLook acc'.ids u = some u')) ∧
      (∀ i c u', u' ∈ deltaL acc.ntr i c → u' ∈ deltaL acc'.ntr i c) ∧
      (∀ t ∈ ts, ∀ c u, c ≠ EPSILON → u ∈ n.delta t c →
        ∃ u', idLook acc'.ids u = some u' ∧
          u' ∈ deltaL acc'.ntr newState c) := by
  intro ts
  induction ts with
  | nil =>
    intro acc acc' _ hfold
    simp only [List.foldl_nil] at hfold
    subst hfold
    refine ⟨⟨[], by simp, by simp⟩, ‹IdsWF acc.ids acc.cnt›, fun s i h => h,
      fun h => h, ?_, ?_, fun u hu => hu, fun u hu => Or.inl hu,
      fun h u hu => h u hu, ?_, fun i c u' h => Or.inl h,
      fun i c u' h => h, ?_⟩
    · intro e he
      exact Or.inl (List.mem_map.mpr ⟨e, he, rfl⟩)
    · intro i
      constructor
      · exact fun h => Or.inl h
      · rintro (h | ⟨_, t, ht, _⟩)
        · exact h
        · exact absurd ht (List.not_mem_nil t)
    · intro e he
      exact Or.inl (List.mem_map.mpr ⟨e, he, rfl⟩)
    · intro t ht
      exact absurd ht (List.not_mem_nil t)
  | cons t ts' ih =>
    intro acc acc' hwf hfold
    simp only [List.foldl_cons] at hfold
    by_cases hkey : n.outputs.any (fun e => e.1 == t) = true
    · have hstep : reClosureStep n newState acc t =
          List.foldl (reItem newState t)
            ⟨acc.cnt, acc.ids, acc.ntr,
              aPut acc.nouts newState (aGet n.outputs (t : Int)),
              acc.pushes⟩ n.transitions := by
        simp only [reClosureStep]
        rw [if_pos hkey]
      obtain ⟨acc2, hacc2⟩ :
          ∃ a, List.foldl (reItem newState t)
            ⟨acc.cnt, acc.ids, acc.ntr,
              aPut acc.nouts newState (aGet n.outputs (t : Int)),
              acc.pushes⟩ n.transitions = a := ⟨_, rfl⟩
      rw [hstep, hacc2] at hfold
      obtain ⟨⟨ext1, hids1, hextk1⟩, hwf1, hstab1, hnouts1, hpmono1, hpsound1,
        hpids1, hkeys1, hsound1, hpres1, hcomp1⟩ :=
        reItemFold n htrnd newState t n.transitions
          ⟨acc.cnt, acc.ids, acc.ntr,
            aPut acc.nouts newState (aGet n.outputs (t : Int)),
            acc.pushes⟩ acc2
          (fun e he => he) hwf hacc2
      obtain ⟨⟨ext2, hids2, hextk2⟩, hwf2, hstab2, hvals2, hokeys2, hoiff2,
        hpmono2, hpsound2, hpids2, hkeys2, hsound2, hpres2, hcomp2⟩ :=
        ih acc2 acc' hwf1 hfold
      have htkey : ∃ e ∈ n.outputs, e.1 = t := by
        rw [List.any_eq_true] at hkey
        obtain ⟨e, he, hb⟩ := hkey
        exact ⟨e, he, by simpa using hb⟩
      have hvne : aGet n.outputs (t : Int) ≠ ∅ :=
        (aGet_ne_empty_iff hwfouts t).mpr htkey
      refine ⟨⟨ext1 ++ ext2, ?_, ?_⟩, hwf2,
        fun s i h => hstab2 s i (hstab1 s i h), ?_, ?_, ?_,
        fun u hu => hpmono2 u (hpmono1 u hu), ?_, ?_, ?_, ?_, ?_, ?_⟩
      · rw [hids2, hids1, List.append_assoc]
      · intro e he
        rcases List.mem_append.mp he with h | h
        · exact hpmono2 e.1 (hextk1 e h)
        · exact hextk2 e h
      · intro hbase
        apply hvals2
        rw [hnouts1]
        intro e he
        rcases aPut_mem e he with h | h
        · exact hbase e h
        · rw [h]
          exact hvne
      · intro e he
        rcases hokeys2 e he with h | h
        · rw [hnouts1] at h
          obtain ⟨e1, he1, hk1⟩ := List.mem_map.mp h
          rcases aPut_entry_key e1 he1 with h2 | h2
          · rw [← hk1]
            exact Or.inl h2
          · rw [← hk1, h2]
            exact Or.inr rfl
        · exact Or.inr h
      · intro i
        have hmid : (∃ e ∈ acc2.nouts, e.1 = i) ↔
            (∃ e ∈ acc.nouts, e.1 = i) ∨ i = newState := by
          rw [hnouts1]
          exact aPut_key_iff acc.nouts newState (aGet n.outputs (t : Int)) i
        constructor
        · intro h
          rcases (hoiff2 i).mp h with h2 | ⟨hi, t0, ht0, hk0⟩
          · rcases hmid.mp h2 with h3 | h3
            · exact Or.inl h3
            · exact Or.inr ⟨h3, t, List.mem_cons_self _ _, htkey⟩
          · exact Or.inr ⟨hi, t0, List.mem_cons_of_mem _ ht0, hk0⟩
        · rintro (h | ⟨hi, t0, ht0, hk0⟩)
          · exact (hoiff2 i).mpr (Or.inl (hmid.mpr (Or.inl h)))
          · rcases List.mem_cons.mp ht0 with he | hm
            · exact (hoiff2 i).mpr (Or.inl (hmid.mpr (Or.inr hi)))
            · exact (hoiff2 i).mpr (Or.inr ⟨hi, t0, hm, hk0⟩)
      · intro u hu
        rcases hpsound2 u hu with h | ⟨t0, ht0, c, hc, hd⟩
        · rcases hpsound1 u h with h2 | ⟨c, hc, hd⟩
          · exact Or.inl h2
          · exact Or.inr ⟨t, List.mem_cons_self _ _, c, hc, hd⟩
        · exact Or.inr ⟨t0, List.mem_cons_of_mem _ ht0, c, hc, hd⟩
      · intro hbase
        exact hpids2 (hpids1 hbase)
      · intro e he
        rcases hkeys2 e he with h | h
        · obtain ⟨e1, he1, hk1⟩ := List.mem_map.mp h
          rcases hkeys1 e1 he1 with h2 | ⟨c, hc, h2⟩
          · rw [← hk1]
            exact Or.inl h2
          · rw [← hk1, h2]
            exact Or.inr ⟨c, hc, rfl⟩
        · exact Or.inr h
      · intro i c u' h
        rcases hsound2 i c u' h with h2 | ⟨hi, hc, t0, ht0, u, hu, hl⟩
        · rcases hsound1 i c u' h2 with h3 | ⟨hi, hc, u, hu, hl⟩
          · exact Or.inl h3
          · exact Or.inr ⟨hi, hc, t, List.mem_cons_self _ _, u, hu,
              hstab2 u u' hl⟩
        · exact Or.inr ⟨hi, hc, t0, List.mem_cons_of_mem _ ht0, u, hu, hl⟩
      · intro i c u' h
        exact hpres2 i c u' (hpres1 i c u' h)
      · intro t0 ht0 c u hc hu
        rcases List.mem_cons.mp ht0 with he | hm
        · subst he
          obtain ⟨u', hl, hrow⟩ := hcomp1 c u hc hu (delta_entry_mem hu)
          exact ⟨u', hstab2 u u' hl, hpres2 newState c u' hrow⟩
        · exact hcomp2 t0 hm c u hc hu
    · have hstep : reClosureStep n newState acc t =
          List.foldl (reItem newState t) acc n.transitions := by
        simp only [reClosureStep]
        rw [if_neg hkey]
      obtain ⟨acc2, hacc2⟩ :
          ∃ a, List.foldl (reItem newState t) acc n.transitions = a := ⟨_, rfl⟩
      rw [hstep, hacc2] at hfold
      obtain ⟨⟨ext1, hids1, hextk1⟩, hwf1, hstab1, hnouts1, hpmono1, hpsound1,
        hpids1, hkeys1, hsound1, hpres1, hcomp1⟩ :=
        reItemFold n htrnd newState t n.transitions _ acc2
          (fun e he => he) hwf hacc2
      obtain ⟨⟨ext2, hids2, hextk2⟩, hwf2, hstab2, hvals2, hokeys2, hoiff2,
        hpmono2, hpsound2, hpids2, hkeys2, hsound2, hpres2, hcomp2⟩ :=
        ih acc2 acc' hwf1 hfold
      have hnokey : ¬ ∃ e ∈ n.outputs, e.1 = t := by
        intro ⟨e, he, hek⟩
        apply hkey
        rw [List.any_eq_true]
        exact ⟨e, he, by simpa using hek⟩
      refine ⟨⟨ext1 ++ ext2, ?_, ?_⟩, hwf2,
        fun s i h => hstab2 s i (hstab1 s i h), ?_, ?_, ?_,
        fun u hu => hpmono2 u (hpmono1 u hu), ?_, ?_, ?_, ?_, ?_, ?_⟩
      · rw [hids2, hids1, List.append_assoc]
      · intro e he
        rcases List.mem_append.mp he with h | h
        · exact hpmono2 e.1 (hextk1 e h)
        · exact hextk2 e h
      · intro hbase
        apply hvals2
        rw [hnouts1]
        exact hbase
      · intro e he
        rcases hokeys2 e he with h | h
        · rw [hnouts1] at h
          exact Or.inl h
        · exact Or.inr h
      · intro i
        have hmid : (∃ e ∈ acc2.nouts, e.1 = i) ↔
            (∃ e ∈ acc.nouts, e.1 = i) := by
          rw [hnouts1]
        constructor
        · intro h
          rcases (hoiff2 i).mp h with h2 | ⟨hi, t0, ht0, hk0⟩
          · exact Or.inl (hmid.mp h2)
          · exact Or.inr ⟨hi, t0, List.mem_cons_of_mem _ ht0, hk0⟩
        · rintro (h | ⟨hi, t0, ht0, hk0⟩)
          · exact (hoiff2 i).mpr (Or.inl (hmid.mpr h))
          · rcases List.mem_cons.mp ht0 with he | hm
            · subst he
              exact absurd hk0 hnokey
            · exact (hoiff2 i).mpr (Or.inr ⟨hi, t0, hm, hk0⟩)
      · intro u hu
        rcases hpsound2 u hu with h | ⟨t0, ht0, c, hc, hd⟩
        · rcases hpsound1 u h with h2 | ⟨c, hc, hd⟩
          · exact Or.inl h2
          · exact Or.inr ⟨t, List.mem_cons_self _ _, c, hc, hd⟩
        · exact Or.inr ⟨t0, List.mem_cons_of_mem _ ht0, c, hc, hd⟩
      · intro hbase
        exact hpids2 (hpids1 hbase)
      · intro e he
        rcases hkeys2 e he with h | h
        · obtain ⟨e1, he1, hk1⟩ := List.mem_map.mp h
          rcases hkeys1 e1 he1 with h2 | ⟨c, hc, h2⟩
          · rw [← hk1]
            exact Or.inl h2
          · rw [← hk1, h2]
            exact Or.inr ⟨c, hc, rfl⟩
        · exact Or.inr h
      · intro i c u' h
        rcases hsound2 i c u' h with h2 | ⟨hi, hc, t0, ht0, u, hu, hl⟩
        · rcases hsound1 i c u' h2 with h3 | ⟨hi, hc, u, hu, hl⟩
          · exact Or.inl h3
          · exact Or.inr ⟨hi, hc, t, List.mem_cons_self _ _, u, hu,
              hstab2 u u' hl⟩
        · exact Or.inr ⟨hi, hc, t0, List.mem_cons_of_mem _ ht0, u, hu, hl⟩
      · intro i c u' h
        exact hpres2 i c u' (hpres1 i c u' h)
      · intro t0 ht0 c u hc hu
        rcases List.mem_cons.mp ht0 with he | hm
        · subst he
          obtain ⟨u', hl, hrow⟩ := hcomp1 c u hc hu (delta_entry_mem hu)
          exact ⟨u', hstab2 u u' hl, hpres2 newState c u' hrow⟩
        · exact hcomp2 t0 hm c u hc hu

/-- Worklist invariant of remove_epsilons: allocation is well-formed, every
explored or frontier state has an id and every id is explored or pending,
the new table is ε-free with valid sources, and explored states' rows and
outputs entry exactly reflect non-ε successors and tags of their ε-closure
while unexplored states' rows are still empty. -/
structure REInv (n : NFA) (st : REState) : Prop where
  idswf : IdsWF st.ids st.cnt
  explored_ids : ∀ s ∈ st.explored, ∃ i, idLook st.ids s = some i
  frontier_ids : ∀ s ∈ st.frontier, ∃ i, idLook st.ids s = some i
  ids_covered : ∀ e ∈ st.ids, e.1 ∈ st.explored ∨ e.1 ∈ st.frontier
  noeps_keys : ∀ e ∈ st.ntr, e.1.2 ≠ EPSILON
  keys_lt : ∀ e ∈ st.ntr, e.1.1 < st.cnt
  nouts_vals : ∀ e ∈ st.nouts, e.2 ≠ ∅
  nouts_lt : ∀ e ∈ st.nouts, e.1 < st.cnt
  processed : ∀ s i, idLook st.ids s = some i → s ∈ st.explored →
    (∀ c u', u' ∈ deltaL st.ntr i c →
      ∃ t u, EpsReach n s t ∧ u ∈ n.delta t c ∧ idLook st.ids u = some u') ∧
    (∀ c t u, c ≠ EPSILON → EpsReach n s t → u ∈ n.delta t c →
      ∃ u', idLook st.ids u = some u' ∧ u' ∈ deltaL st.ntr i c) ∧
    ((∃ e ∈ st.nouts, e.1 = i) ↔
      ∃ t, EpsReach n s t ∧ ∃ e ∈ n.outputs, e.1 = t)
  unprocessed : ∀ s i, idLook st.ids s = some i → s ∉ st.explored →
    (∀ c u', u' ∉ deltaL st.ntr i c) ∧ ¬ ∃ e ∈ st.nouts, e.1 = i

theorem removeEpsLoop_some (n : NFA)
    (htrnd : (List.map (fun e => e.1) n.transitions).Nodup)
    (hwfouts : ∀ e ∈ n.outputs, e.2 ≠ ∅) (cfuel : Nat) :
    ∀ (fuel : Nat) (st st' : REState),
      REInv n st →
      removeEpsLoop n cfuel fuel st = some st' →
      REInv n st' ∧ st'.frontier = [] ∧
      (∀ s i, idLook st.ids s = some i → idLook st'.ids s = some i) := by
  intro fuel
  induction fuel with
  | zero =>
    intro st st' _ hloop
    cases hloop
  | succ fuel ih =>
    intro st st' hinv hloop
    obtain ⟨cnt, ids, explored, frontier, ntr, nouts⟩ := st
    cases frontier with
    | nil =>
      simp only [removeEpsLoop] at hloop
      cases hloop
      exact ⟨hinv, rfl, fun s i h => h⟩
    | cons s rest =>
      simp only [removeEpsLoop] at hloop
      by_cases hex : s ∈ explored
      · rw [if_pos hex] at hloop
        have hinv2 : REInv n ⟨cnt, ids, explored, rest, ntr, nouts⟩ := by
          refine ⟨hinv.idswf, hinv.explored_ids, ?_, ?_, hinv.noeps_keys,
            hinv.keys_lt, hinv.nouts_vals, hinv.nouts_lt, hinv.processed,
            hinv.unprocessed⟩
          · intro s2 hs2
            exact hinv.frontier_ids s2 (List.mem_cons_of_mem _ hs2)
          · intro e he
            rcases hinv.ids_covered e he with h | h
            · exact Or.inl h
            · rcases List.mem_cons.mp h with he2 | hm
              · rw [he2]
                exact Or.inl hex
              · exact Or.inr hm
        obtain ⟨hinv', hfr', hstab'⟩ :=
          ih ⟨cnt, ids, explored, rest, ntr, nouts⟩ st' hinv2 hloop
        exact ⟨hinv', hfr', hstab'⟩
      · rw [if_neg hex] at hloop
        obtain ⟨i, hid⟩ := hinv.frontier_ids s (List.mem_cons_self _ _)
        rw [getNewState_found hid] at hloop
        cases hcl : n.epsilon_closure s cfuel with
        | none =>
          rw [hcl] at hloop
          cases hloop
        | some L =>
          rw [hcl] at hloop
          have hclspec := epsClosure_spec hcl
          have hloop2 : removeEpsLoop n cfuel fuel
              ⟨(List.foldl (reClosureStep n i) ⟨cnt, ids, ntr, nouts, []⟩
                  L).cnt,
                (List.foldl (reClosureStep n i) ⟨cnt, ids, ntr, nouts, []⟩
                  L).ids,
                s :: explored,
                (List.foldl (reClosureStep n i) ⟨cnt, ids, ntr, nouts, []⟩
                  L).pushes.reverse ++ rest,
                (List.foldl (reClosureStep n i) ⟨cnt, ids, ntr, nouts, []⟩
                  L).ntr,
                (List.foldl (reClosureStep n i) ⟨cnt, ids, ntr, nouts, []⟩
                  L).nouts⟩ = some st' := hloop
          obtain ⟨acc, hacc⟩ :
              ∃ a, List.foldl (reClosureStep n i) ⟨cnt, ids, ntr, nouts, []⟩
                L = a := ⟨_, rfl⟩
          rw [hacc] at hloop2
          obtain ⟨⟨ext, hids, hextk⟩, haccwf, hstab, hvalsc, hokeys, hoiff,
            hpmono, hpsound, hpids, hkeys, hsound, hpres, hcomp⟩ :=
            reClosureFold n htrnd hwfouts i L ⟨cnt, ids, ntr, nouts, []⟩ acc
              hinv.idswf hacc
          have hicnt : i < cnt := idsWF_val_lt hinv.idswf (s, i) (idLook_mem hid)
          have hcntle : cnt ≤ acc.cnt := by
            have h1 : acc.cnt = acc.ids.length := haccwf.cnt_eq
            have h0 : acc.ids = ids ++ ext := hids
            rw [h0, List.length_append] at h1
            have h2 : cnt = ids.length := hinv.idswf.cnt_eq
            omega
          have hidacc : idLook acc.ids s = some i := hstab s i hid
          have hpush_ids : ∀ u ∈ acc.pushes, ∃ j, idLook acc.ids u = some j :=
            hpids (fun v hv => absurd hv (List.not_mem_nil v))
          have hinv2 : REInv n ⟨acc.cnt, acc.ids, s :: explored,
              acc.pushes.reverse ++ rest, acc.ntr, acc.nouts⟩ := by
            refine ⟨haccwf, ?_, ?_, ?_, ?_, ?_, ?_, ?_, ?_, ?_⟩
            · intro s2 hs2
              rcases List.mem_cons.mp hs2 with he | hm
              · subst he
                exact ⟨i, hidacc⟩
              · obtain ⟨j, hj⟩ := hinv.explored_ids s2 hm
                exact ⟨j, hstab s2 j hj⟩
            · intro u hu
              rcases List.mem_append.mp hu with h | h
              · exact hpush_ids u (List.mem_reverse.mp h)
              · obtain ⟨j, hj⟩ :=
                  hinv.frontier_ids u (List.mem_cons_of_mem _ h)
                exact ⟨j, hstab u j hj⟩
            · intro e he
              rw [hids] at he
              rcases List.mem_append.mp he with h | h
              · rcases hinv.ids_covered e h with h2 | h2
                · exact Or.inl (List.mem_cons_of_mem _ h2)
                · rcases List.mem_cons.mp h2 with he2 | hm
                  · rw [he2]
                    exact Or.inl (List.mem_cons_self _ _)
                  · exact Or.inr (List.mem_append_right _ hm)
              · refine Or.inr (List.mem_append_left _ ?_)
                rw [List.mem_reverse]
                exact hextk e h
            · intro e he
              rcases hkeys e he with h | ⟨c, hc, h⟩
              · obtain ⟨e1, he1, hk1⟩ := List.mem_map.mp h
                rw [← hk1]
                exact hinv.noeps_keys e1 he1
              · rw [h]
                exact hc
            · intro e he
              show e.1.1 < acc.cnt
              rcases hkeys e he with h | ⟨c, _, h⟩
              · obtain ⟨e1, he1, hk1⟩ := List.mem_map.mp h
                have hlt : e1.1.1 < cnt := hinv.keys_lt e1 he1
                rw [← hk1]
                omega
              · rw [h]
                show i < acc.cnt
                omega
            · exact hvalsc hinv.nouts_vals
            · intro e he
              show e.1 < acc.cnt
              rcases hokeys e he with h | h
              · obtain ⟨e1, he1, hk1⟩ := List.mem_map.mp h
                have hlt : e1.1 < cnt := hinv.nouts_lt e1 he1
                rw [← hk1]
                omega
              · rw [h]
                show i < acc.cnt
                omega
            · intro s2 i2 hlook2 hex2
              by_cases hs2 : s2 = s
              · subst hs2
                have hi2 : i2 = i :=
                  Option.some_injective _ (hlook2.symm.trans hidacc)
                subst hi2
                refine ⟨?_, ?_, ?_⟩
                · intro c u' hmem2
                  rcases hsound i2 c u' hmem2 with h | ⟨_, hc, t, htL, u, hu, hl⟩
                  · exact absurd h ((hinv.unprocessed s2 i2 hid hex).1 c u')
                  · exact ⟨t, u, (hclspec t).mp htL, hu, hl⟩
                · intro c t u hc hreach hu
                  exact hcomp t ((hclspec t).mpr hreach) c u hc hu
                · rw [hoiff i2]
                  have hold : ¬ ∃ e ∈ nouts, e.1 = i2 :=
                    (hinv.unprocessed s2 i2 hid hex).2
                  constructor
                  · rintro (h | ⟨_, t, htL, hk⟩)
                    · exact absurd h hold
                    · exact ⟨t, (hclspec t).mp htL, hk⟩
                  · rintro ⟨t, hreach, hk⟩
                    exact Or.inr ⟨rfl, t, (hclspec t).mpr hreach, hk⟩
              · have hs2ex : s2 ∈ explored := by
                  rcases List.mem_cons.mp hex2 with he | hm
                  · exact absurd he hs2
                  · exact hm
                obtain ⟨j, hj⟩ := hinv.explored_ids s2 hs2ex
                have hjacc : idLook acc.ids s2 = some j := hstab s2 j hj
                have hi2j : i2 = j :=
                  Option.some_injective _ (hlook2.symm.trans hjacc)
                have hi2ne : i2 ≠ i := by
                  intro he
                  apply hs2
                  exact idLook_val_inj haccwf (he ▸ hlook2) hidacc
                obtain ⟨hps, hpc, hpo⟩ := hinv.processed s2 j hj hs2ex
                refine ⟨?_, ?_, ?_⟩
                · intro c u' hmem2
                  rcases hsound i2 c u' hmem2 with h | ⟨hi2, _⟩
                  · rw [hi2j] at h
                    obtain ⟨t, u, hr, hu, hl⟩ := hps c u' h
                    exact ⟨t, u, hr, hu, hstab u u' hl⟩
                  · exact absurd hi2 hi2ne
                · intro c t u hc hr hu
                  obtain ⟨u', hl, hrow⟩ := hpc c t u hc hr hu
                  refine ⟨u', hstab u u' hl, ?_⟩
                  rw [hi2j]
                  exact hpres j c u' hrow
                · constructor
                  · intro h
                    rcases (hoiff i2).mp h with h2 | ⟨hi2, _⟩
                    · rw [hi2j] at h2
                      exact hpo.mp h2
                    · exact absurd hi2 hi2ne
                  · intro h
                    have h2 := hpo.mpr h
                    apply (hoiff i2).mpr
                    left
                    rw [hi2j]
                    exact h2
            · intro s2 i2 hlook2 hnex2
              have hs2ne : s2 ≠ s :=
                fun he => hnex2 (he ▸ List.mem_cons_self _ _)
              have hs2nex : s2 ∉ explored :=
                fun h => hnex2 (List.mem_cons_of_mem _ h)
              have hi2ne : i2 ≠ i := by
                intro he
                apply hs2ne
                exact idLook_val_inj haccwf (he ▸ hlook2) hidacc
              cases hold : idLook ids s2 with
              | some j =>
                have hjacc := hstab s2 j hold
                have hi2j : i2 = j :=
                  Option.some_injective _ (hlook2.symm.trans hjacc)
                obtain ⟨hrow, hkey⟩ := hinv.unprocessed s2 j hold hs2nex
                constructor
                · intro c u' hmem2
                  rcases hsound i2 c u' hmem2 with h | ⟨hi2, _⟩
                  · rw [hi2j] at h
                    exact hrow c u' h
                  · exact hi2ne hi2
                · intro hk
                  rcases (hoiff i2).mp hk with h | ⟨hi2, _⟩
                  · rw [hi2j] at h
                    exact hkey h
                  · exact hi2ne hi2
              | none =>
                have hm2 : (s2, i2) ∈ acc.ids := idLook_mem hlook2
                have hm2ext : (s2, i2) ∈ ext := by
                  rw [hids] at hm2
                  rcases List.mem_append.mp hm2 with h | h
                  · exfalso
                    have h2 := idLook_of_mem ids hinv.idswf.keys_nodup
                      (s2, i2) h
                    rw [hold] at h2
                    cases h2
                  · exact h
                have hge : cnt ≤ i2 :=
                  idsWF_ext_ge hinv.idswf (hids ▸ haccwf) (s2, i2) hm2ext
                constructor
                · intro c u' hmem2
                  rcases hsound i2 c u' hmem2 with h | ⟨hi2, _⟩
                  · obtain ⟨e1, he1, hk1, _⟩ := deltaL_mem_entry h
                    have hlt : e1.1.1 < cnt := hinv.keys_lt e1 he1
                    have hx : e1.1.1 = i2 := congrArg Prod.fst hk1
                    omega
                  · exact hi2ne hi2
                · intro hk
                  rcases (hoiff i2).mp hk with ⟨e1, he1, hk1⟩ | ⟨hi2, _⟩
                  · have hlt : e1.1 < cnt := hinv.nouts_lt e1 he1
                    omega
                  · exact hi2ne hi2
          obtain ⟨hinv', hfr', hstab'⟩ :=
            ih ⟨acc.cnt, acc.ids, s :: explored,
              acc.pushes.reverse ++ rest, acc.ntr, acc.nouts⟩ st' hinv2 hloop2
          exact ⟨hinv', hfr', fun s0 i0 h => hstab' s0 i0 (hstab s0 i0 h)⟩

theorem reInv_init (n : NFA) :
    REInv n ⟨1, [(n.initial_state, 0)], [], [n.initial_state], [], []⟩ := by
  refine ⟨⟨by simp [List.range_succ], by simp, by simp⟩, ?_, ?_, ?_, ?_, ?_,
    ?_, ?_, ?_, ?_⟩
  · intro s hs
    exact absurd hs (List.not_mem_nil s)
  · intro s hs
    rw [List.mem_singleton] at hs
    subst hs
    exact ⟨0, idLook_cons_pos rfl⟩
  · intro e he
    rw [List.mem_singleton] at he
    subst he
    exact Or.inr (List.mem_singleton_self _)
  · intro e he
    exact absurd he (List.not_mem_nil e)
  · intro e he
    exact absurd he (List.not_mem_nil e)
  · intro e he
    exact absurd he (List.not_mem_nil e)
  · intro e he
    exact absurd he (List.not_mem_nil e)
  · intro s i _ hex
    exact absurd hex (List.not_mem_nil s)
  · intro s i _ _
    constructor
    · intro c u' h
      simp [deltaL] at h
    · rintro ⟨e, he, _⟩
      exact absurd he (List.not_mem_nil e)

/-- At normal termination of the remove_epsilons worklist, the built NFA
accepts exactly what the source accepts, state by state across the id map. -/
theorem re_simulation (n : NFA)
    (hwfouts : ∀ e ∈ n.outputs, e.2 ≠ ∅) (st : REState)
    (hinv : REInv n st) (hfr : st.frontier = []) :
    ∀ w, ByteString w → ∀ s i, idLook st.ids s = some i → s ∈ st.explored →
      (NFA.Accepts ⟨st.ntr, st.nouts, 0⟩ i w ↔ n.Accepts s w) := by
  have hnoeps : NoEps ⟨st.ntr, st.nouts, 0⟩ :=
    fun e he => hinv.noeps_keys e he
  intro w
  induction w with
  | nil =>
    intro _ s i hlook hex
    obtain ⟨_, _, hpo⟩ := hinv.processed s i hlook hex
    constructor
    · intro hacc
      rcases accepts_inv hnoeps hacc with ⟨_, hout⟩ | ⟨c, w', t, hw, _, _⟩
      · have hk : ∃ e ∈ st.nouts, e.1 = i :=
          (aGet_ne_empty_iff hinv.nouts_vals i).mp hout
        obtain ⟨t, hreach, hkey⟩ := hpo.mp hk
        have hne : aGet n.outputs (t : Int) ≠ ∅ :=
          (aGet_ne_empty_iff hwfouts t).mpr hkey
        exact accepts_of_epsReach hreach (NFA.Accepts.done hne)
      · cases hw
    · intro hacc
      rcases accepts_decomp hacc with ⟨_, t, hreach, hout⟩ |
        ⟨c, w', t, u, hw, _⟩
      · have hkey : ∃ e ∈ n.outputs, e.1 = t :=
          (aGet_ne_empty_iff hwfouts t).mp hout
        have hk : ∃ e ∈ st.nouts, e.1 = i := hpo.mpr ⟨t, hreach, hkey⟩
        exact NFA.Accepts.done ((aGet_ne_empty_iff hinv.nouts_vals i).mpr hk)
      · cases hw
  | cons c w' ihw =>
    intro hbytes s i hlook hex
    have hcb : c < NUM_CHARS := hbytes c (List.mem_cons_self _ _)
    have hcne : c ≠ EPSILON := byte_ne_epsilon hcb
    have hbytes' : ByteString w' :=
      fun b hb => hbytes b (List.mem_cons_of_mem _ hb)
    obtain ⟨hps, hpc, _⟩ := hinv.processed s i hlook hex
    constructor
    · intro hacc
      rcases accepts_inv hnoeps hacc with ⟨hw, _⟩ |
        ⟨c0, w0, u', hw, hd, hacc'⟩
      · cases hw
      · rw [List.cons.injEq] at hw
        obtain ⟨hc0, hw0⟩ := hw
        rw [← hc0] at hd
        rw [← hw0] at hacc'
        have hd2 : u' ∈ deltaL st.ntr i c := hd
        obtain ⟨t, u, hreach, hu, hul⟩ := hps c u' hd2
        have huex : u ∈ st.explored := by
          rcases hinv.ids_covered (u, u') (idLook_mem hul) with h | h
          · exact h
          · rw [hfr] at h
            cases h
        have hacc2 := (ihw hbytes' u u' hul huex).mp hacc'
        exact accepts_of_epsReach hreach (NFA.Accepts.step hcne hu hacc2)
    · intro hacc
      rcases accepts_decomp hacc with ⟨hw, _⟩ |
        ⟨c0, w0, t, u, hw, _, hreach, hu, hacc'⟩
      · cases hw
      · rw [List.cons.injEq] at hw
        obtain ⟨hc0, hw0⟩ := hw
        rw [← hc0] at hu
        rw [← hw0] at hacc'
        obtain ⟨u', hul, hrow⟩ := hpc c t u hcne hreach hu
        have huex : u ∈ st.explored := by
          rcases hinv.ids_covered (u, u') (idLook_mem hul) with h | h
          · exact h
          · rw [hfr] at h
            cases h
        have hacc2 := (ihw hbytes' u u' hul huex).mpr hacc'
        exact NFA.Accepts.step hcne hrow hacc2

/-- C2: for every NFA whose transitions dict has unique keys (a Python dict
invariant) and whose outputs entries are non-empty tag sets, whenever
remove_epsilons completes, the resulting NFA has no ε-transitions and
accepts exactly the byte strings the source NFA accepts. -/
theorem c2_remove_epsilons_language (n : NFA) (cfuel fuel : Nat) (m : NFA)
    (htrnd : (List.map (fun e => e.1) n.transitions).Nodup)
    (hwfouts : ∀ e ∈ n.outputs, e.2 ≠ ∅)
    (hrun : n.remove_epsilons cfuel fuel = some m) :
    NoEps m ∧ ∀ w, ByteString w →
      (m.Accepts m.initial_state w ↔ n.Accepts n.initial_state w) := by
  unfold NFA.remove_epsilons at hrun
  have hgs : getNewState [] 0 n.initial_state =
      (0, [(n.initial_state, 0)], 1) := getNewState_new rfl
  rw [hgs] at hrun
  have hrun2 : (removeEpsLoop n cfuel fuel
      ⟨1, [(n.initial_state, 0)], [], [n.initial_state], [], []⟩).map
        (fun st => ⟨st.ntr, st.nouts, 0⟩) = some m := hrun
  cases hrl : removeEpsLoop n cfuel fuel
      ⟨1, [(n.initial_state, 0)], [], [n.initial_state], [], []⟩ with
  | none =>
    rw [hrl] at hrun2
    cases hrun2
  | some st =>
    rw [hrl] at hrun2
    simp only [Option.map_some'] at hrun2
    have hm : (⟨st.ntr, st.nouts, 0⟩ : NFA) = m :=
      Option.some_injective _ hrun2
    obtain ⟨hinv, hfr, hstab⟩ := removeEpsLoop_some n htrnd hwfouts cfuel fuel
      ⟨1, [(n.initial_state, 0)], [], [n.initial_state], [], []⟩ st
      (reInv_init n) hrl
    have hid0 : idLook st.ids n.initial_state = some 0 :=
      hstab _ _ (idLook_cons_pos rfl)
    have hex0 : n.initial_state ∈ st.explored := by
      rcases hinv.ids_covered (n.initial_state, 0) (idLook_mem hid0) with h | h
      · exact h
      · rw [hfr] at h
        cases h
    constructor
    · rw [← hm]
      exact fun e he => hinv.noeps_keys e he
    · intro w hbytes
      rw [← hm]
      exact re_simulation n hwfouts st hinv hfr w hbytes
        n.initial_state 0 hid0 hex0

/- Witness data for C2: an NFA with one ε-edge into a chain accepting the
single string [97]. -/

def nfaC2W : NFA := ⟨[((0, EPSILON), [1]), ((1, 97), [2])], [(2, {7})], 0⟩

/-- The NFA the code builds for `nfaC2W` (states renumbered 0 ↦ 0, 2 ↦ 1). -/
def nfaC2WRes : NFA := ⟨[((0, 97), [1])], [(1, {7})], 0⟩

/-- C2 witness: the hypotheses are satisfiable on a concrete ε-NFA whose
remove_epsilons run completes. -/
theorem c2_witness :
    NoEps nfaC2WRes ∧ ∀ w, ByteString w →
      (nfaC2WRes.Accepts nfaC2WRes.initial_state w ↔
        nfaC2W.Accepts nfaC2W.initial_state w) :=
  c2_remove_epsilons_language nfaC2W 10 10 nfaC2WRes (by decide) (by decide)
    (by decide)

/- ==================== parsergen.py: grammar data ==================== -/

/-- parsergen.py Production: an immutable rule record.  Non-terminals are the
dense natural ids handed out by the allocator (the reserved GOAL is 0);
terminal ids are disjoint integers (negative for the reserved ones), so
`rhs` is a list of integer symbols. -/
structure Production where
  index : Nat
  lhs : Nat
  rhs : List Int
  deriving DecidableEq

/-- The grammar data reaching ParserGenerator.  Modelled from the spec for
the allocators: parser.py's TerminalSet/NonTerminalSet are not under src/;
the spec (section 3) makes them disjoint integer sets with O(1) membership,
non-terminals dense from 0. -/
structure Grammar where
  terminals : Finset Int
  numNT : Nat
  rules : List Production
  deriving DecidableEq

/-- The FIRST set stored at non-terminal index N (empty when out of range). -/
def FAtN (first : List (Finset Int)) (N : Nat) : Finset Int :=
  (first.get? N).getD ∅

/-- The FIRST set of an integer symbol used as a list index. -/
def FAt (first : List (Finset Int)) (s : Int) : Finset Int :=
  if 0 ≤ s then FAtN first s.toNat else ∅

/- ========== parsergen.py ParserGenerator.compute_first_map ========== -/

/-- Inner `for symbol in rule.rhs` loop of compute_first_map: a terminal is
inserted and breaks the scan; a non-terminal contributes its FIRST set minus
NIL (a Python set-for of inserts, embedded as one union since set iteration
order does not affect the result or the changed flag), breaking unless NIL
was found.  Returns ((first, changed), empty); `none` is a Python
IndexError from indexing `first` (negative indices via `pyGet`). -/
def firstRhsLoop (g : Grammar) (nt : Nat) :
    List Int → List (Finset Int) → Bool →
    Option ((List (Finset Int) × Bool) × Bool)
  | [], first, changed => some ((first, changed), true)
  | sym :: rest, first, changed =>
    if sym ∈ g.terminals then
      match first.get? nt with
      | none => none
      | some fnt =>
        some ((first.set nt (insert sym fnt),
          changed || decide (sym ∉ fnt)), false)
    else
      match pyGet first sym, first.get? nt with
      | some fsym, some fnt =>
        let add := fsym.erase NIL
        let first2 := first.set nt (fnt ∪ add)
        let changed2 := changed || decide (¬ add ⊆ fnt)
        if NIL ∈ fsym then firstRhsLoop g nt rest first2 changed2
        else some ((first2, changed2), false)
      | _, _ => none

/-- Body of the `for rule in rules` loop of compute_first_map: scan the rhs,
then insert NIL when the scan fell through with `empty` still True. -/
def firstRule (g : Grammar) (acc : List (Finset Int) × Bool)
    (rule : Production) : Option (List (Finset Int) × Bool) :=
  match firstRhsLoop g rule.lhs rule.rhs acc.1 acc.2 with
  | none => none
  | some ((first2, changed2), e) =>
    if e then
      match first2.get? rule.lhs with
      | none => none
      | some fnt =>
        some (first2.set rule.lhs (insert NIL fnt),
          changed2 || decide (NIL ∉ fnt))
    else some (first2, changed2)

/-- One full pass over all rules with the changed flag reset. -/
def firstPass (g : Grammar) (first : List (Finset Int)) :
    Option (List (Finset Int) × Bool) :=
  g.rules.foldlM (firstRule g) (first, false)

/-- The `while changed` fixpoint iteration, one pass per unit of fuel. -/
def firstIter (g : Grammar) : Nat → List (Finset Int) →
    Option (List (Finset Int))
  | 0, _ => none
  | fuel+1, first =>
    match firstPass g first with
    | none => none
    | some (first2, changed) =>
      if changed then firstIter g fuel first2 else some first2

/-- parsergen.py ParserGenerator.compute_first_map, with fuel: iterate from
one empty set per non-terminal until no pass changes anything. -/
def compute_first_map (g : Grammar) (fuel : Nat) :
    Option (List (Finset Int)) :=
  firstIter g fuel (List.replicate g.numNT ∅)

/- ---- context-free derivations over integer symbol strings ---- -/

/-- One derivation step: replace one occurrence of a rule's lhs by its rhs. -/
def DStep (g : Grammar) (α β : List Int) : Prop :=
  ∃ x y r, r ∈ g.rules ∧ α = x ++ (r.lhs : Int) :: y ∧ β = x ++ r.rhs ++ y

/-- Sentential-form derivation: reflexive-transitive closure of `DStep`. -/
def Derives (g : Grammar) : List Int → List Int → Prop :=
  Relation.ReflTransGen (DStep g)

theorem derives_rule {g : Grammar} {r : Production} (hr : r ∈ g.rules) :
    Derives g [(r.lhs : Int)] r.rhs := by
  apply Relation.ReflTransGen.single
  exact ⟨[], [], r, hr, by simp, by simp⟩

theorem dstep_append_left {g : Grammar} {α β : List Int} (γ : List Int)
    (h : DStep g α β) : DStep g (γ ++ α) (γ ++ β) := by
  obtain ⟨x, y, r, hr, ha, hb⟩ := h
  refine ⟨γ ++ x, y, r, hr, ?_, ?_⟩
  · rw [ha, List.append_assoc]
  · rw [hb]
    simp [List.append_assoc]

theorem dstep_append_right {g : Grammar} {α β : List Int}
    (h : DStep g α β) (γ : List Int) : DStep g (α ++ γ) (β ++ γ) := by
  obtain ⟨x, y, r, hr, ha, hb⟩ := h
  refine ⟨x, y ++ γ, r, hr, ?_, ?_⟩
  · rw [ha]
    simp
  · rw [hb]
    simp

theorem derives_append_left {g : Grammar} {α β : List Int} (γ : List Int)
    (h : Derives g α β) : Derives g (γ ++ α) (γ ++ β) := by
  induction h with
  | refl => exact Relation.ReflTransGen.refl
  | tail _ hstep ihd =>
    exact Relation.ReflTransGen.tail ihd (dstep_append_left γ hstep)

theorem derives_append_right {g : Grammar} {α β : List Int}
    (h : Derives g α β) (γ : List Int) : Derives g (α ++ γ) (β ++ γ) := by
  induction h with
  | refl => exact Relation.ReflTransGen.refl
  | tail _ hstep ihd =>
    exact Relation.ReflTransGen.tail ihd (dstep_append_right hstep γ)

theorem derives_append {g : Grammar} {α α' β β' : List Int}
    (h1 : Derives g α α') (h2 : Derives g β β') :
    Derives g (α ++ β) (α' ++ β') :=
  Relation.ReflTransGen.trans (derives_append_right h1 β)
    (derives_append_left α' h2)

theorem derives_cons_nullable {g : Grammar} {s : Int} (rest : List Int)
    (h1 : Derives g [s] []) : Derives g (s :: rest) rest := by
  have h := derives_append_right h1 rest
  simpa using h

/-- Soundness invariant of the FIRST map under construction: every stored
element is NIL with an ε-derivation or a terminal that can begin a
derivation. -/
def FirstInv (g : Grammar) (first : List (Finset Int)) : Prop :=
  ∀ N fs, first.get? N = some fs → ∀ t ∈ fs,
    (t = NIL ∧ Derives g [(N : Int)] []) ∨
    (t ∈ g.terminals ∧ ∃ α, Derives g [(N : Int)] (t :: α))

/-- Closedness of a FIRST map along one rhs scan, mirroring the code's scan
with its breaks. -/
def RhsClosed (g : Grammar) (first : List (Finset Int)) (nt : Nat) :
    List Int → Prop
  | [] => NIL ∈ FAtN first nt
  | sym :: rest =>
      (sym ∈ g.terminals → sym ∈ FAtN first nt) ∧
      (sym ∉ g.terminals →
        (∀ x ∈ FAt first sym, x ≠ NIL → x ∈ FAtN first nt) ∧
        (NIL ∈ FAt first sym → RhsClosed g first nt rest))

/-- Total number of stored FIRST elements, the termination measure. -/
def sizeSum : List (Finset Int) → Nat
  | [] => 0
  | s :: r => s.card + sizeSum r

theorem set_of_get?_eq {l : List (Finset Int)} {k : Nat} {a : Finset Int}
    (h : l.get? k = some a) : l.set k a = l := by
  induction l generalizing k with
  | nil => cases h
  | cons b rest ih =>
    cases k with
    | zero =>
      have hb : b = a := Option.some_injective _ h
      rw [List.set_cons_zero, hb]
    | succ k =>
      rw [List.set_cons_succ]
      rw [ih h]

theorem sizeSum_set {first : List (Finset Int)} {k : Nat}
    {fnt s' : Finset Int} (hget : first.get? k = some fnt) (hsub : fnt ⊆ s') :
    sizeSum first ≤ sizeSum (first.set k s') ∧
    (fnt ≠ s' → sizeSum first < sizeSum (first.set k s')) := by
  induction first generalizing k with
  | nil => cases hget
  | cons a rest ih =>
    cases k with
    | zero =>
      have ha : a = fnt := Option.some_injective _ hget
      subst ha
      rw [List.set_cons_zero]
      show a.card + sizeSum rest ≤ s'.card + sizeSum rest ∧ _
      constructor
      · have := Finset.card_le_card hsub
        omega
      · intro hne
        have : a.card < s'.card :=
          Finset.card_lt_card (Finset.ssubset_iff_subset_ne.mpr ⟨hsub, hne⟩)
        show a.card + sizeSum rest < s'.card + sizeSum rest
        omega
    | succ k =>
      rw [List.set_cons_succ]
      obtain ⟨h1, h2⟩ := ih hget
      show a.card + sizeSum rest ≤ a.card + sizeSum (rest.set k s') ∧ _
      constructor
      · omega
      · intro hne
        have := h2 hne
        show a.card + sizeSum rest < a.card + sizeSum (rest.set k s')
        omega

theorem FAtN_cons_zero (a : Finset Int) (l : List (Finset Int)) :
    FAtN (a :: l) 0 = a := rfl

theorem FAtN_cons_succ (a : Finset Int) (l : List (Finset Int)) (k : Nat) :
    FAtN (a :: l) (k + 1) = FAtN l k := rfl

theorem sizeSum_mono :
    ∀ {l l' : List (Finset Int)}, l.length = l'.length →
      (∀ k, FAtN l k ⊆ FAtN l' k) → sizeSum l ≤ sizeSum l' := by
  intro l
  induction l with
  | nil =>
    intro l' _ _
    exact Nat.zero_le _
  | cons a rest ih =>
    intro l' hlen hsub
    cases l' with
    | nil => cases hlen
    | cons b rest' =>
      have h0 : a ⊆ b := by
        have := hsub 0
        rwa [FAtN_cons_zero, FAtN_cons_zero] at this
      have htail : sizeSum rest ≤ sizeSum rest' := by
        apply ih (by simpa using hlen)
        intro k
        have := hsub (k + 1)
        rwa [FAtN_cons_succ, FAtN_cons_succ] at this
      have := Finset.card_le_card h0
      show a.card + sizeSum rest ≤ b.card + sizeSum rest'
      omega

theorem pyGet_nonneg {α : Type} {l : List α} {i : Int} (h : 0 ≤ i) :
    pyGet l i = l.get? i.toNat := by
  unfold pyGet
  rw [if_pos h]

theorem FAtN_eq {l : List (Finset Int)} {k : Nat} {a : Finset Int}
    (h : l.get? k = some a) : FAtN l k = a := by
  unfold FAtN
  rw [h]
  rfl

theorem FAtN_set_eq {l : List (Finset Int)} {k : Nat} {a s' : Finset Int}
    (h : l.get? k = some a) : FAtN (l.set k s') k = s' := by
  apply FAtN_eq
  rw [List.get?_set_eq_of_lt _ (lt_length_of_get?_some h)]

theorem FAtN_set_ne {l : List (Finset Int)} {k j : Nat} {s' : Finset Int}
    (h : j ≠ k) : FAtN (l.set k s') j = FAtN l j := by
  unfold FAtN
  rw [List.get?_set_ne _ _ (fun he => h he.symm)]

theorem FAtN_set_subset {first : List (Finset Int)} {nt : Nat}
    {fnt s' : Finset Int} (hget : first.get? nt = some fnt) (hsub : fnt ⊆ s') :
    ∀ k, FAtN first k ⊆ FAtN (first.set nt s') k := by
  intro k
  by_cases hk : k = nt
  · subst hk
    rw [FAtN_eq hget, FAtN_set_eq hget]
    exact hsub
  · rw [FAtN_set_ne hk]

theorem firstInv_set {g : Grammar} {first : List (Finset Int)} {nt : Nat}
    {fnt s' : Finset Int} (hget : first.get? nt = some fnt)
    (hinv : FirstInv g first)
    (hnew : ∀ t ∈ s', t ∈ fnt ∨
      (t = NIL ∧ Derives g [(nt : Int)] []) ∨
      (t ∈ g.terminals ∧ ∃ α, Derives g [(nt : Int)] (t :: α))) :
    FirstInv g (first.set nt s') := by
  intro N fs hgs t ht
  by_cases hN : N = nt
  · subst hN
    have hlt : N < first.length := lt_length_of_get?_some hget
    rw [List.get?_set_eq_of_lt _ hlt] at hgs
    have hfs : s' = fs := Option.some_injective _ hgs
    subst hfs
    rcases hnew t ht with h | h | h
    · exact hinv N fnt hget t h
    · exact Or.inl h
    · exact Or.inr h
  · rw [List.get?_set_ne _ _ (fun he => hN he.symm)] at hgs
    exact hinv N fs hgs t ht

theorem sizeSum_bound (m : Nat) (B : Finset Int) :
    ∀ (l : List (Finset Int)), l.length = m →
      (∀ fs ∈ l, fs ⊆ B) → sizeSum l ≤ m * B.card := by
  induction m with
  | zero =>
    intro l hlen _
    rw [List.length_eq_zero.mp hlen]
    show 0 ≤ 0 * B.card
    exact Nat.zero_le _
  | succ m ih =>
    intro l hlen hsub
    cases l with
    | nil => cases hlen
    | cons a rest =>
      have h1 : a.card ≤ B.card :=
        Finset.card_le_card (hsub a (List.mem_cons_self _ _))
      have h2 : sizeSum rest ≤ m * B.card := by
        apply ih rest (by simpa using hlen)
        intro fs hfs
        exact hsub fs (List.mem_cons_of_mem _ hfs)
      show a.card + sizeSum rest ≤ (m + 1) * B.card
      have : (m + 1) * B.card = m * B.card + B.card := by ring
      omega

/-- One rhs scan of compute_first_map: lengths and the soundness invariant
are preserved, the map only grows, the changed flag is monotone and records
exactly whether anything grew, a fall-through proves the lhs nullable, and a
changeless scan certifies closedness. -/
theorem firstRhsLoop_spec (g : Grammar) (hnil : NIL ∉ g.terminals)
    (nt : Nat) (hnt : nt < g.numNT) :
    ∀ (syms : List Int) (first : List (Finset Int)) (changed : Bool)
      (first' : List (Finset Int)) (changed' e : Bool),
      (∀ s ∈ syms, s ∈ g.terminals ∨ (0 ≤ s ∧ s.toNat < g.numNT)) →
      first.length = g.numNT →
      FirstInv g first →
      Derives g [(nt : Int)] syms →
      firstRhsLoop g nt syms first changed = some ((first', changed'), e) →
      first'.length = g.numNT ∧
      FirstInv g first' ∧
      (∀ k, FAtN first k ⊆ FAtN first' k) ∧
      (changed = true → changed' = true) ∧
      (changed' = false → changed = false ∧ first' = first) ∧
      (e = true → Derives g [(nt : Int)] []) ∧
      (changed' = false → (e = true → NIL ∈ FAtN first nt) →
        RhsClosed g first nt syms) ∧
      (changed' = true → changed = true ∨ sizeSum first < sizeSum first') := by
  intro syms
  induction syms with
  | nil =>
    intro first changed first' changed' e _ hlen hinv hpre hloop
    simp only [firstRhsLoop] at hloop
    have h3 := Option.some_injective _ hloop
    injection h3 with h12 he
    injection h12 with hf hc
    subst hf
    subst hc
    subst he
    refine ⟨hlen, hinv, fun k x hx => hx, fun h => h, fun h => ⟨h, rfl⟩,
      fun _ => hpre, ?_, fun h => Or.inl h⟩
    intro _ himp
    exact himp rfl
  | cons sym rest ih =>
    intro first changed first' changed' e hsyms hlen hinv hpre hloop
    have hsymr : ∀ s ∈ rest, s ∈ g.terminals ∨ (0 ≤ s ∧ s.toNat < g.numNT) :=
      fun s hs => hsyms s (List.mem_cons_of_mem _ hs)
    obtain ⟨fnt, hget⟩ : ∃ fnt, first.get? nt = some fnt := by
      cases hg : first.get? nt with
      | none =>
        exfalso
        have := List.get?_eq_none.mp hg
        omega
      | some fnt => exact ⟨fnt, rfl⟩
    by_cases hterm : sym ∈ g.terminals
    · simp only [firstRhsLoop, if_pos hterm, hget] at hloop
      have h3 := Option.some_injective _ hloop
      injection h3 with h12 he
      injection h12 with hf hc
      subst hf
      subst hc
      subst he
      refine ⟨?_, ?_, ?_, ?_, ?_, ?_, ?_, ?_⟩
      · rw [List.length_set]
        exact hlen
      · apply firstInv_set hget hinv
        intro t ht
        rcases Finset.mem_insert.mp ht with h | h
        · subst h
          exact Or.inr (Or.inr ⟨hterm, rest, hpre⟩)
        · exact Or.inl h
      · exact FAtN_set_subset hget (Finset.subset_insert _ _)
      · intro h
        rw [h, Bool.true_or]
      · intro h
        rw [Bool.or_eq_false_iff] at h
        have hin : sym ∈ fnt := by
          have := of_decide_eq_false h.2
          exact not_not.mp this
        refine ⟨h.1, ?_⟩
        rw [Finset.insert_eq_self.mpr hin]
        exact set_of_get?_eq hget
      · intro h
        cases h
      · intro hch _
        rw [Bool.or_eq_false_iff] at hch
        have hin : sym ∈ fnt := not_not.mp (of_decide_eq_false hch.2)
        exact ⟨fun _ => by rw [FAtN_eq hget]; exact hin,
          fun hns => absurd hterm hns⟩
      · intro h
        cases hc0 : changed with
        | true => exact Or.inl rfl
        | false =>
          right
          rw [hc0, Bool.false_or] at h
          have hnin : sym ∉ fnt := of_decide_eq_true h
          have hne : fnt ≠ insert sym fnt := by
            intro heq
            exact hnin (heq ▸ Finset.mem_insert_self sym fnt)
          exact (sizeSum_set hget (Finset.subset_insert _ _)).2 hne
    · obtain ⟨hge0, hlt0⟩ : 0 ≤ sym ∧ sym.toNat < g.numNT :=
        (hsyms sym (List.mem_cons_self _ _)).resolve_left hterm
      have hpy : pyGet first sym = first.get? sym.toNat := pyGet_nonneg hge0
      obtain ⟨fsym, hgets⟩ : ∃ fsym, first.get? sym.toNat = some fsym := by
        cases hg : first.get? sym.toNat with
        | none =>
          exfalso
          have := List.get?_eq_none.mp hg
          omega
        | some fsym => exact ⟨fsym, rfl⟩
      have hcast : ((sym.toNat : Nat) : Int) = sym := Int.toNat_of_nonneg hge0
      have hFsym : FAt first sym = fsym := by
        unfold FAt
        rw [if_pos hge0]
        exact FAtN_eq hgets
      have hnewElems : ∀ t ∈ fsym.erase NIL, t ∈ fnt ∨
          (t = NIL ∧ Derives g [(nt : Int)] []) ∨
          (t ∈ g.terminals ∧ ∃ α, Derives g [(nt : Int)] (t :: α)) := by
        intro t ht
        obtain ⟨htne, htm⟩ := Finset.mem_erase.mp ht
        rcases hinv sym.toNat fsym hgets t htm with ⟨hNIL, _⟩ | ⟨htt, α, hda⟩
        · exact absurd hNIL htne
        · right
          right
          refine ⟨htt, α ++ rest, ?_⟩
          have h1 : Derives g (sym :: rest) ((t :: α) ++ rest) := by
            have h2 : Derives g [sym] (t :: α) := by
              rw [← hcast]
              exact hda
            have := derives_append_right h2 rest
            simpa using this
          have := Relation.ReflTransGen.trans hpre h1
          simpa using this
      simp only [firstRhsLoop, if_neg hterm, hpy, hgets, hget] at hloop
      by_cases hNIL : NIL ∈ fsym
      · rw [if_pos hNIL] at hloop
        have hds : Derives g [sym] [] := by
          rcases hinv sym.toNat fsym hgets NIL hNIL with ⟨_, hd⟩ | ⟨hNt, _⟩
          · rw [← hcast]
            exact hd
          · exact absurd hNt hnil
        have hpre2 : Derives g [(nt : Int)] rest :=
          Relation.ReflTransGen.trans hpre (derives_cons_nullable rest hds)
        have hlen2 : (first.set nt (fnt ∪ fsym.erase NIL)).length = g.numNT := by
          rw [List.length_set]
          exact hlen
        have hinv2 : FirstInv g (first.set nt (fnt ∪ fsym.erase NIL)) := by
          apply firstInv_set hget hinv
          intro t ht
          rcases Finset.mem_union.mp ht with h | h
          · exact Or.inl h
          · exact hnewElems t h
        obtain ⟨hL1, hL2, hL3, hL4, hL5, hL6, hL7, hL8⟩ :=
          ih (first.set nt (fnt ∪ fsym.erase NIL))
            (changed || decide (¬ fsym.erase NIL ⊆ fnt)) first' changed' e
            hsymr hlen2 hinv2 hpre2 hloop
        have hmono1 : ∀ k, FAtN first k ⊆
            FAtN (first.set nt (fnt ∪ fsym.erase NIL)) k :=
          FAtN_set_subset hget Finset.subset_union_left
        refine ⟨hL1, hL2, fun k => Finset.Subset.trans (hmono1 k) (hL3 k),
          ?_, ?_, hL6, ?_, ?_⟩
        · intro h
          exact hL4 (by rw [h, Bool.true_or])
        · intro h
          obtain ⟨hc2, hf2⟩ := hL5 h
          rw [Bool.or_eq_false_iff] at hc2
          have hsub : fsym.erase NIL ⊆ fnt := not_not.mp (of_decide_eq_false hc2.2)
          have hfeq : first.set nt (fnt ∪ fsym.erase NIL) = first := by
            rw [Finset.union_eq_left.mpr hsub]
            exact set_of_get?_eq hget
          rw [hfeq] at hf2
          exact ⟨hc2.1, hf2⟩
        · intro hch himp
          obtain ⟨hc2, hf2⟩ := hL5 hch
          rw [Bool.or_eq_false_iff] at hc2
          have hsub : fsym.erase NIL ⊆ fnt := not_not.mp (of_decide_eq_false hc2.2)
          have hfeq : first.set nt (fnt ∪ fsym.erase NIL) = first := by
            rw [Finset.union_eq_left.mpr hsub]
            exact set_of_get?_eq hget
          refine ⟨fun ht => absurd ht hterm, fun _ => ⟨?_, ?_⟩⟩
          · intro x hx hxne
            rw [hFsym] at hx
            rw [FAtN_eq hget]
            exact hsub (Finset.mem_erase.mpr ⟨hxne, hx⟩)
          · intro _
            have := hL7 hch (by rw [hfeq]; exact himp)
            rw [hfeq] at this
            exact this
        · intro hch
          rcases hL8 hch with h2 | h2
          · by_cases hc0 : changed = true
            · exact Or.inl hc0
            · have hc0f : changed = false := by
                cases changed with
                | false => rfl
                | true => exact absurd rfl hc0
              rw [hc0f, Bool.false_or] at h2
              right
              have hnsub : ¬ fsym.erase NIL ⊆ fnt := of_decide_eq_true h2
              have hne : fnt ≠ fnt ∪ fsym.erase NIL := by
                intro heq
                apply hnsub
                intro x hx
                rw [heq]
                exact Finset.mem_union_right _ hx
              have hstrict := (sizeSum_set hget Finset.subset_union_left).2 hne
              have hle2 : sizeSum (first.set nt (fnt ∪ fsym.erase NIL)) ≤
                  sizeSum first' := by
                apply sizeSum_mono
                · rw [hlen2, hL1]
                · exact hL3
              omega
          · right
            have hle1 : sizeSum first ≤
                sizeSum (first.set nt (fnt ∪ fsym.erase NIL)) :=
              (sizeSum_set hget Finset.subset_union_left).1
            omega
      · rw [if_neg hNIL] at hloop
        have h3 := Option.some_injective _ hloop
        injection h3 with h12 he
        injection h12 with hf hc
        subst hf
        subst hc
        subst he
        refine ⟨?_, ?_, ?_, ?_, ?_, ?_, ?_, ?_⟩
        · rw [List.length_set]
          exact hlen
        · apply firstInv_set hget hinv
          intro t ht
          rcases Finset.mem_union.mp ht with h | h
          · exact Or.inl h
          · exact hnewElems t h
        · exact FAtN_set_subset hget Finset.subset_union_left
        · intro h
          rw [h, Bool.true_or]
        · intro h
          rw [Bool.or_eq_false_iff] at h
          have hsub : fsym.erase NIL ⊆ fnt := not_not.mp (of_decide_eq_false h.2)
          refine ⟨h.1, ?_⟩
          rw [Finset.union_eq_left.mpr hsub]
          exact set_of_get?_eq hget
        · intro h
          cases h
        · intro hch _
          rw [Bool.or_eq_false_iff] at hch
          have hsub : fsym.erase NIL ⊆ fnt := not_not.mp (of_decide_eq_false hch.2)
          refine ⟨fun ht => absurd ht hterm, fun _ => ⟨?_, ?_⟩⟩
          · intro x hx hxne
            rw [hFsym] at hx
            rw [FAtN_eq hget]
            exact hsub (Finset.mem_erase.mpr ⟨hxne, hx⟩)
          · intro hN
            rw [hFsym] at hN
            exact absurd hN hNIL
        · intro h
          cases hc0 : changed with
          | true => exact Or.inl rfl
          | false =>
            right
            rw [hc0, Bool.false_or] at h
            have hnsub : ¬ fsym.erase NIL ⊆ fnt := of_decide_eq_true h
            have hne : fnt ≠ fnt ∪ fsym.erase NIL := by
              intro heq
              apply hnsub
              intro x hx
              rw [heq]
              exact Finset.mem_union_right _ hx
            exact (sizeSum_set hget Finset.subset_union_left).2 hne

theorem firstRhsLoop_total (g : Grammar) (nt : Nat) (hnt : nt < g.numNT) :
    ∀ (syms : List Int) (first : List (Finset Int)) (changed : Bool),
      (∀ s ∈ syms, s ∈ g.terminals ∨ (0 ≤ s ∧ s.toNat < g.numNT)) →
      first.length = g.numNT →
      ∃ first2 changed2 e, firstRhsLoop g nt syms first changed =
        some ((first2, changed2), e) ∧ first2.length = g.numNT := by
  intro syms
  induction syms with
  | nil =>
    intro first changed _ hlen
    exact ⟨first, changed, true, rfl, hlen⟩
  | cons sym rest ih =>
    intro first changed hsyms hlen
    obtain ⟨fnt, hget⟩ : ∃ fnt, first.get? nt = some fnt := by
      cases hg : first.get? nt with
      | none =>
        exfalso
        have := List.get?_eq_none.mp hg
        omega
      | some fnt => exact ⟨fnt, rfl⟩
    by_cases hterm : sym ∈ g.terminals
    · refine ⟨first.set nt (insert sym fnt),
        changed || decide (sym ∉ fnt), false, ?_, ?_⟩
      · simp only [firstRhsLoop, if_pos hterm, hget]
      · rw [List.length_set]
        exact hlen
    · obtain ⟨hge0, hlt0⟩ : 0 ≤ sym ∧ sym.toNat < g.numNT :=
        (hsyms sym (List.mem_cons_self _ _)).resolve_left hterm
      have hpy : pyGet first sym = first.get? sym.toNat := pyGet_nonneg hge0
      obtain ⟨fsym, hgets⟩ : ∃ fsym, first.get? sym.toNat = some fsym := by
        cases hg : first.get? sym.toNat with
        | none =>
          exfalso
          have := List.get?_eq_none.mp hg
          omega
        | some fsym => exact ⟨fsym, rfl⟩
      by_cases hNIL : NIL ∈ fsym
      · obtain ⟨first2, changed2, e, hrec, hlen2⟩ :=
          ih (first.set nt (fnt ∪ fsym.erase NIL))
            (changed || decide (¬ fsym.erase NIL ⊆ fnt))
            (fun s hs => hsyms s (List.mem_cons_of_mem _ hs))
            (by rw [List.length_set]; exact hlen)
        refine ⟨first2, changed2, e, ?_, hlen2⟩
        simp only [firstRhsLoop, if_neg hterm, hpy, hgets, hget, if_pos hNIL]
        exact hrec
      · refine ⟨first.set nt (fnt ∪ fsym.erase NIL),
          changed || decide (¬ fsym.erase NIL ⊆ fnt), false, ?_, ?_⟩
        · simp only [firstRhsLoop, if_neg hterm, hpy, hgets, hget,
            if_neg hNIL]
        · rw [List.length_set]
          exact hlen

theorem firstRule_spec (g : Grammar) (hnil : NIL ∉ g.terminals)
    {r : Production} (hr : r ∈ g.rules) (hlhs : r.lhs < g.numNT)
    (hrhs : ∀ s ∈ r.rhs, s ∈ g.terminals ∨ (0 ≤ s ∧ s.toNat < g.numNT)) :
    ∀ (first : List (Finset Int)) (changed : Bool)
      (first' : List (Finset Int)) (changed' : Bool),
      first.length = g.numNT →
      FirstInv g first →
      firstRule g (first, changed) r = some (first', changed') →
      first'.length = g.numNT ∧
      FirstInv g first' ∧
      (∀ k, FAtN first k ⊆ FAtN first' k) ∧
      (changed = true → changed' = true) ∧
      (changed' = false → changed = false ∧ first' = first) ∧
      (changed' = false → RhsClosed g first r.lhs r.rhs) ∧
      (changed' = true → changed = true ∨ sizeSum first < sizeSum first') := by
  intro first changed first' changed' hlen hinv hstep
  unfold firstRule at hstep
  cases hrl : firstRhsLoop g r.lhs r.rhs first changed with
  | none =>
    rw [hrl] at hstep
    cases hstep
  | some out =>
    obtain ⟨⟨first2, changed2⟩, e⟩ := out
    rw [hrl] at hstep
    obtain ⟨hL1, hL2, hL3, hL4, hL5, hL6, hL7, hL8⟩ :=
      firstRhsLoop_spec g hnil r.lhs hlhs r.rhs first changed first2 changed2
        e hrhs hlen hinv (derives_rule hr) hrl
    cases e with
    | false =>
      simp only [if_neg (by exact Bool.false_ne_true : ¬ (false = true))]
        at hstep
      have h3 := Option.some_injective _ hstep
      injection h3 with hf hc
      subst hf
      subst hc
      refine ⟨hL1, hL2, hL3, hL4, hL5, ?_, hL8⟩
      intro h
      exact hL7 h (fun hfe => by cases hfe)
    | true =>
      simp only [if_pos rfl] at hstep
      obtain ⟨fnt2, hget2⟩ : ∃ fnt2, first2.get? r.lhs = some fnt2 := by
        cases hg : first2.get? r.lhs with
        | none =>
          exfalso
          have := List.get?_eq_none.mp hg
          omega
        | some fnt2 => exact ⟨fnt2, rfl⟩
      rw [hget2] at hstep
      have h3 := Option.some_injective _ hstep
      injection h3 with hf hc
      subst hf
      subst hc
      have hder : Derives g [(r.lhs : Int)] [] := hL6 rfl
      refine ⟨?_, ?_, ?_, ?_, ?_, ?_, ?_⟩
      · rw [List.length_set]
        exact hL1
      · apply firstInv_set hget2 hL2
        intro t ht
        rcases Finset.mem_insert.mp ht with h | h
        · subst h
          exact Or.inr (Or.inl ⟨rfl, hder⟩)
        · exact Or.inl h
      · intro k
        exact Finset.Subset.trans (hL3 k)
          (FAtN_set_subset hget2 (Finset.subset_insert _ _) k)
      · intro h
        rw [hL4 h, Bool.true_or]
      · intro h
        rw [Bool.or_eq_false_iff] at h
        obtain ⟨hc2, hf2⟩ := hL5 h.1
        have hin : NIL ∈ fnt2 := not_not.mp (of_decide_eq_false h.2)
        refine ⟨hc2, ?_⟩
        rw [Finset.insert_eq_self.mpr hin, set_of_get?_eq hget2]
        exact hf2
      · intro h
        rw [Bool.or_eq_false_iff] at h
        obtain ⟨hc2, hf2⟩ := hL5 h.1
        have hin : NIL ∈ fnt2 := not_not.mp (of_decide_eq_false h.2)
        apply hL7 h.1
        intro _
        rw [← hf2]
        rw [FAtN_eq hget2] at *
        · exact hin
      · intro h
        by_cases hc2 : changed2 = true
        · rcases hL8 hc2 with h3 | h3
          · exact Or.inl h3
          · right
            have hle2 : sizeSum first2 ≤
                sizeSum (first2.set r.lhs (insert NIL fnt2)) :=
              (sizeSum_set hget2 (Finset.subset_insert _ _)).1
            omega
        · have hc2f : changed2 = false := by
            cases changed2 with
            | false => rfl
            | true => exact absurd rfl hc2
          rw [hc2f, Bool.false_or] at h
          right
          have hnin : NIL ∉ fnt2 := of_decide_eq_true h
          have hne : fnt2 ≠ insert NIL fnt2 := by
            intro heq
            exact hnin (heq ▸ Finset.mem_insert_self NIL fnt2)
          have hstrict :=
            (sizeSum_set hget2 (Finset.subset_insert _ _)).2 hne
          have hle1 : sizeSum first ≤ sizeSum first2 := by
            apply sizeSum_mono
            · rw [hlen, hL1]
            · exact hL3
          omega

theorem firstRule_total (g : Grammar) {r : Production} (hlhs : r.lhs < g.numNT)
    (hrhs : ∀ s ∈ r.rhs, s ∈ g.terminals ∨ (0 ≤ s ∧ s.toNat < g.numNT)) :
    ∀ (first : List (Finset Int)) (changed : Bool),
      first.length = g.numNT →
      ∃ first2 changed2, firstRule g (first, changed) r =
        some (first2, changed2) ∧ first2.length = g.numNT := by
  intro first changed hlen
  obtain ⟨first2, changed2, e, hrl, hlen2⟩ :=
    firstRhsLoop_total g r.lhs hlhs r.rhs first changed hrhs hlen
  cases e with
  | false =>
    refine ⟨first2, changed2, ?_, hlen2⟩
    unfold firstRule
    rw [hrl]
    simp
  | true =>
    obtain ⟨fnt2, hget2⟩ : ∃ fnt2, first2.get? r.lhs = some fnt2 := by
      cases hg : first2.get? r.lhs with
      | none =>
        exfalso
        have := List.get?_eq_none.mp hg
        omega
      | some fnt2 => exact ⟨fnt2, rfl⟩
    refine ⟨first2.set r.lhs (insert NIL fnt2),
      changed2 || decide (NIL ∉ fnt2), ?_, ?_⟩
    · unfold firstRule
      rw [hrl]
      show (match first2.get? r.lhs with
        | none => none
        | some fnt => some (first2.set r.lhs (insert NIL fnt),
            changed2 || decide (NIL ∉ fnt))) = _
      rw [hget2]
    · rw [List.length_set]
      exact hlen2

theorem firstRuleFold_spec (g : Grammar) (hnil : NIL ∉ g.terminals)
    (hwf : ∀ r ∈ g.rules, r.lhs < g.numNT ∧ ∀ s ∈ r.rhs,
      s ∈ g.terminals ∨ (0 ≤ s ∧ s.toNat < g.numNT)) :
    ∀ (rs : List Production), (∀ r ∈ rs, r ∈ g.rules) →
      ∀ (first : List (Finset Int)) (changed : Bool)
        (first' : List (Finset Int)) (changed' : Bool),
        first.length = g.numNT →
        FirstInv g first →
        rs.foldlM (firstRule g) (first, changed) = some (first', changed') →
        first'.length = g.numNT ∧
        FirstInv g first' ∧
        (∀ k, FAtN first k ⊆ FAtN first' k) ∧
        (changed = true → changed' = true) ∧
        (changed' = false → changed = false ∧ first' = first) ∧
        (changed' = false → ∀ r ∈ rs, RhsClosed g first r.lhs r.rhs) ∧
        (changed' = true → changed = true ∨
          sizeSum first < sizeSum first') := by
  intro rs
  induction rs with
  | nil =>
    intro _ first changed first' changed' hlen hinv hfold
    simp only [List.foldlM_nil] at hfold
    have h3 := Option.some_injective _ hfold
    injection h3 with hf hc
    subst hf
    subst hc
    exact ⟨hlen, hinv, fun k x hx => hx, fun h => h, fun h => ⟨h, rfl⟩,
      fun _ r hr => absurd hr (List.not_mem_nil r), fun h => Or.inl h⟩
  | cons r rs' ih =>
    intro hsub first changed first' changed' hlen hinv hfold
    simp only [List.foldlM_cons] at hfold
    have hrg : r ∈ g.rules := hsub r (List.mem_cons_self _ _)
    obtain ⟨hlhs, hrhs⟩ := hwf r hrg
    cases hstep : firstRule g (first, changed) r with
    | none =>
      rw [hstep] at hfold
      simp at hfold
    | some out =>
      obtain ⟨first2, changed2⟩ := out
      rw [hstep] at hfold
      have hfold2 : rs'.foldlM (firstRule g) (first2, changed2) =
          some (first', changed') := by
        simpa using hfold
      obtain ⟨hR1, hR2, hR3, hR4, hR5, hR6, hR7⟩ :=
        firstRule_spec g hnil hrg hlhs hrhs first changed first2 changed2
          hlen hinv hstep
      obtain ⟨hF1, hF2, hF3, hF4, hF5, hF6, hF7⟩ :=
        ih (fun r2 hr2 => hsub r2 (List.mem_cons_of_mem _ hr2))
          first2 changed2 first' changed' hR1 hR2 hfold2
      refine ⟨hF1, hF2, fun k => Finset.Subset.trans (hR3 k) (hF3 k),
        fun h => hF4 (hR4 h), ?_, ?_, ?_⟩
      · intro h
        obtain ⟨hc2, hfeq2⟩ := hF5 h
        obtain ⟨hc1, hfeq1⟩ := hR5 hc2
        exact ⟨hc1, hfeq2.trans hfeq1⟩
      · intro h r2 hr2
        obtain ⟨hc2, hfeq2⟩ := hF5 h
        obtain ⟨hc1, hfeq1⟩ := hR5 hc2
        rcases List.mem_cons.mp hr2 with he | hm
        · subst he
          exact hR6 hc2
        · have := hF6 h r2 hm
          rw [hfeq1] at this
          exact this
      · intro h
        rcases hF7 h with h2 | h2
        · rcases hR7 h2 with h3 | h3
          · exact Or.inl h3
          · right
            have : sizeSum first2 ≤ sizeSum first' := by
              apply sizeSum_mono
              · rw [hR1, hF1]
              · exact hF3
            omega
        · right
          have : sizeSum first ≤ sizeSum first2 := by
            apply sizeSum_mono
            · rw [hlen, hR1]
            · exact hR3
          omega

theorem firstRuleFold_total (g : Grammar)
    (hwf : ∀ r ∈ g.rules, r.lhs < g.numNT ∧ ∀ s ∈ r.rhs,
      s ∈ g.terminals ∨ (0 ≤ s ∧ s.toNat < g.numNT)) :
    ∀ (rs : List Production), (∀ r ∈ rs, r ∈ g.rules) →
      ∀ (first : List (Finset Int)) (changed : Bool),
        first.length = g.numNT →
        ∃ first' changed', rs.foldlM (firstRule g) (first, changed) =
          some (first', changed') ∧ first'.length = g.numNT := by
  intro rs
  induction rs with
  | nil =>
    intro _ first changed hlen
    exact ⟨first, changed, rfl, hlen⟩
  | cons r rs' ih =>
    intro hsub first changed hlen
    have hrg : r ∈ g.rules := hsub r (List.mem_cons_self _ _)
    obtain ⟨hlhs, hrhs⟩ := hwf r hrg
    obtain ⟨first2, changed2, hstep, hlen2⟩ :=
      firstRule_total g hlhs hrhs first changed hlen
    obtain ⟨first', changed', hfold, hlen'⟩ :=
      ih (fun r2 hr2 => hsub r2 (List.mem_cons_of_mem _ hr2))
        first2 changed2 hlen2
    refine ⟨first', changed', ?_, hlen'⟩
    simp only [List.foldlM_cons, hstep]
    simpa using hfold

theorem firstIter_spec (g : Grammar) (hnil : NIL ∉ g.terminals)
    (hwf : ∀ r ∈ g.rules, r.lhs < g.numNT ∧ ∀ s ∈ r.rhs,
      s ∈ g.terminals ∨ (0 ≤ s ∧ s.toNat < g.numNT)) :
    ∀ (fuel : Nat) (first first' : List (Finset Int)),
      first.length = g.numNT → FirstInv g first →
      firstIter g fuel first = some first' →
      first'.length = g.numNT ∧ FirstInv g first' ∧
      ∀ r ∈ g.rules, RhsClosed g first' r.lhs r.rhs := by
  intro fuel
  induction fuel with
  | zero =>
    intro first first' _ _ hloop
    cases hloop
  | succ fuel ih =>
    intro first first' hlen hinv hloop
    simp only [firstIter] at hloop
    cases hp : firstPass g first with
    | none =>
      rw [hp] at hloop
      cases hloop
    | some out =>
      obtain ⟨first2, changed⟩ := out
      rw [hp] at hloop
      unfold firstPass at hp
      obtain ⟨hF1, hF2, hF3, hF4, hF5, hF6, hF7⟩ :=
        firstRuleFold_spec g hnil hwf g.rules (fun r hr => hr) first false
          first2 changed hlen hinv hp
      cases changed with
      | false =>
        simp only [if_neg (by exact Bool.false_ne_true : ¬ (false = true))]
          at hloop
        have hfe : first2 = first' := Option.some_injective _ hloop
        obtain ⟨_, hfeq⟩ := hF5 rfl
        have hclosed := hF6 rfl
        subst hfe
        rw [hfeq]
        exact ⟨hlen, hinv, hclosed⟩
      | true =>
        simp only [if_pos rfl] at hloop
        exact ih first2 first' hF1 hF2 hloop

theorem firstIter_total (g : Grammar) (hnil : NIL ∉ g.terminals)
    (hwf : ∀ r ∈ g.rules, r.lhs < g.numNT ∧ ∀ s ∈ r.rhs,
      s ∈ g.terminals ∨ (0 ≤ s ∧ s.toNat < g.numNT)) :
    ∀ (fuel : Nat) (first : List (Finset Int)),
      first.length = g.numNT → FirstInv g first →
      g.numNT * (g.terminals.card + 1) + 1 ≤ fuel + sizeSum first →
      ∃ first', firstIter g fuel first = some first' := by
  intro fuel
  induction fuel with
  | zero =>
    intro first hlen hinv hfuel
    exfalso
    have hbound : sizeSum first ≤ g.numNT * (insert NIL g.terminals).card := by
      apply sizeSum_bound g.numNT (insert NIL g.terminals) first hlen
      intro fs hfs
      obtain ⟨k, hk⟩ := List.get?_of_mem hfs
      intro t ht
      rcases hinv k fs hk t ht with ⟨hNIL, _⟩ | ⟨htt, _⟩
      · rw [hNIL]
        exact Finset.mem_insert_self _ _
      · exact Finset.mem_insert_of_mem htt
    have hcard : (insert NIL g.terminals).card ≤ g.terminals.card + 1 :=
      Finset.card_insert_le _ _
    have : g.numNT * (insert NIL g.terminals).card ≤
        g.numNT * (g.terminals.card + 1) := Nat.mul_le_mul_left _ hcard
    omega
  | succ fuel ih =>
    intro first hlen hinv hfuel
    obtain ⟨first2, changed, hp, hlen2⟩ :=
      firstRuleFold_total g hwf g.rules (fun r hr => hr) first false hlen
    have hpass : firstPass g first = some (first2, changed) := hp
    obtain ⟨hF1, hF2, hF3, hF4, hF5, hF6, hF7⟩ :=
      firstRuleFold_spec g hnil hwf g.rules (fun r hr => hr) first false
        first2 changed hlen hinv hp
    cases changed with
    | false =>
      refine ⟨first2, ?_⟩
      simp only [firstIter, hpass]
      simp
    | true =>
      have hstrict : sizeSum first < sizeSum first2 := by
        rcases hF7 rfl with h | h
        · cases h
        · exact h
      obtain ⟨first', hrec⟩ := ih first2 hF1 hF2 (by omega)
      refine ⟨first', ?_⟩
      simp only [firstIter, hpass]
      simpa using hrec

/- ---- completeness of the computed FIRST sets ---- -/

/-- A symbol string derives ε according to a FIRST map: every symbol is a
non-terminal whose set holds NIL. -/
def NullableSeq (g : Grammar) (first : List (Finset Int)) : List Int → Prop
  | [] => True
  | s :: rest => s ∉ g.terminals ∧ NIL ∈ FAt first s ∧
      NullableSeq g first rest

/-- Terminal `t` is predicted for a symbol string by a FIRST map, scanning
over nullable non-terminals. -/
def FirstSeqMem (g : Grammar) (first : List (Finset Int)) (t : Int) :
    List Int → Prop
  | [] => False
  | s :: rest => (s ∈ g.terminals ∧ t = s) ∨
      (s ∉ g.terminals ∧ ((t ∈ FAt first s ∧ t ≠ NIL) ∨
        (NIL ∈ FAt first s ∧ FirstSeqMem g first t rest)))

theorem nullableSeq_append {g : Grammar} {first : List (Finset Int)} :
    ∀ {x y : List Int}, NullableSeq g first (x ++ y) ↔
      NullableSeq g first x ∧ NullableSeq g first y := by
  intro x
  induction x with
  | nil =>
    intro y
    show NullableSeq g first y ↔ True ∧ NullableSeq g first y
    tauto
  | cons s rest ih =>
    intro y
    show (s ∉ g.terminals ∧ NIL ∈ FAt first s ∧
        NullableSeq g first (rest ++ y)) ↔
      (s ∉ g.terminals ∧ NIL ∈ FAt first s ∧ NullableSeq g first rest) ∧ _
    rw [ih]
    tauto

theorem firstSeqMem_append {g : Grammar} {first : List (Finset Int)}
    {t : Int} : ∀ {x y : List Int}, FirstSeqMem g first t (x ++ y) ↔
      FirstSeqMem g first t x ∨
        (NullableSeq g first x ∧ FirstSeqMem g first t y) := by
  intro x
  induction x with
  | nil =>
    intro y
    show FirstSeqMem g first t y ↔ False ∨ (True ∧ FirstSeqMem g first t y)
    tauto
  | cons s rest ih =>
    intro y
    show ((s ∈ g.terminals ∧ t = s) ∨
        (s ∉ g.terminals ∧ ((t ∈ FAt first s ∧ t ≠ NIL) ∨
          (NIL ∈ FAt first s ∧ FirstSeqMem g first t (rest ++ y))))) ↔
      (((s ∈ g.terminals ∧ t = s) ∨
        (s ∉ g.terminals ∧ ((t ∈ FAt first s ∧ t ≠ NIL) ∨
          (NIL ∈ FAt first s ∧ FirstSeqMem g first t rest)))) ∨
      ((s ∉ g.terminals ∧ NIL ∈ FAt first s ∧ NullableSeq g first rest) ∧
        FirstSeqMem g first t y))
    rw [ih]
    tauto

theorem rhsClosed_null {g : Grammar} {first : List (Finset Int)} {nt : Nat} :
    ∀ {syms : List Int}, RhsClosed g first nt syms →
      NullableSeq g first syms → NIL ∈ FAtN first nt := by
  intro syms
  induction syms with
  | nil =>
    intro hc _
    exact hc
  | cons s rest ih =>
    intro hc hn
    obtain ⟨hs, hN, hrest⟩ := hn
    exact ih ((hc.2 hs).2 hN) hrest

theorem rhsClosed_first {g : Grammar} {first : List (Finset Int)} {nt : Nat}
    {t : Int} : ∀ {syms : List Int}, RhsClosed g first nt syms →
      FirstSeqMem g first t syms → t ∈ FAtN first nt := by
  intro syms
  induction syms with
  | nil =>
    intro _ hm
    exact hm.elim
  | cons s rest ih =>
    intro hc hm
    rcases hm with ⟨hst, hte⟩ | ⟨hs, inner⟩
    · rw [hte]
      exact hc.1 hst
    · rcases inner with ⟨htm, htne⟩ | ⟨hN, hrest⟩
      · exact (hc.2 hs).1 t htm htne
      · exact ih ((hc.2 hs).2 hN) hrest

theorem FAt_natCast (first : List (Finset Int)) (N : Nat) :
    FAt first (N : Int) = FAtN first N := by
  unfold FAt
  rw [if_pos (Int.natCast_nonneg _)]
  congr 1

theorem step_transfer (g : Grammar) (first : List (Finset Int))
    (hwf : ∀ r ∈ g.rules, r.lhs < g.numNT ∧ ∀ s ∈ r.rhs,
      s ∈ g.terminals ∨ (0 ≤ s ∧ s.toNat < g.numNT))
    (hdisj : ∀ t ∈ g.terminals, ¬(0 ≤ t ∧ t.toNat < g.numNT))
    (hclosed : ∀ r ∈ g.rules, RhsClosed g first r.lhs r.rhs)
    {γ γ2 : List Int} (hstep : DStep g γ γ2) :
    (NullableSeq g first γ2 → NullableSeq g first γ) ∧
    (∀ t, t ≠ NIL → FirstSeqMem g first t γ2 → FirstSeqMem g first t γ) := by
  obtain ⟨x, y, r, hr, hga, hgb⟩ := hstep
  subst hga
  subst hgb
  obtain ⟨hlhs, _⟩ := hwf r hr
  have hLnt : (r.lhs : Int) ∉ g.terminals := by
    intro hmem
    exact hdisj _ hmem ⟨Int.natCast_nonneg _, by simpa using hlhs⟩
  have hLF : FAt first (r.lhs : Int) = FAtN first r.lhs :=
    FAt_natCast first r.lhs
  have hclr := hclosed r hr
  constructor
  · intro hnull
    rw [nullableSeq_append, nullableSeq_append] at hnull
    obtain ⟨⟨hx, hrhs⟩, hy⟩ := hnull
    rw [nullableSeq_append]
    refine ⟨hx, ?_⟩
    show (r.lhs : Int) ∉ g.terminals ∧ NIL ∈ FAt first (r.lhs : Int) ∧
      NullableSeq g first y
    refine ⟨hLnt, ?_, hy⟩
    rw [hLF]
    exact rhsClosed_null hclr hrhs
  · intro t htne hmem
    rw [firstSeqMem_append] at hmem
    rw [firstSeqMem_append]
    rcases hmem with hx | ⟨hnx, hy2⟩
    · rw [firstSeqMem_append] at hx
      rcases hx with hxx | ⟨hnxx, hrhs⟩
      · exact Or.inl hxx
      · right
        refine ⟨hnxx, ?_⟩
        show ((r.lhs : Int) ∈ g.terminals ∧ t = (r.lhs : Int)) ∨
          ((r.lhs : Int) ∉ g.terminals ∧
            ((t ∈ FAt first (r.lhs : Int) ∧ t ≠ NIL) ∨
              (NIL ∈ FAt first (r.lhs : Int) ∧ FirstSeqMem g first t y)))
        refine Or.inr ⟨hLnt, Or.inl ⟨?_, htne⟩⟩
        rw [hLF]
        exact rhsClosed_first hclr hrhs
    · rw [nullableSeq_append] at hnx
      right
      refine ⟨hnx.1, ?_⟩
      show ((r.lhs : Int) ∈ g.terminals ∧ t = (r.lhs : Int)) ∨
        ((r.lhs : Int) ∉ g.terminals ∧
          ((t ∈ FAt first (r.lhs : Int) ∧ t ≠ NIL) ∨
            (NIL ∈ FAt first (r.lhs : Int) ∧ FirstSeqMem g first t y)))
      refine Or.inr ⟨hLnt, Or.inr ⟨?_, hy2⟩⟩
      rw [hLF]
      exact rhsClosed_null hclr hnx.2

theorem derives_transfer (g : Grammar) (first : List (Finset Int))
    (hwf : ∀ r ∈ g.rules, r.lhs < g.numNT ∧ ∀ s ∈ r.rhs,
      s ∈ g.terminals ∨ (0 ≤ s ∧ s.toNat < g.numNT))
    (hdisj : ∀ t ∈ g.terminals, ¬(0 ≤ t ∧ t.toNat < g.numNT))
    (hclosed : ∀ r ∈ g.rules, RhsClosed g first r.lhs r.rhs)
    {γ δ : List Int} (hd : Derives g γ δ) :
    (NullableSeq g first δ → NullableSeq g first γ) ∧
    (∀ t, t ≠ NIL → FirstSeqMem g first t δ → FirstSeqMem g first t γ) := by
  induction hd using Relation.ReflTransGen.head_induction_on with
  | refl => exact ⟨fun h => h, fun _ _ h => h⟩
  | head hstep _ ihs =>
    obtain ⟨h1, h2⟩ := step_transfer g first hwf hdisj hclosed hstep
    exact ⟨fun h => h1 (ihs.1 h), fun t htne h => h2 t htne (ihs.2 t htne h)⟩

theorem sizeSum_replicate_empty : ∀ n : Nat,
    sizeSum (List.replicate n (∅ : Finset Int)) = 0 := by
  intro n
  induction n with
  | zero => rfl
  | succ n ih =>
    rw [List.replicate_succ]
    show (∅ : Finset Int).card + sizeSum (List.replicate n ∅) = 0
    rw [Finset.card_empty, ih]

/-- C5: for every grammar over the program's symbol conventions (allocated
disjoint terminal/non-terminal ids, NIL reserved), whenever the fixpoint
iteration of compute_first_map returns, the set stored for a non-terminal N
holds a terminal t exactly when N derives a string starting with t, holds
NIL exactly when N derives the empty string, and holds nothing else; and
the iteration terminates within numNT * (card terminals + 1) + 1 passes
because the sets grow monotonically in a finite universe. -/
theorem c5_compute_first_map_correct (g : Grammar)
    (hwf : ∀ r ∈ g.rules, r.lhs < g.numNT ∧ ∀ s ∈ r.rhs,
      s ∈ g.terminals ∨ (0 ≤ s ∧ s.toNat < g.numNT))
    (hdisj : ∀ t ∈ g.terminals, ¬(0 ≤ t ∧ t.toNat < g.numNT))
    (hnil : NIL ∉ g.terminals) :
    (∀ fuel first, compute_first_map g fuel = some first →
      ∀ N, N < g.numNT →
        (∀ t, t ∈ g.terminals →
          (t ∈ FAtN first N ↔ ∃ α, Derives g [(N : Int)] (t :: α))) ∧
        (NIL ∈ FAtN first N ↔ Derives g [(N : Int)] []) ∧
        (∀ x ∈ FAtN first N, x ∈ g.terminals ∨ x = NIL)) ∧
    ∃ first, compute_first_map g (g.numNT * (g.terminals.card + 1) + 1) =
      some first := by
  have hInvInit : FirstInv g (List.replicate g.numNT ∅) := by
    intro N fs hget t ht
    have hfs : fs = ∅ := List.eq_of_mem_replicate (List.get?_mem hget)
    rw [hfs] at ht
    exact absurd ht (Finset.not_mem_empty t)
  have hlenInit : (List.replicate g.numNT (∅ : Finset Int)).length =
      g.numNT := List.length_replicate _ _
  constructor
  · intro fuel first hrun N hN
    unfold compute_first_map at hrun
    obtain ⟨hlen', hinv', hclosed'⟩ :=
      firstIter_spec g hnil hwf fuel _ first hlenInit hInvInit hrun
    obtain ⟨fs, hget⟩ : ∃ fs, first.get? N = some fs := by
      cases hg : first.get? N with
      | none =>
        exfalso
        have := List.get?_eq_none.mp hg
        omega
      | some fs => exact ⟨fs, rfl⟩
    have hFA : FAtN first N = fs := FAtN_eq hget
    have hNnt : (N : Int) ∉ g.terminals := by
      intro hmem
      exact hdisj _ hmem ⟨Int.natCast_nonneg _, by simpa using hN⟩
    refine ⟨?_, ?_, ?_⟩
    · intro t htterm
      constructor
      · intro htm
        rw [hFA] at htm
        rcases hinv' N fs hget t htm with ⟨hte, _⟩ | ⟨_, α, hda⟩
        · exact absurd (hte ▸ htterm) hnil
        · exact ⟨α, hda⟩
      · rintro ⟨α, hda⟩
        have htne : t ≠ NIL := fun he => hnil (he ▸ htterm)
        have hmem0 : FirstSeqMem g first t (t :: α) := Or.inl ⟨htterm, rfl⟩
        have hres := (derives_transfer g first hwf hdisj hclosed' hda).2
          t htne hmem0
        have hres2 : ((N : Int) ∈ g.terminals ∧ t = (N : Int)) ∨
            ((N : Int) ∉ g.terminals ∧
              ((t ∈ FAt first (N : Int) ∧ t ≠ NIL) ∨
                (NIL ∈ FAt first (N : Int) ∧ False))) := hres
        rcases hres2 with ⟨hNt, _⟩ | ⟨_, inner⟩
        · exact absurd hNt hNnt
        · rcases inner with ⟨htm, _⟩ | ⟨_, hf⟩
          · rw [FAt_natCast] at htm
            exact htm
          · exact hf.elim
    · constructor
      · intro hNILm
        rw [hFA] at hNILm
        rcases hinv' N fs hget NIL hNILm with ⟨_, hd⟩ | ⟨hNt, _⟩
        · exact hd
        · exact absurd hNt hnil
      · intro hda
        have hres := (derives_transfer g first hwf hdisj hclosed' hda).1
          trivial
        have hres2 : (N : Int) ∉ g.terminals ∧
            NIL ∈ FAt first (N : Int) ∧ True := hres
        rw [FAt_natCast] at hres2
        exact hres2.2.1
    · intro x hx
      rw [hFA] at hx
      rcases hinv' N fs hget x hx with ⟨he, _⟩ | ⟨ht, _⟩
      · exact Or.inr he
      · exact Or.inl ht
  · have hsz := sizeSum_replicate_empty g.numNT
    obtain ⟨first, hit⟩ := firstIter_total g hnil hwf
      (g.numNT * (g.terminals.card + 1) + 1) _ hlenInit hInvInit (by omega)
    exact ⟨first, hit⟩

/-- Witness grammar for C5: terminal -3; rules GOAL → N1, N1 → -3, N1 → ε. -/
def gC5W : Grammar := ⟨{-3}, 2, [⟨0, 0, [1]⟩, ⟨1, 1, [-3]⟩, ⟨2, 1, []⟩]⟩

/-- C5 witness: the hypotheses hold for a concrete small grammar. -/
theorem c5_witness :
    (∀ fuel first, compute_first_map gC5W fuel = some first →
      ∀ N, N < gC5W.numNT →
        (∀ t, t ∈ gC5W.terminals →
          (t ∈ FAtN first N ↔ ∃ α, Derives gC5W [(N : Int)] (t :: α))) ∧
        (NIL ∈ FAtN first N ↔ Derives gC5W [(N : Int)] []) ∧
        (∀ x ∈ FAtN first N, x ∈ gC5W.terminals ∨ x = NIL)) ∧
    ∃ first, compute_first_map gC5W
      (gC5W.numNT * (gC5W.terminals.card + 1) + 1) = some first :=
  c5_compute_first_map_correct gC5W (by decide) (by decide) (by decide)

/- ========== parsergen.py ParserGenerator.generate / closure (C7) ========= -/

/-- Modelled from the spec: parser.py is not under src/.  The action-kind
constants are pinned by the generated TABLE in regexpr.py: SHIFT cells are
keyed by terminals and have kind 0, REDUCE cells kind 1, the single ACCEPT
cell is (3, -1): (2, 0), and GOTO cells are keyed by non-terminals with
kind 3. -/
def SHIFT : Nat := 0

/-- Modelled from the spec (see SHIFT): REDUCE action kind. -/
def REDUCE : Nat := 1

/-- Modelled from the spec (see SHIFT): ACCEPT action kind. -/
def ACCEPT : Nat := 2

/-- Modelled from the spec (see SHIFT): GOTO action kind. -/
def GOTO : Nat := 3

/-- parsergen.py Item: an LR(1) item [A -> X . Y, a]. -/
structure Item where
  rule : Production
  cursor : Nat
  lookahead : Int
  deriving DecidableEq

/-- Item.has_successor: the cursor has not reached the end of the RHS. -/
def Item.has_successor (it : Item) : Bool :=
  decide (it.cursor < it.rule.rhs.length)

/-- Item.get_successor: the same item with the cursor shifted right. -/
def Item.get_successor (it : Item) : Item :=
  ⟨it.rule, it.cursor + 1, it.lookahead⟩

/-- Item.get_locus: the RHS symbol at the cursor; `none` is the IndexError
Python would raise, though every call site guards with has_successor. -/
def Item.get_locus (it : Item) : Option Int :=
  it.rule.rhs.get? it.cursor

theorem has_successor_iff (it : Item) :
    it.has_successor = true ↔ it.cursor < it.rule.rhs.length := by
  simp [Item.has_successor]

/-- Python `defaultdict(set)` update `tbl[key].add(entry)`: an association
list with duplicate-free value lists. -/
def setAdd {κ ε : Type} [DecidableEq κ] [DecidableEq ε]
    (tbl : List (κ × List ε)) (key : κ) (entry : ε) : List (κ × List ε) :=
  if tbl.any (fun e => decide (e.1 = key)) then
    tbl.map (fun e => if e.1 = key then
      (e.1, if entry ∈ e.2 then e.2 else e.2 ++ [entry]) else e)
  else tbl ++ [(key, [entry])]

/-- Python `defaultdict(list)` update `tbl[key].append(entry)`: an
association list whose value lists keep duplicates and order. -/
def listAdd {κ ε : Type} [DecidableEq κ]
    (tbl : List (κ × List ε)) (key : κ) (entry : ε) : List (κ × List ε) :=
  if tbl.any (fun e => decide (e.1 = key)) then
    tbl.map (fun e => if e.1 = key then (e.1, e.2 ++ [entry]) else e)
  else tbl ++ [(key, [entry])]

/-- Python `set.add` on a set embedded as an insertion-ordered
duplicate-free list. -/
def linsert (l : List Int) (x : Int) : List Int :=
  if x ∈ l then l else l ++ [x]

/-- Inner `while item.has_successor()` loop of parsergen.py closure
(L305-320): accumulates the FOLLOW set of the RHS suffix after the locus of
the enclosing item.  In the table generator the FIRST map and the follow
set are embedded as lists of duplicate-free lists, making the Python set
iteration order explicit (the order only permutes the closure kernel).
Returns (follow, empty); `none` is a Python IndexError from
`first[symbol]` (negative indices via `pyGet`) or exhausted fuel (the
callers pass enough fuel for the cursor to reach the end of the RHS). -/
def followLoop (g : Grammar) (first : List (List Int)) :
    Nat → Item → List Int → Option (List Int × Bool)
  | 0, _, _ => none
  | fuel+1, item, follow =>
    if item.has_successor then
      match item.get_locus with
      | none => none
      | some symbol =>
        if symbol ∈ g.terminals then some (linsert follow symbol, false)
        else
          match pyGet first symbol with
          | none => none
          | some fsym =>
            let follow2 := fsym.foldl
              (fun acc t => if t = NIL then acc else linsert acc t) follow
            if NIL ∈ fsym then
              followLoop g first fuel item.get_successor follow2
            else some (follow2, false)
    else some (follow, true)

/-- `while len(kernel) > 0` loop of parsergen.py closure (L289-328).  The
Python set `state` (and the returned frozenset) is embedded as an
insertion-ordered duplicate-free list; `kernel.pop()` pops the last
element.  The `non_terminal not in non_terminals` test is the spec's
allocator membership 0 ≤ s < numNT.  `none` is exhausted fuel or an
IndexError inside the FOLLOW computation. -/
def closureLoop (g : Grammar) (first : List (List Int)) :
    Nat → List Item → List Item → Option (List Item)
  | 0, _, _ => none
  | fuel+1, kernel, state =>
    match kernel.reverse with
    | [] => some state
    | item :: restRev =>
      let rest := restRev.reverse
      if item ∈ state then closureLoop g first fuel rest state
      else
        let state2 := state ++ [item]
        if item.has_successor then
          match item.get_locus with
          | none => none
          | some nonTerminal =>
            if 0 ≤ nonTerminal ∧ nonTerminal.toNat < g.numNT then
              match followLoop g first (item.rule.rhs.length + 1)
                  item.get_successor [] with
              | none => none
              | some (follow, empty) =>
                let follow2 :=
                  if empty then linsert follow item.lookahead else follow
                let adds := g.rules.foldl (fun acc r =>
                  if (r.lhs : Int) = nonTerminal then
                    acc ++ follow2.map (fun sym => (⟨r, 0, sym⟩ : Item))
                  else acc) []
                closureLoop g first fuel (rest ++ adds) state2
            else closureLoop g first fuel rest state2
        else closureLoop g first fuel rest state2

/-- parsergen.py ParserGenerator.closure (L272-330): the LR(1) closure of a
kernel, starting from an empty state set. -/
def closure (g : Grammar) (first : List (List Int)) (fuel : Nat)
    (kernel : List Item) : Option (List Item) :=
  closureLoop g first fuel kernel []

/-- Action payload of a table cell before simplify_table: a production index
(REDUCE/ACCEPT) or a successor state (SHIFT/GOTO). -/
inductive AData where
  | prod (idx : Nat)
  | next (st : List Item)
  deriving DecidableEq

/-- Body of generate's `for item in state` loop (L259-263): an item with a
successor records it in the transition map under its locus; a completed item
emits REDUCE, or ACCEPT when its LHS is GOAL, keyed by its lookahead. -/
def genItemStep (state : List Item)
    (acc : List ((List Item × Int) × List (Nat × AData)) ×
      List (Int × List Item)) (item : Item) :
    Option (List ((List Item × Int) × List (Nat × AData)) ×
      List (Int × List Item)) :=
  if item.has_successor then
    match item.get_locus with
    | none => none
    | some locus => some (acc.1, listAdd acc.2 locus item.get_successor)
  else
    some (setAdd acc.1 (state, item.lookahead)
      ((if (item.rule.lhs : Int) = GOAL then ACCEPT else REDUCE),
        AData.prod item.rule.index), acc.2)

/-- Body of generate's `for symbol, kernel in transitions.items()` loop
(L264-267): close the kernel, enqueue the next state, and emit SHIFT for a
terminal symbol or GOTO otherwise. -/
def genTransStep (g : Grammar) (first : List (List Int)) (cfuel : Nat)
    (state : List Item)
    (acc : List ((List Item × Int) × List (Nat × AData)) ×
      List (List Item)) (e : Int × List Item) :
    Option (List ((List Item × Int) × List (Nat × AData)) ×
      List (List Item)) :=
  match closure g first cfuel e.2 with
  | none => none
  | some nextState =>
    some (setAdd acc.1 (state, e.1)
      ((if e.1 ∈ g.terminals then SHIFT else GOTO), AData.next nextState),
      acc.2 ++ [nextState])

/-- `while len(frontier) > 0` loop of parsergen.py generate (L250-267).
`frontier.pop()` pops the last element; the explored set is an
insertion-ordered duplicate-free list.  `none` is exhausted fuel or a
failure below. -/
def genLoop (g : Grammar) (first : List (List Int)) (cfuel : Nat) :
    Nat → List (List Item) → List (List Item) →
    List ((List Item × Int) × List (Nat × AData)) →
    Option (List ((List Item × Int) × List (Nat × AData)))
  | 0, _, _, _ => none
  | fuel+1, frontier, explored, table =>
    match frontier.reverse with
    | [] => some table
    | state :: restRev =>
      let rest := restRev.reverse
      if state ∈ explored then genLoop g first cfuel fuel rest explored table
      else
        match state.foldlM (genItemStep state)
            (table, ([] : List (Int × List Item))) with
        | none => none
        | some (table2, transitions) =>
          match transitions.foldlM (genTransStep g first cfuel state)
              (table2, rest) with
          | none => none
          | some (table3, frontier2) =>
            genLoop g first cfuel fuel frontier2 (explored ++ [state]) table3

/-- get_id of parsergen.py simplify_table (L213-218): dictionary lookup
aligned with a fresh-id counter. -/
def getId (ids : List (List Item × Nat)) (cnt : Nat) (st : List Item) :
    Nat × List (List Item × Nat) × Nat :=
  match ids.find? (fun e => decide (e.1 = st)) with
  | some e => (e.2, ids, cnt)
  | none => (cnt, ids ++ [(st, cnt)], cnt + 1)

/-- Body of simplify_table's `for action, data in actions` loop (L224-228):
SHIFT/GOTO payloads are renamed through get_id, REDUCE/ACCEPT payloads are
kept; a payload shape that cannot arise from generate falls through the
source's if/elif chain untouched. -/
def simpEntryStep (pos : Nat × Int)
    (acc : List ((Nat × Int) × List (Nat × Nat)) ×
      List (List Item × Nat) × Nat) (entry : Nat × AData) :
    List ((Nat × Int) × List (Nat × Nat)) × List (List Item × Nat) × Nat :=
  if entry.1 = SHIFT ∨ entry.1 = GOTO then
    match entry.2 with
    | AData.next st =>
      let r := getId acc.2.1 acc.2.2 st
      (setAdd acc.1 pos (entry.1, r.1), r.2)
    | AData.prod _ => acc
  else if entry.1 = REDUCE ∨ entry.1 = ACCEPT then
    match entry.2 with
    | AData.prod idx => (setAdd acc.1 pos (entry.1, idx), acc.2)
    | AData.next _ => acc
  else acc

/-- Body of simplify_table's `for (state, symbol), actions in table.items()`
loop (L222-228): rename the row's state through get_id, then process its
actions. -/
def simpRowStep
    (acc : List ((Nat × Int) × List (Nat × Nat)) ×
      List (List Item × Nat) × Nat)
    (row : (List Item × Int) × List (Nat × AData)) :
    List ((Nat × Int) × List (Nat × Nat)) × List (List Item × Nat) × Nat :=
  let r := getId acc.2.1 acc.2.2 row.1.1
  row.2.foldl (simpEntryStep (r.1, row.1.2)) (acc.1, r.2)

/-- parsergen.py ParserGenerator.simplify_table (L196-230): replace the
item-set states by integer IDs, the initial state taking 0. -/
def simplify_table
    (table : List ((List Item × Int) × List (Nat × AData)))
    (initialState : List Item) : List ((Nat × Int) × List (Nat × Nat)) :=
  (table.foldl simpRowStep ([], [(initialState, 0)], 1)).1

/-- parsergen.py ParserGenerator.generate (L233-269): build the canonical
LR(1) collection from the closure of [rules[0] at cursor 0 with lookahead
END] and return the simplified table.  `none` is a Python IndexError (no
rules), a failure inside closure, or exhausted fuel. -/
def generate (g : Grammar) (first : List (List Int))
    (cfuel gfuel : Nat) : Option (List ((Nat × Int) × List (Nat × Nat))) :=
  match g.rules.get? 0 with
  | none => none
  | some r0 =>
    match closure g first cfuel [⟨r0, 0, END⟩] with
    | none => none
    | some initialState =>
      match genLoop g first cfuel gfuel [initialState] [] [] with
      | none => none
      | some table => some (simplify_table table initialState)

/- ---- the ACCEPT-cell invariant ---- -/

/-- Invariant carried by every LR(1) item in the computation: its rule is a
grammar rule, and an item whose LHS is GOAL carries the END lookahead. -/
abbrev ItemOK (g : Grammar) (it : Item) : Prop :=
  it.rule ∈ g.rules ∧ ((it.rule.lhs : Int) = GOAL → it.lookahead = END)

/-- Invariant of one table cell entry: an ACCEPT action is keyed END and
carries production index 0. -/
abbrev CellOK (key : List Item × Int) (e : Nat × AData) : Prop :=
  e.1 = ACCEPT → key.2 = END ∧ e.2 = AData.prod 0

/-- Invariant of the unsimplified table. -/
abbrev TblOK (tbl : List ((List Item × Int) × List (Nat × AData))) : Prop :=
  ∀ row ∈ tbl, ∀ e ∈ row.2, CellOK row.1 e

/-- Invariant of the simplified table: C7's property. -/
abbrev SimpOK (tbl : List ((Nat × Int) × List (Nat × Nat))) : Prop :=
  ∀ row ∈ tbl, ∀ e ∈ row.2, e.1 = ACCEPT → row.1.2 = END ∧ e.2 = 0

theorem setAdd_forall {κ ε : Type} [DecidableEq κ] [DecidableEq ε]
    (P : κ → ε → Prop) {tbl : List (κ × List ε)} {key : κ} {entry : ε}
    (h : ∀ row ∈ tbl, ∀ e ∈ row.2, P row.1 e) (he : P key entry) :
    ∀ row ∈ setAdd tbl key entry, ∀ e ∈ row.2, P row.1 e := by
  unfold setAdd
  by_cases hany : tbl.any (fun e => decide (e.1 = key)) = true
  · rw [if_pos hany]
    intro row hrow e hee
    obtain ⟨row0, hrow0, hmap⟩ := List.mem_map.mp hrow
    have hmap2 : (if row0.1 = key then
        (row0.1, if entry ∈ row0.2 then row0.2 else row0.2 ++ [entry])
      else row0) = row := hmap
    by_cases hk : row0.1 = key
    · rw [if_pos hk] at hmap2
      subst hmap2
      have hee2 : e ∈ (if entry ∈ row0.2 then row0.2
          else row0.2 ++ [entry]) := hee
      show P row0.1 e
      by_cases hm : entry ∈ row0.2
      · rw [if_pos hm] at hee2
        exact h row0 hrow0 e hee2
      · rw [if_neg hm] at hee2
        rcases List.mem_append.mp hee2 with h1 | h1
        · exact h row0 hrow0 e h1
        · rw [List.mem_singleton.mp h1, hk]
          exact he
    · rw [if_neg hk] at hmap2
      subst hmap2
      exact h row0 hrow0 e hee
  · rw [if_neg hany]
    intro row hrow e hee
    rcases List.mem_append.mp hrow with h1 | h1
    · exact h row h1 e hee
    · have h2 := List.mem_singleton.mp h1
      subst h2
      have hee2 : e ∈ [entry] := hee
      show P key e
      rw [List.mem_singleton.mp hee2]
      exact he

theorem listAdd_forall {κ ε : Type} [DecidableEq κ] (Q : ε → Prop)
    {tbl : List (κ × List ε)} {key : κ} {entry : ε}
    (h : ∀ row ∈ tbl, ∀ e ∈ row.2, Q e) (he : Q entry) :
    ∀ row ∈ listAdd tbl key entry, ∀ e ∈ row.2, Q e := by
  unfold listAdd
  by_cases hany : tbl.any (fun e => decide (e.1 = key)) = true
  · rw [if_pos hany]
    intro row hrow e hee
    obtain ⟨row0, hrow0, hmap⟩ := List.mem_map.mp hrow
    have hmap2 : (if row0.1 = key then (row0.1, row0.2 ++ [entry])
      else row0) = row := hmap
    by_cases hk : row0.1 = key
    · rw [if_pos hk] at hmap2
      subst hmap2
      have hee2 : e ∈ row0.2 ++ [entry] := hee
      rcases List.mem_append.mp hee2 with h1 | h1
      · exact h row0 hrow0 e h1
      · rw [List.mem_singleton.mp h1]
        exact he
    · rw [if_neg hk] at hmap2
      subst hmap2
      exact h row0 hrow0 e hee
  · rw [if_neg hany]
    intro row hrow e hee
    rcases List.mem_append.mp hrow with h1 | h1
    · exact h row h1 e hee
    · have h2 := List.mem_singleton.mp h1
      subst h2
      have hee2 : e ∈ [entry] := hee
      rw [List.mem_singleton.mp hee2]
      exact he

theorem spawnFold_mem (nonTerminal : Int) (syms : List Int) :
    ∀ (rules : List Production) (acc : List Item) (it : Item),
      it ∈ rules.foldl (fun acc r =>
        if (r.lhs : Int) = nonTerminal then
          acc ++ syms.map (fun sym => (⟨r, 0, sym⟩ : Item))
        else acc) acc →
      it ∈ acc ∨ ∃ r ∈ rules, (r.lhs : Int) = nonTerminal ∧
        ∃ sym, it = ⟨r, 0, sym⟩ := by
  intro rules
  induction rules with
  | nil =>
    intro acc it h
    exact Or.inl h
  | cons r rs ih =>
    intro acc it h
    simp only [List.foldl_cons] at h
    rcases ih _ it h with hacc | hex
    · by_cases hlhs : (r.lhs : Int) = nonTerminal
      · rw [if_pos hlhs] at hacc
        rcases List.mem_append.mp hacc with h1 | h1
        · exact Or.inl h1
        · right
          obtain ⟨sym, _, heq⟩ := List.mem_map.mp h1
          exact ⟨r, List.mem_cons_self _ _, hlhs, sym, heq.symm⟩
      · rw [if_neg hlhs] at hacc
        exact Or.inl hacc
    · obtain ⟨r', hr', hl, sym, he⟩ := hex
      exact Or.inr ⟨r', List.mem_cons_of_mem _ hr', hl, sym, he⟩

theorem closureLoop_itemOK (g : Grammar) (first : List (List Int))
    (hnorhs : ∀ r ∈ g.rules, GOAL ∉ r.rhs) :
    ∀ (fuel : Nat) (kernel state st' : List Item),
      (∀ it ∈ kernel, ItemOK g it) → (∀ it ∈ state, ItemOK g it) →
      closureLoop g first fuel kernel state = some st' →
      ∀ it ∈ st', ItemOK g it := by
  intro fuel
  induction fuel with
  | zero =>
    intro kernel state st' _ _ hrun
    exact Option.noConfusion hrun
  | succ fuel ih =>
    intro kernel state st' hk hs hrun
    cases hrev : kernel.reverse with
    | nil =>
      simp only [closureLoop, hrev, Option.some.injEq] at hrun
      subst hrun
      exact hs
    | cons item restRev =>
      simp only [closureLoop, hrev] at hrun
      have hitem : item ∈ kernel := by
        have h1 : item ∈ kernel.reverse := by
          rw [hrev]
          exact List.mem_cons_self _ _
        exact List.mem_reverse.mp h1
      have hrest : ∀ it ∈ restRev.reverse, ItemOK g it := by
        intro it hit
        apply hk
        have h1 : it ∈ kernel.reverse := by
          rw [hrev]
          exact List.mem_cons_of_mem _ (List.mem_reverse.mp hit)
        exact List.mem_reverse.mp h1
      by_cases hin : item ∈ state
      · rw [if_pos hin] at hrun
        exact ih _ _ _ hrest hs hrun
      · rw [if_neg hin] at hrun
        have hs2 : ∀ it ∈ state ++ [item], ItemOK g it := by
          intro it hit
          rcases List.mem_append.mp hit with h1 | h1
          · exact hs it h1
          · rw [List.mem_singleton.mp h1]
            exact hk item hitem
        by_cases hsucc : item.has_successor = true
        · rw [if_pos hsucc] at hrun
          have hcur : item.cursor < item.rule.rhs.length :=
            (has_successor_iff item).mp hsucc
          obtain ⟨loc, hloc⟩ : ∃ loc, item.get_locus = some loc :=
            ⟨_, List.get?_eq_get hcur⟩
          have hlocmem : loc ∈ item.rule.rhs := by
            unfold Item.get_locus at hloc
            exact List.get?_mem hloc
          simp only [hloc] at hrun
          by_cases hnt : 0 ≤ loc ∧ loc.toNat < g.numNT
          · rw [if_pos hnt] at hrun
            cases hfl : followLoop g first (item.rule.rhs.length + 1)
                item.get_successor [] with
            | none =>
              simp only [hfl] at hrun
              exact Option.noConfusion hrun
            | some pr =>
              obtain ⟨follow, empty⟩ := pr
              simp only [hfl] at hrun
              apply ih _ _ _ ?_ hs2 hrun
              intro it hit
              rcases List.mem_append.mp hit with h1 | h1
              · exact hrest it h1
              · rcases spawnFold_mem loc _ g.rules [] it h1 with h2 | h2
                · exact absurd h2 (List.not_mem_nil _)
                · obtain ⟨r', hr', hl, sym, he⟩ := h2
                  subst he
                  refine ⟨hr', ?_⟩
                  intro hGoal
                  have hlocGoal : loc = GOAL :=
                    hl.symm.trans hGoal
                  exact absurd (hlocGoal ▸ hlocmem)
                    (hnorhs item.rule (hk item hitem).1)
          · rw [if_neg hnt] at hrun
            exact ih _ _ _ hrest hs2 hrun
        · rw [if_neg hsucc] at hrun
          exact ih _ _ _ hrest hs2 hrun

theorem closure_itemOK (g : Grammar) (first : List (List Int))
    (hnorhs : ∀ r ∈ g.rules, GOAL ∉ r.rhs) (fuel : Nat)
    (kernel st' : List Item) (hk : ∀ it ∈ kernel, ItemOK g it)
    (h : closure g first fuel kernel = some st') :
    ∀ it ∈ st', ItemOK g it :=
  closureLoop_itemOK g first hnorhs fuel kernel [] st' hk
    (fun it hit => absurd hit (List.not_mem_nil _)) h

theorem genItemFold_ok (g : Grammar)
    (hgoalrules : ∀ r ∈ g.rules, (r.lhs : Int) = GOAL → r.index = 0)
    (state : List Item) :
    ∀ (items : List Item)
      (acc res : List ((List Item × Int) × List (Nat × AData)) ×
        List (Int × List Item)),
      (∀ it ∈ items, ItemOK g it) →
      TblOK acc.1 →
      (∀ row ∈ acc.2, ∀ it2 ∈ row.2, ItemOK g it2) →
      items.foldlM (genItemStep state) acc = some res →
      TblOK res.1 ∧ ∀ row ∈ res.2, ∀ it2 ∈ row.2, ItemOK g it2 := by
  intro items
  induction items with
  | nil =>
    intro acc res _ ht htr hfold
    simp only [List.foldlM_nil] at hfold
    have h := Option.some_injective _ hfold
    subst h
    exact ⟨ht, htr⟩
  | cons it its ih =>
    intro acc res hall ht htr hfold
    simp only [List.foldlM_cons] at hfold
    have hitOK := hall it (List.mem_cons_self _ _)
    have hrest : ∀ x ∈ its, ItemOK g x :=
      fun x hx => hall x (List.mem_cons_of_mem _ hx)
    by_cases hsucc : it.has_successor = true
    · have hcur : it.cursor < it.rule.rhs.length :=
        (has_successor_iff it).mp hsucc
      obtain ⟨loc, hloc⟩ : ∃ loc, it.get_locus = some loc :=
        ⟨_, List.get?_eq_get hcur⟩
      have hstep : genItemStep state acc it =
          some (acc.1, listAdd acc.2 loc it.get_successor) := by
        unfold genItemStep
        rw [if_pos hsucc, hloc]
      rw [hstep] at hfold
      have hfold2 : its.foldlM (genItemStep state)
          (acc.1, listAdd acc.2 loc it.get_successor) = some res := by
        simpa using hfold
      exact ih (acc.1, listAdd acc.2 loc it.get_successor) res hrest ht
        (listAdd_forall (ItemOK g) htr hitOK) hfold2
    · have hstep : genItemStep state acc it =
          some (setAdd acc.1 (state, it.lookahead)
            ((if (it.rule.lhs : Int) = GOAL then ACCEPT else REDUCE),
              AData.prod it.rule.index), acc.2) := by
        unfold genItemStep
        rw [if_neg hsucc]
      rw [hstep] at hfold
      have hfold2 : its.foldlM (genItemStep state)
          (setAdd acc.1 (state, it.lookahead)
            ((if (it.rule.lhs : Int) = GOAL then ACCEPT else REDUCE),
              AData.prod it.rule.index), acc.2) = some res := by
        simpa using hfold
      have hcell : CellOK (state, it.lookahead)
          ((if (it.rule.lhs : Int) = GOAL then ACCEPT else REDUCE),
            AData.prod it.rule.index) := by
        intro hacc
        by_cases hg : (it.rule.lhs : Int) = GOAL
        · refine ⟨hitOK.2 hg, ?_⟩
          rw [hgoalrules it.rule hitOK.1 hg]
        · rw [if_neg hg] at hacc
          exact absurd hacc (show REDUCE ≠ ACCEPT by decide)
      exact ih (setAdd acc.1 (state, it.lookahead)
          ((if (it.rule.lhs : Int) = GOAL then ACCEPT else REDUCE),
            AData.prod it.rule.index), acc.2) res hrest
        (setAdd_forall CellOK ht hcell) htr hfold2

theorem genTransFold_ok (g : Grammar) (first : List (List Int))
    (cfuel : Nat) (hnorhs : ∀ r ∈ g.rules, GOAL ∉ r.rhs)
    (state : List Item) :
    ∀ (trs : List (Int × List Item))
      (acc res : List ((List Item × Int) × List (Nat × AData)) ×
        List (List Item)),
      (∀ row ∈ trs, ∀ it ∈ row.2, ItemOK g it) →
      TblOK acc.1 → (∀ st ∈ acc.2, ∀ it ∈ st, ItemOK g it) →
      trs.foldlM (genTransStep g first cfuel state) acc = some res →
      TblOK res.1 ∧ ∀ st ∈ res.2, ∀ it ∈ st, ItemOK g it := by
  intro trs
  induction trs with
  | nil =>
    intro acc res _ ht hfr hfold
    simp only [List.foldlM_nil] at hfold
    have h := Option.some_injective _ hfold
    subst h
    exact ⟨ht, hfr⟩
  | cons p ps ih =>
    intro acc res hall ht hfr hfold
    simp only [List.foldlM_cons] at hfold
    cases hcl : closure g first cfuel p.2 with
    | none =>
      have hstep : genTransStep g first cfuel state acc p = none := by
        unfold genTransStep
        rw [hcl]
      rw [hstep] at hfold
      simp at hfold
    | some ns =>
      have hstep : genTransStep g first cfuel state acc p =
          some (setAdd acc.1 (state, p.1)
            ((if p.1 ∈ g.terminals then SHIFT else GOTO), AData.next ns),
            acc.2 ++ [ns]) := by
        unfold genTransStep
        rw [hcl]
      rw [hstep] at hfold
      have hfold2 : ps.foldlM (genTransStep g first cfuel state)
          (setAdd acc.1 (state, p.1)
            ((if p.1 ∈ g.terminals then SHIFT else GOTO), AData.next ns),
            acc.2 ++ [ns]) = some res := by
        simpa using hfold
      have hnsOK : ∀ it ∈ ns, ItemOK g it :=
        closure_itemOK g first hnorhs cfuel p.2 ns
          (hall p (List.mem_cons_self _ _)) hcl
      have hcell : CellOK (state, p.1)
          ((if p.1 ∈ g.terminals then SHIFT else GOTO), AData.next ns) := by
        intro hacc
        by_cases hterm : p.1 ∈ g.terminals
        · rw [if_pos hterm] at hacc
          exact absurd hacc (show SHIFT ≠ ACCEPT by decide)
        · rw [if_neg hterm] at hacc
          exact absurd hacc (show GOTO ≠ ACCEPT by decide)
      have hfr2 : ∀ st ∈ acc.2 ++ [ns], ∀ it ∈ st, ItemOK g it := by
        intro st hst
        rcases List.mem_append.mp hst with h1 | h1
        · exact hfr st h1
        · rw [List.mem_singleton.mp h1]
          exact hnsOK
      exact ih (setAdd acc.1 (state, p.1)
          ((if p.1 ∈ g.terminals then SHIFT else GOTO), AData.next ns),
          acc.2 ++ [ns]) res
        (fun row hrow => hall row (List.mem_cons_of_mem _ hrow))
        (setAdd_forall CellOK ht hcell) hfr2 hfold2

theorem genLoop_tblOK (g : Grammar) (first : List (List Int))
    (cfuel : Nat)
    (hgoalrules : ∀ r ∈ g.rules, (r.lhs : Int) = GOAL → r.index = 0)
    (hnorhs : ∀ r ∈ g.rules, GOAL ∉ r.rhs) :
    ∀ (gfuel : Nat) (frontier explored : List (List Item))
      (table res : List ((List Item × Int) × List (Nat × AData))),
      (∀ st ∈ frontier, ∀ it ∈ st, ItemOK g it) →
      TblOK table →
      genLoop g first cfuel gfuel frontier explored table = some res →
      TblOK res := by
  intro gfuel
  induction gfuel with
  | zero =>
    intro frontier explored table res _ _ hrun
    exact Option.noConfusion hrun
  | succ gfuel ih =>
    intro frontier explored table res hfr ht hrun
    cases hrev : frontier.reverse with
    | nil =>
      simp only [genLoop, hrev, Option.some.injEq] at hrun
      subst hrun
      exact ht
    | cons state restRev =>
      simp only [genLoop, hrev] at hrun
      have hstateOK : ∀ it ∈ state, ItemOK g it := by
        apply hfr
        have h1 : state ∈ frontier.reverse := by
          rw [hrev]
          exact List.mem_cons_self _ _
        exact List.mem_reverse.mp h1
      have hrestOK : ∀ st ∈ restRev.reverse, ∀ it ∈ st, ItemOK g it := by
        intro st hst
        apply hfr
        have h1 : st ∈ frontier.reverse := by
          rw [hrev]
          exact List.mem_cons_of_mem _ (List.mem_reverse.mp hst)
        exact List.mem_reverse.mp h1
      by_cases hin : state ∈ explored
      · rw [if_pos hin] at hrun
        exact ih _ _ _ _ hrestOK ht hrun
      · rw [if_neg hin] at hrun
        cases h1 : state.foldlM (genItemStep state)
            (table, ([] : List (Int × List Item))) with
        | none =>
          simp only [h1] at hrun
          exact Option.noConfusion hrun
        | some pr1 =>
          obtain ⟨table2, transitions⟩ := pr1
          simp only [h1] at hrun
          obtain ⟨ht2, htrs⟩ := genItemFold_ok g hgoalrules state state
            (table, ([] : List (Int × List Item))) (table2, transitions)
            hstateOK ht
            (fun row hrow => absurd hrow (List.not_mem_nil _)) h1
          cases h2 : transitions.foldlM (genTransStep g first cfuel state)
              (table2, restRev.reverse) with
          | none =>
            simp only [h2] at hrun
            exact Option.noConfusion hrun
          | some pr2 =>
            obtain ⟨table3, frontier2⟩ := pr2
            simp only [h2] at hrun
            obtain ⟨ht3, hfr2⟩ := genTransFold_ok g first cfuel hnorhs
              state transitions (table2, restRev.reverse)
              (table3, frontier2) htrs ht2 hrestOK h2
            exact ih _ _ _ _ hfr2 ht3 hrun

theorem simpEntryStep_ok (key : List Item × Int) (sid : Nat)
    {acc : List ((Nat × Int) × List (Nat × Nat)) ×
      List (List Item × Nat) × Nat} {entry : Nat × AData}
    (hok : SimpOK acc.1) (he : CellOK key entry) :
    SimpOK (simpEntryStep (sid, key.2) acc entry).1 := by
  unfold simpEntryStep
  by_cases h1 : entry.1 = SHIFT ∨ entry.1 = GOTO
  · rw [if_pos h1]
    cases hdd : entry.2 with
    | next st =>
      show SimpOK (setAdd acc.1 (sid, key.2)
        (entry.1, (getId acc.2.1 acc.2.2 st).1))
      apply setAdd_forall
        (fun (k : Nat × Int) (e : Nat × Nat) =>
          e.1 = ACCEPT → k.2 = END ∧ e.2 = 0) hok
      intro hacc
      rcases h1 with h2 | h2
      · exact absurd (h2.symm.trans hacc) (show SHIFT ≠ ACCEPT by decide)
      · exact absurd (h2.symm.trans hacc) (show GOTO ≠ ACCEPT by decide)
    | prod idx =>
      exact hok
  · rw [if_neg h1]
    by_cases h2 : entry.1 = REDUCE ∨ entry.1 = ACCEPT
    · rw [if_pos h2]
      cases hdd : entry.2 with
      | prod idx =>
        show SimpOK (setAdd acc.1 (sid, key.2) (entry.1, idx))
        apply setAdd_forall
          (fun (k : Nat × Int) (e : Nat × Nat) =>
            e.1 = ACCEPT → k.2 = END ∧ e.2 = 0) hok
        intro hacc
        have hkey := he hacc
        have hidx : AData.prod idx = AData.prod 0 := hdd ▸ hkey.2
        refine ⟨hkey.1, ?_⟩
        injection hidx
      | next st =>
        exact hok
    · rw [if_neg h2]
      exact hok

theorem simpEntryFold_ok (key : List Item × Int) (sid : Nat) :
    ∀ (entries : List (Nat × AData))
      (acc : List ((Nat × Int) × List (Nat × Nat)) ×
        List (List Item × Nat) × Nat),
      (∀ e ∈ entries, CellOK key e) → SimpOK acc.1 →
      SimpOK ((entries.foldl (simpEntryStep (sid, key.2)) acc).1) := by
  intro entries
  induction entries with
  | nil =>
    intro acc _ hok
    simpa using hok
  | cons e es ih =>
    intro acc hall hok
    simp only [List.foldl_cons]
    exact ih _ (fun x hx => hall x (List.mem_cons_of_mem _ hx))
      (simpEntryStep_ok key sid hok (hall e (List.mem_cons_self _ _)))

theorem simpRowFold_ok :
    ∀ (tbl : List ((List Item × Int) × List (Nat × AData)))
      (acc : List ((Nat × Int) × List (Nat × Nat)) ×
        List (List Item × Nat) × Nat),
      TblOK tbl → SimpOK acc.1 →
      SimpOK ((tbl.foldl simpRowStep acc).1) := by
  intro tbl
  induction tbl with
  | nil =>
    intro acc _ hok
    simpa using hok
  | cons row rows ih =>
    intro acc hT hok
    simp only [List.foldl_cons]
    apply ih _ (fun r hr => hT r (List.mem_cons_of_mem _ hr))
    show SimpOK ((row.2.foldl (simpEntryStep
      ((getId acc.2.1 acc.2.2 row.1.1).1, row.1.2))
      (acc.1, (getId acc.2.1 acc.2.2 row.1.1).2)).1)
    exact simpEntryFold_ok row.1 (getId acc.2.1 acc.2.2 row.1.1).1 row.2
      (acc.1, (getId acc.2.1 acc.2.2 row.1.1).2)
      (hT row (List.mem_cons_self _ _)) hok

theorem simplify_table_ok
    {table : List ((List Item × Int) × List (Nat × AData))}
    {initialState : List Item} (hT : TblOK table) :
    SimpOK (simplify_table table initialState) := by
  unfold simplify_table
  exact simpRowFold_ok table ([], [(initialState, 0)], 1) hT
    (fun row hrow => absurd hrow (List.not_mem_nil _))

/-- C7: for every grammar in which any rule with LHS GOAL is the first rule
(the source constructor makes a rule's index its list position, so the
claim's "the first rule is the only rule whose left-hand side is GOAL"
renders as: every GOAL rule has index 0) and GOAL never occurs in a
right-hand side, every ACCEPT cell of the table produced by
ParserGenerator.generate is keyed by the terminal END and carries
production index 0, so ACCEPT is never emitted for any other production.
The worklists are embedded with fuel, so the statement is conditional on
generate returning a table. -/
theorem c7_accept_cells_goal_rule (g : Grammar)
    (first : List (List Int)) (cfuel gfuel : Nat)
    (hgoalrules : ∀ r ∈ g.rules, (r.lhs : Int) = GOAL → r.index = 0)
    (hnorhs : ∀ r ∈ g.rules, GOAL ∉ r.rhs) :
    ∀ tbl, generate g first cfuel gfuel = some tbl →
      ∀ row ∈ tbl, ∀ e ∈ row.2, e.1 = ACCEPT →
        row.1.2 = END ∧ e.2 = 0 := by
  intro tbl hrun
  unfold generate at hrun
  cases hr0 : g.rules.get? 0 with
  | none =>
    simp only [hr0] at hrun
    exact Option.noConfusion hrun
  | some r0 =>
    simp only [hr0] at hrun
    cases hcl : closure g first cfuel [⟨r0, 0, END⟩] with
    | none =>
      simp only [hcl] at hrun
      exact Option.noConfusion hrun
    | some initialState =>
      simp only [hcl] at hrun
      cases hgl : genLoop g first cfuel gfuel [initialState] [] [] with
      | none =>
        simp only [hgl] at hrun
        exact Option.noConfusion hrun
      | some table =>
        simp only [hgl, Option.some.injEq] at hrun
        subst hrun
        have hinitOK : ∀ it ∈ initialState, ItemOK g it := by
          apply closure_itemOK g first hnorhs cfuel _ _ ?_ hcl
          intro it hit
          rw [List.mem_singleton.mp hit]
          exact ⟨List.get?_mem hr0, fun _ => rfl⟩
        have hT : TblOK table := by
          apply genLoop_tblOK g first cfuel hgoalrules hnorhs gfuel
            [initialState] [] [] table ?_ ?_ hgl
          · intro st hst
            rw [List.mem_singleton.mp hst]
            exact hinitOK
          · intro row hrow
            exact absurd hrow (List.not_mem_nil _)
        exact simplify_table_ok hT

/-- Witness grammar for C7: terminal -3; rules GOAL → N1 and N1 → -3. -/
def gC7W : Grammar := ⟨{-3}, 2, [⟨0, 0, [1]⟩, ⟨1, 1, [-3]⟩]⟩

/-- FIRST map passed to generate for the C7 witness. -/
def firstC7W : List (List Int) := [[-3], [-3]]

/-- C7 witness: the hypotheses hold for a concrete small grammar, and
generate completes on it. -/
theorem c7_witness :
    (∀ tbl, generate gC7W firstC7W 10 10 = some tbl →
      ∀ row ∈ tbl, ∀ e ∈ row.2, e.1 = ACCEPT →
        row.1.2 = END ∧ e.2 = 0) ∧
    (generate gC7W firstC7W 10 10).isSome = true :=
  ⟨c7_accept_cells_goal_rule gC7W firstC7W 10 10 (by decide) (by decide),
    by decide⟩

end Compylr
